import Mathlib

/-!
# Cache simulator (`Cache.hpp`, `main.cpp`): embedding and verified properties

The three cache classes of `Cache.hpp` are embedded as state-passing functions.
A machine word is a `Nat`; arithmetic that can wrap is reduced explicitly
(`uint32_t` modulo `2 ^ 32`, `std::size_t` modulo `2 ^ 64`).  A step whose
behaviour the C++ standard leaves undefined (a shift by 32 or more, an array
access outside the array, `front()` of an empty queue, a division by zero, the
conversion of `-inf` to an integer) yields `none`.

A `Line*` stored in `Set::toReplace` always points into the `lines` array of the
same set, so the queue is a list of line indices.
-/

namespace CacheSim


/-! ## Constants and bit arithmetic -/

/-- The constant `constexpr uint32_t ADDR_SIZE { 32 }`. -/
def ADDR_SIZE : Nat := 32

/-- Number of values of a `uint32_t`. -/
def UINT32_MOD : Nat := 2 ^ 32

/-- Number of values of a `std::size_t` (64 bit). -/
def SIZE_MOD : Nat := 2 ^ 64

/-- The value `std::numeric_limits<std::size_t>::max()`. -/
def SIZE_MAX : Nat := 2 ^ 64 - 1

/-- The loop of `mask`: `for (uint32_t i = a; i <= b; i++) r |= 1 << i;`.
The first argument bounds the number of tests of the loop condition.  The body
`1 << i` is undefined for `i >= 32` (`none`), so `i + 1` never wraps. -/
def maskLoop : Nat → Nat → Nat → Nat → Option Nat
  | 0, _, _, _ => none
  | fuel + 1, i, b, r =>
    if i ≤ b then
      if i < 32 then maskLoop fuel (i + 1) b (r ||| (1 <<< i))
      else none
    else some r

/-- The function `uint32_t mask(uint32_t a, uint32_t b)`.  A defined run tests
the loop condition at most 33 times (`i = 0, ..., 32`), see `maskLoop_fuel`. -/
def mask (a b : Nat) : Option Nat := maskLoop 33 a b 0

/-- The shift `x >> k` on `uint32_t`, undefined for `k >= 32`. -/
def shr32 (x k : Nat) : Option Nat :=
  if k < 32 then some (x >>> k) else none

/-- Integer binary logarithm by repeated halving, `fuel` halvings at most. -/
def log2Loop : Nat → Nat → Nat
  | 0, _ => 0
  | fuel + 1, n => if 2 ≤ n then log2Loop fuel (n / 2) + 1 else 0

/-- The expression `static_cast<uint32_t>(std::log2(x))` for a `uint32_t x`:
the integer part of the binary logarithm for `x >= 1`; for `x = 0` the
logarithm is `-inf`, whose conversion to `uint32_t` is undefined. -/
def log2u (x : Nat) : Option Nat :=
  if x = 0 then none else some (log2Loop 32 x)

/-! ## Data model -/

/-- The struct `Line`, with its default member initialisers. -/
structure Line where
  tag : Nat := 0
  counter : Nat := 0
  inUse : Bool := false
deriving DecidableEq, Repr

/-- The struct `Set`: the line array and the queue `toReplace` (line indices). -/
structure Set where
  lines : List Line
  toReplace : List Nat
deriving DecidableEq, Repr

/-- The data members of class `Cache`. -/
structure Cache where
  cacheSize : Nat
  lineSize : Nat
  totalLines : Nat
  useFIFO : Bool
  sets : List Set
  hits : Nat
  misses : Nat
deriving DecidableEq, Repr

/-- The class `SetAssociativeCache`: `Cache` and the two private members. -/
structure SetAssociativeCache extends Cache where
  numSets : Nat
  associativity : Nat
deriving DecidableEq, Repr

/-- A `Set` as `std::make_unique<Line[]>(n)` leaves it: `n` value-initialised
lines and an empty queue. -/
def Set.fresh (n : Nat) : Set :=
  { lines := List.replicate n {}, toReplace := [] }

/-! ## Loops over the lines of one set -/

/-- The hit loop `for (i = 0; i < n; i++) if (lines[i].inUse && lines[i].tag == tag)`:
the index of the first matching line, or `some none` when the loop runs to its
end.  The first `Nat` is the number of iterations left, the second is `i`. -/
def findTag (lines : List Line) (tag : Nat) : Nat → Nat → Option (Option Nat)
  | 0, _ => some none
  | k + 1, i =>
    match lines[i]? with
    | none => none
    | some l =>
      if l.inUse && l.tag == tag then some (some i)
      else findTag lines tag k (i + 1)

/-- The fill loop `for (i = 0; i < n; i++) if (!lines[i].inUse)`: the index of
the first free line, or `some none` when every line visited is in use. -/
def findFree (lines : List Line) : Nat → Nat → Option (Option Nat)
  | 0, _ => some none
  | k + 1, i =>
    match lines[i]? with
    | none => none
    | some l =>
      if !l.inUse then some (some i)
      else findFree lines k (i + 1)

/-- The victim loop of the counter policy,
`for (l = 0; l < n; l++) if (lines[l].counter < minCounter) { minCounter = ...; minIndex = l; }`,
returning `minIndex`. -/
def minCounterLoop (lines : List Line) : Nat → Nat → Nat → Nat → Option Nat
  | 0, _, minIndex, _ => some minIndex
  | k + 1, l, minIndex, minCounter =>
    match lines[l]? with
    | none => none
    | some ln =>
      if ln.counter < minCounter then minCounterLoop lines k (l + 1) l ln.counter
      else minCounterLoop lines k (l + 1) minIndex minCounter

/-- An update `lines[i].field = ...` of one line in place. -/
def modifyLine (lines : List Line) (i : Nat) (f : Line → Line) : Option (List Line) :=
  match lines[i]? with
  | none => none
  | some l => some (lines.set i (f l))

/-! ## `FullyAssociativeCache` -/

/-- The constructor `FullyAssociativeCache(_cacheSize, _lineSize, _useFIFO)`;
`_cacheSize / _lineSize` is undefined for `_lineSize = 0`. -/
def FullyAssociativeCache.new (cacheSize lineSize : Nat) (useFIFO : Bool) : Option Cache :=
  if lineSize = 0 then none
  else
    some { cacheSize := cacheSize, lineSize := lineSize,
           totalLines := cacheSize / lineSize, useFIFO := useFIFO,
           sets := [Set.fresh (cacheSize / lineSize)], hits := 0, misses := 0 }

/-- The method `FullyAssociativeCache::AddrInCache`. -/
def FullyAssociativeCache.AddrInCache (c : Cache) (addr : Nat) : Option (Bool × Cache) := do
  let set ← c.sets[0]?
  let offsetWidth ← log2u c.lineSize
  let m ← mask offsetWidth (ADDR_SIZE - 1)
  let tag ← shr32 (m &&& addr) offsetWidth
  match ← findTag set.lines tag c.totalLines 0 with
  | some i =>
    let lines ←
      if !c.useFIFO then
        modifyLine set.lines i (fun l => { l with counter := (l.counter + 1) % SIZE_MOD })
      else some set.lines
    some (true, { c with sets := c.sets.set 0 { set with lines := lines },
                         hits := (c.hits + 1) % UINT32_MOD })
  | none =>
    let misses := (c.misses + 1) % UINT32_MOD
    match ← findFree set.lines c.totalLines 0 with
    | some i =>
      let lines ← modifyLine set.lines i (fun l => { l with inUse := true, tag := tag })
      if c.useFIFO then
        some (false, { c with sets := c.sets.set 0 { lines := lines, toReplace := set.toReplace ++ [i] },
                              misses := misses })
      else do
        let lines ← modifyLine lines i (fun l => { l with counter := 0 })
        some (false, { c with sets := c.sets.set 0 { set with lines := lines }, misses := misses })
    | none =>
      if c.useFIFO then do
        let lineToReplace ← set.toReplace.head?
        let lines ← modifyLine set.lines lineToReplace (fun l => { l with tag := tag })
        some (false, { c with sets := c.sets.set 0
                                { lines := lines, toReplace := set.toReplace.tail ++ [lineToReplace] },
                              misses := misses })
      else do
        let minIndex ← minCounterLoop set.lines c.totalLines 0 0 SIZE_MAX
        let lines ← modifyLine set.lines minIndex (fun l => { l with tag := tag })
        some (false, { c with sets := c.sets.set 0 { set with lines := lines }, misses := misses })

/-- The trace loop of `FullCache` in `main.cpp`: one `AddrInCache` call per
address, in order; the results and the final cache. -/
def FullyAssociativeCache.run : Cache → List Nat → Option (List Bool × Cache)
  | c, [] => some ([], c)
  | c, a :: as => do
    let r ← FullyAssociativeCache.AddrInCache c a
    let rs ← FullyAssociativeCache.run r.2 as
    some (r.1 :: rs.1, rs.2)

/-- Construction followed by the trace loop. -/
def FullyAssociativeCache.simulate (cacheSize lineSize : Nat) (useFIFO : Bool)
    (addrs : List Nat) : Option (List Bool × Cache) := do
  let c ← FullyAssociativeCache.new cacheSize lineSize useFIFO
  FullyAssociativeCache.run c addrs

/-! ## `DirectMappedCache` -/

/-- The constructor `DirectMappedCache(_cacheSize, _bytesInLine, _useFIFO)`. -/
def DirectMappedCache.new (cacheSize lineSize : Nat) (useFIFO : Bool) : Option Cache :=
  if lineSize = 0 then none
  else
    some { cacheSize := cacheSize, lineSize := lineSize,
           totalLines := cacheSize / lineSize, useFIFO := useFIFO,
           sets := List.replicate (cacheSize / lineSize) (Set.fresh 1), hits := 0, misses := 0 }

/-- The method `DirectMappedCache::AddrInCache`.  The second argument of the
first `mask` call is `bitsInOffset + bitsInLine - 1` in `uint32_t` arithmetic. -/
def DirectMappedCache.AddrInCache (c : Cache) (addr : Nat) : Option (Bool × Cache) := do
  let bitsInOffset ← log2u c.lineSize
  let bitsInLine ← log2u c.totalLines
  let m1 ← mask bitsInOffset ((bitsInOffset + bitsInLine + (UINT32_MOD - 1)) % UINT32_MOD)
  let line ← shr32 (m1 &&& addr) bitsInOffset
  let m2 ← mask (bitsInOffset + bitsInLine) (ADDR_SIZE - 1)
  let tag ← shr32 (m2 &&& addr) (bitsInOffset + bitsInLine)
  let set ← c.sets[line]?
  let l0 ← set.lines[0]?
  if l0.inUse && l0.tag == tag then
    some (true, { c with hits := (c.hits + 1) % UINT32_MOD })
  else
    let l1 : Line := if !l0.inUse then { l0 with inUse := true } else l0
    some (false, { c with sets := c.sets.set line
                            { set with lines := set.lines.set 0 { l1 with tag := tag } } })

/-- The trace loop of `DirectCache` in `main.cpp`. -/
def DirectMappedCache.run : Cache → List Nat → Option (List Bool × Cache)
  | c, [] => some ([], c)
  | c, a :: as => do
    let r ← DirectMappedCache.AddrInCache c a
    let rs ← DirectMappedCache.run r.2 as
    some (r.1 :: rs.1, rs.2)

/-- Construction followed by the trace loop. -/
def DirectMappedCache.simulate (cacheSize lineSize : Nat) (useFIFO : Bool)
    (addrs : List Nat) : Option (List Bool × Cache) := do
  let c ← DirectMappedCache.new cacheSize lineSize useFIFO
  DirectMappedCache.run c addrs

/-! ## `SetAssociativeCache` -/

/-- The constructor `SetAssociativeCache(_cacheSize, _lineSize, _associativity, _useFIFO)`;
`totalLines / _associativity` is undefined for `_associativity = 0`. -/
def SetAssociativeCache.new (cacheSize lineSize associativity : Nat) (useFIFO : Bool) :
    Option SetAssociativeCache :=
  if lineSize = 0 then none
  else if associativity = 0 then none
  else
    some { cacheSize := cacheSize, lineSize := lineSize,
           totalLines := cacheSize / lineSize, useFIFO := useFIFO,
           sets := List.replicate (cacheSize / lineSize / associativity) (Set.fresh associativity),
           hits := 0, misses := 0,
           numSets := cacheSize / lineSize / associativity, associativity := associativity }

/-- The method `SetAssociativeCache::AddrInCache`.  The two scan loops run over
`associativity` lines, the victim loop of the counter policy over `totalLines`. -/
def SetAssociativeCache.AddrInCache (c : SetAssociativeCache) (addr : Nat) :
    Option (Bool × SetAssociativeCache) := do
  let offsetWidth ← log2u c.lineSize
  let setWidth ← log2u c.numSets
  let m1 ← mask offsetWidth ((offsetWidth + setWidth + (UINT32_MOD - 1)) % UINT32_MOD)
  let set ← shr32 (m1 &&& addr) offsetWidth
  let m2 ← mask (offsetWidth + setWidth) (ADDR_SIZE - 1)
  let tag ← shr32 (m2 &&& addr) (offsetWidth + setWidth)
  let s ← c.sets[set]?
  match ← findTag s.lines tag c.associativity 0 with
  | some i =>
    let lines ←
      if !c.useFIFO then
        modifyLine s.lines i (fun l => { l with counter := (l.counter + 1) % SIZE_MOD })
      else some s.lines
    some (true, { c with sets := c.sets.set set { s with lines := lines },
                         hits := (c.hits + 1) % UINT32_MOD })
  | none =>
    let misses := (c.misses + 1) % UINT32_MOD
    match ← findFree s.lines c.associativity 0 with
    | some i =>
      let lines ← modifyLine s.lines i (fun l => { l with inUse := true, tag := tag })
      if c.useFIFO then
        some (false, { c with sets := c.sets.set set { lines := lines, toReplace := s.toReplace ++ [i] },
                              misses := misses })
      else do
        let lines ← modifyLine lines i (fun l => { l with counter := 0 })
        some (false, { c with sets := c.sets.set set { s with lines := lines }, misses := misses })
    | none =>
      if c.useFIFO then do
        let lineToReplace ← s.toReplace.head?
        let lines ← modifyLine s.lines lineToReplace (fun l => { l with tag := tag })
        some (false, { c with sets := c.sets.set set
                                { lines := lines, toReplace := s.toReplace.tail ++ [lineToReplace] },
                              misses := misses })
      else do
        let minIndex ← minCounterLoop s.lines c.totalLines 0 0 SIZE_MAX
        let lines ← modifyLine s.lines minIndex (fun l => { l with tag := tag })
        some (false, { c with sets := c.sets.set set { s with lines := lines }, misses := misses })

/-- The trace loop of `SetAssociative` in `main.cpp`. -/
def SetAssociativeCache.run : SetAssociativeCache → List Nat →
    Option (List Bool × SetAssociativeCache)
  | c, [] => some ([], c)
  | c, a :: as => do
    let r ← SetAssociativeCache.AddrInCache c a
    let rs ← SetAssociativeCache.run r.2 as
    some (r.1 :: rs.1, rs.2)

/-- Construction followed by the trace loop. -/
def SetAssociativeCache.simulate (cacheSize lineSize associativity : Nat) (useFIFO : Bool)
    (addrs : List Nat) : Option (List Bool × SetAssociativeCache) := do
  let c ← SetAssociativeCache.new cacheSize lineSize associativity useFIFO
  SetAssociativeCache.run c addrs

/-! ## The probe of one set, shared by the proofs

`FullyAssociativeCache::AddrInCache` (lines 94-145) and
`SetAssociativeCache::AddrInCache` (lines 226-279) run the same three loops on
one set.  `probeSet` is that common body, with the bound `n` of the two scan
loops and the bound `m` of the victim loop as arguments; the lemmas
`FullyAssociativeCache.fa_AddrInCache_eq` and `SetAssociativeCache.sa_AddrInCache_eq`
show that the two methods above are instances of it. -/

/-- The decoding `(mask(offsetWidth, ADDR_SIZE - 1) & _addr) >> offsetWidth` of
`FullyAssociativeCache::AddrInCache`. -/
def FullyAssociativeCache.tagOf (lineSize addr : Nat) : Option Nat := do
  let offsetWidth ← log2u lineSize
  let m ← mask offsetWidth (ADDR_SIZE - 1)
  shr32 (m &&& addr) offsetWidth

/-- The decoding of an address into (set or line index, tag) as done by
`DirectMappedCache::AddrInCache` (with `numSets = totalLines`) and by
`SetAssociativeCache::AddrInCache`. -/
def decode (lineSize numSets addr : Nat) : Option (Nat × Nat) := do
  let offsetWidth ← log2u lineSize
  let setWidth ← log2u numSets
  let m1 ← mask offsetWidth ((offsetWidth + setWidth + (UINT32_MOD - 1)) % UINT32_MOD)
  let set ← shr32 (m1 &&& addr) offsetWidth
  let m2 ← mask (offsetWidth + setWidth) (ADDR_SIZE - 1)
  let tag ← shr32 (m2 &&& addr) (offsetWidth + setWidth)
  some (set, tag)

/-- The common body of the two associative `AddrInCache` methods on one set. -/
def probeSet (useFIFO : Bool) (n m : Nat) (s : Set) (tag : Nat) : Option (Bool × Set) := do
  match ← findTag s.lines tag n 0 with
  | some i =>
    let lines ←
      if !useFIFO then
        modifyLine s.lines i (fun l => { l with counter := (l.counter + 1) % SIZE_MOD })
      else some s.lines
    some (true, { s with lines := lines })
  | none =>
    match ← findFree s.lines n 0 with
    | some i =>
      let lines ← modifyLine s.lines i (fun l => { l with inUse := true, tag := tag })
      if useFIFO then
        some (false, { lines := lines, toReplace := s.toReplace ++ [i] })
      else do
        let lines ← modifyLine lines i (fun l => { l with counter := 0 })
        some (false, { s with lines := lines })
    | none =>
      if useFIFO then do
        let lineToReplace ← s.toReplace.head?
        let lines ← modifyLine s.lines lineToReplace (fun l => { l with tag := tag })
        some (false, { lines := lines, toReplace := s.toReplace.tail ++ [lineToReplace] })
      else do
        let minIndex ← minCounterLoop s.lines m 0 0 SIZE_MAX
        let lines ← modifyLine s.lines minIndex (fun l => { l with tag := tag })
        some (false, { s with lines := lines })

/-- The set after a hit on line `i`, which held `l`: the counter policy
increments the counter of that line, nothing else changes. -/
def Set.afterHit (useFIFO : Bool) (s : Set) (i : Nat) (l : Line) : Set :=
  { lines := if useFIFO then s.lines
             else s.lines.set i { l with counter := (l.counter + 1) % SIZE_MOD },
    toReplace := s.toReplace }

/-- The set after a miss that fills the free line `i`, which held `l`: the
line is marked in use and gets the tag; FIFO appends `i` to the queue, the
counter policy resets the counter. -/
def Set.afterFill (useFIFO : Bool) (s : Set) (i : Nat) (l : Line) (tag : Nat) : Set :=
  { lines := s.lines.set i
      { tag := tag, counter := if useFIFO then l.counter else 0, inUse := true },
    toReplace := if useFIFO then s.toReplace ++ [i] else s.toReplace }

/-- The set after a miss that evicts line `v`, which held `l`: only the tag of
that line is overwritten; FIFO moves `v` from the front of the queue to its back. -/
def Set.afterEvict (useFIFO : Bool) (s : Set) (v : Nat) (l : Line) (tag : Nat) : Set :=
  { lines := s.lines.set v { l with tag := tag },
    toReplace := if useFIFO then s.toReplace.tail ++ [v] else s.toReplace }

/-- No two distinct in-use lines of the array hold the same tag. -/
def UniqueTags (lines : List Line) : Prop :=
  ∀ (i j : Nat) (li lj : Line), i ≠ j → lines[i]? = some li → lines[j]? = some lj →
    li.inUse = true → lj.inUse = true → li.tag ≠ lj.tag

/-- Invariant of one set of `n` lines: tags of in-use lines are distinct,
counters fit a `std::size_t`, under FIFO the queue lists the in-use lines, each
once, and under the counter policy the queue is empty. -/
def Set.Inv (useFIFO : Bool) (n : Nat) (s : Set) : Prop :=
  s.lines.length = n ∧ UniqueTags s.lines ∧
  (∀ (j : Nat) (l : Line), s.lines[j]? = some l → l.counter ≤ SIZE_MAX) ∧
  (useFIFO = true → s.toReplace.Nodup ∧
    ∀ i : Nat, i ∈ s.toReplace ↔ ∃ l, s.lines[i]? = some l ∧ l.inUse = true) ∧
  (useFIFO = false → s.toReplace = [])

/-- Invariant of a cache built by `FullyAssociativeCache.new cs ls fifo`: the
configuration is unchanged and the one set satisfies `Set.Inv`. -/
def FullyAssociativeCache.Inv (cs ls : Nat) (fifo : Bool) (c : Cache) : Prop :=
  c.lineSize = ls ∧ c.totalLines = cs / ls ∧ c.useFIFO = fifo ∧
    ∃ s, c.sets = [s] ∧ s.Inv fifo (cs / ls)

/-- Invariant of a cache built by `SetAssociativeCache.new cs ls assoc fifo`. -/
def SetAssociativeCache.Inv (cs ls assoc : Nat) (fifo : Bool) (c : SetAssociativeCache) : Prop :=
  c.lineSize = ls ∧ c.totalLines = cs / ls ∧ c.useFIFO = fifo ∧ c.associativity = assoc ∧
    c.numSets = cs / ls / assoc ∧ c.sets.length = cs / ls / assoc ∧
    ∀ s ∈ c.sets, s.Inv fifo assoc

/-- Invariant of a cache built by `DirectMappedCache.new cs ls fifo`: one line
per set, and the queues are never used. -/
def DirectMappedCache.Inv (cs ls : Nat) (c : Cache) : Prop :=
  c.lineSize = ls ∧ c.totalLines = cs / ls ∧ c.sets.length = cs / ls ∧
    ∀ s ∈ c.sets, s.lines.length = 1 ∧ s.toReplace = []

/-- Whether a probe installed a tag in a line: a fill turns `inUse` on, an
eviction changes the tag (to the tag that just missed). -/
def tagWritten (before after : Option Line) : Bool :=
  match before, after with
  | some x, some y => x.inUse != y.inUse || x.tag != y.tag
  | _, _ => false

/-- Install times, a ghost of the proofs: `stamps i` is the number of the
probe that last installed a tag in line `i` (`0` if none did).  `restamp t`
records probe number `t` for the lines that differ between the two arrays. -/
def restamp (t : Nat) (before after : List Line) (stamps : Nat → Nat) : Nat → Nat :=
  fun i => if tagWritten before[i]? after[i]? then t else stamps i

/-- The line array of the one set of a fully associative cache. -/
def FullyAssociativeCache.lines (c : Cache) : List Line :=
  match c.sets[0]? with
  | some s => s.lines
  | none => []

/-- The trace loop `FullyAssociativeCache.run` with the install times kept
alongside: the probe counted as number `t + 1` stamps the line it wrote. -/
def FullyAssociativeCache.runStamped :
    Cache → (Nat → Nat) → Nat → List Nat → Option (Cache × (Nat → Nat))
  | c, stamps, _, [] => some (c, stamps)
  | c, stamps, t, a :: as => do
    let r ← FullyAssociativeCache.AddrInCache c a
    FullyAssociativeCache.runStamped r.2
      (restamp (t + 1) (FullyAssociativeCache.lines c) (FullyAssociativeCache.lines r.2) stamps)
      (t + 1) as

/-- Invariant of the install times under FIFO: no stamp is later than the
number `t` of probes made, and the queue is ordered by strictly increasing
install time. -/
def StampInv (s : Set) (stamps : Nat → Nat) (t : Nat) : Prop :=
  (∀ i : Nat, stamps i ≤ t) ∧ s.toReplace.Pairwise (fun i j => stamps i < stamps j)

/-- Specification of a direct mapped probe, in the words of the claim: the
probe of `a` hits when some earlier probe decoded to the same line index and
the most recent of those had the same tag.  `earlier` lists the addresses
probed before, the most recent first. -/
def DirectMappedCache.hitSpec (lineSize totalLines : Nat) (earlier : List Nat) (a : Nat) : Bool :=
  match earlier.find? (fun e => (decode lineSize totalLines e).map Prod.fst
      == (decode lineSize totalLines a).map Prod.fst) with
  | some e => (decode lineSize totalLines e).map Prod.snd
      == (decode lineSize totalLines a).map Prod.snd
  | none => false

/-- The results that `hitSpec` prescribes for a whole trace. -/
def DirectMappedCache.runSpec (lineSize totalLines : Nat) : List Nat → List Nat → List Bool
  | _, [] => []
  | earlier, a :: as =>
    DirectMappedCache.hitSpec lineSize totalLines earlier a ::
      DirectMappedCache.runSpec lineSize totalLines (a :: earlier) as

/-- The state of a direct mapped cache records the history `earlier` (most
recent first): line `idx` is in use exactly when some earlier probe decoded to
`idx`, and then holds the tag of the most recent one. -/
def DirectMappedCache.Tracks (ls n : Nat) (earlier : List Nat) (c : Cache) : Prop :=
  c.lineSize = ls ∧ c.totalLines = n ∧
  ∀ idx : Nat, idx < n → ∃ s l, c.sets[idx]? = some s ∧ s.lines[0]? = some l ∧
    match earlier.find? (fun e => (decode ls n e).map Prod.fst == some idx) with
    | some e => l.inUse = true ∧ (decode ls n e).map Prod.snd = some l.tag
    | none => l.inUse = false

/-- The cache after a probe of set `idx` with outcome `r`: the set is stored
back and `hits` or `misses` is incremented. -/
def Cache.commit (c : Cache) (idx : Nat) (r : Bool × Set) : Cache :=
  if r.1 then
    { c with sets := c.sets.set idx r.2, hits := (c.hits + 1) % UINT32_MOD }
  else
    { c with sets := c.sets.set idx r.2, misses := (c.misses + 1) % UINT32_MOD }

/-! ## Hit and miss rates -/

/-- The value of a `double` division `x / y` of two unsigned integers, each
converted exactly, under IEEE 754 arithmetic: `0.0 / 0.0` is not-a-number,
`x / 0.0` is `+inf` for `x > 0`, and otherwise the result is the `double`
nearest to the quotient, recorded by its numerator and denominator. -/
inductive Rate where
  | nan : Rate
  | inf : Rate
  | quotient (num den : Nat) : Rate
deriving DecidableEq, Repr

/-- The expression `static_cast<double>(x) / static_cast<double>(y)`. -/
def divDouble (x y : Nat) : Rate :=
  if y = 0 then (if x = 0 then Rate.nan else Rate.inf) else Rate.quotient x y

/-- The method `Cache::HitRate`; `hits + misses` is a `uint32_t` sum. -/
def Cache.HitRate (c : Cache) : Rate :=
  divDouble c.hits ((c.hits + c.misses) % UINT32_MOD)

/-- The method `Cache::MissRate`; `hits + misses` is a `uint32_t` sum. -/
def Cache.MissRate (c : Cache) : Rate :=
  divDouble c.misses ((c.hits + c.misses) % UINT32_MOD)

/-! ## The configuration checks of `main` -/

/-- Install times for every set: `stamps k i` belongs to line `i` of set `k`;
see `restamp`. -/
def restampSets (t : Nat) (before after : List Set) (stamps : Nat → Nat → Nat) :
    Nat → Nat → Nat :=
  fun k =>
    match before[k]?, after[k]? with
    | some x, some y => restamp t x.lines y.lines (stamps k)
    | _, _ => stamps k

/-- The trace loop `SetAssociativeCache.run` with the install times kept
alongside: the probe counted as number `t + 1` stamps the line it wrote. -/
def SetAssociativeCache.runStamped :
    SetAssociativeCache → (Nat → Nat → Nat) → Nat → List Nat →
      Option (SetAssociativeCache × (Nat → Nat → Nat))
  | c, stamps, _, [] => some (c, stamps)
  | c, stamps, t, a :: as => do
    let r ← SetAssociativeCache.AddrInCache c a
    SetAssociativeCache.runStamped r.2 (restampSets (t + 1) c.sets r.2.sets stamps) (t + 1) as

/-- After `t` probes no counter exceeds `t`, and a line that is not in use has
counter 0. -/
def CounterInv (t : Nat) (s : Set) : Prop :=
  ∀ (j : Nat) (l : Line), s.lines[j]? = some l →
    l.counter ≤ t ∧ (l.inUse = false → l.counter = 0)

/-- Shape of a FIFO set of `n` lines after `m` misses: exactly the lines below
`m` are in use, and the queue lists the line indices in round-robin order,
starting at `m mod n` once all lines are in use. -/
def FifoShape (n m : Nat) (s : Set) : Prop :=
  (∀ (i : Nat) (l : Line), s.lines[i]? = some l → (l.inUse = true ↔ i < m)) ∧
  s.toReplace = if m < n then List.range m else (List.range n).rotate (m % n)

/-- The state of the queue of one set that the policies maintain, with the
install times `stamps` of its lines: under FIFO the queue holds exactly the
indices of the in-use lines, each once, ordered by strictly increasing install
time of the current tag; under the counter policy the queue is empty. -/
def QueueInOrder (useFIFO : Bool) (s : Set) (stamps : Nat → Nat) : Prop :=
  (useFIFO = true →
    s.toReplace.Nodup ∧
    (∀ i : Nat, i ∈ s.toReplace ↔ ∃ l, s.lines[i]? = some l ∧ l.inUse = true) ∧
    s.toReplace.Pairwise (fun i j => stamps i < stamps j)) ∧
  (useFIFO = false → s.toReplace = [])

/-! ## Theorems -/

/-! ### The two associative methods are instances of `probeSet` -/

theorem FullyAssociativeCache.fa_AddrInCache_eq (c : Cache) (addr : Nat) :
    FullyAssociativeCache.AddrInCache c addr =
      (c.sets[0]?).bind fun s =>
        (FullyAssociativeCache.tagOf c.lineSize addr).bind fun tag =>
          (probeSet c.useFIFO c.totalLines c.totalLines s tag).map fun r =>
            (r.1, c.commit 0 r) := by
  unfold FullyAssociativeCache.AddrInCache FullyAssociativeCache.tagOf probeSet Cache.commit
  simp only [Option.bind_eq_bind, Option.pure_def, Option.bind_assoc, Option.map_eq_map]
  congr 1; funext s
  congr 1; funext ow
  congr 1; funext m
  congr 1; funext tag
  rcases findTag s.lines tag c.totalLines 0 with _ | _ | i
  · rfl
  · simp only [Option.some_bind]
    rcases findFree s.lines c.totalLines 0 with _ | _ | i
    · rfl
    · simp only [Option.some_bind]
      cases c.useFIFO
      · rcases minCounterLoop s.lines c.totalLines 0 0 SIZE_MAX with _ | v
        · rfl
        · simp only [Option.some_bind]
          rcases modifyLine s.lines v _ with _ | ls <;> rfl
      · rcases s.toReplace.head? with _ | v
        · rfl
        · simp only [Option.some_bind]
          rcases modifyLine s.lines v _ with _ | ls <;> rfl
    · simp only [Option.some_bind]
      rcases modifyLine s.lines i _ with _ | ls
      · rfl
      · cases c.useFIFO
        · simp only [Option.some_bind]
          rcases modifyLine ls i _ with _ | ls2 <;> rfl
        · rfl
  · simp only [Option.some_bind]
    cases c.useFIFO
    · rcases modifyLine s.lines i _ with _ | ls <;> rfl
    · rfl

theorem SetAssociativeCache.sa_AddrInCache_eq (c : SetAssociativeCache) (addr : Nat) :
    SetAssociativeCache.AddrInCache c addr =
      (decode c.lineSize c.numSets addr).bind fun d =>
        (c.sets[d.1]?).bind fun s =>
          (probeSet c.useFIFO c.associativity c.totalLines s d.2).map fun r =>
            (r.1, { c with toCache := c.toCache.commit d.1 r }) := by
  unfold SetAssociativeCache.AddrInCache decode probeSet Cache.commit
  simp only [Option.bind_eq_bind, Option.pure_def, Option.bind_assoc, Option.map_eq_map,
    Option.some_bind]
  congr 1; funext ow
  congr 1; funext sw
  congr 1; funext m1
  congr 1; funext set
  congr 1; funext m2
  congr 1; funext tag
  congr 1; funext s
  rcases findTag s.lines tag c.associativity 0 with _ | _ | i
  · rfl
  · simp only [Option.some_bind]
    rcases findFree s.lines c.associativity 0 with _ | _ | i
    · rfl
    · simp only [Option.some_bind]
      cases c.useFIFO
      · rcases minCounterLoop s.lines c.totalLines 0 0 SIZE_MAX with _ | v
        · rfl
        · simp only [Option.some_bind]
          rcases modifyLine s.lines v _ with _ | ls <;> rfl
      · rcases s.toReplace.head? with _ | v
        · rfl
        · simp only [Option.some_bind]
          rcases modifyLine s.lines v _ with _ | ls <;> rfl
    · simp only [Option.some_bind]
      rcases modifyLine s.lines i _ with _ | ls
      · rfl
      · cases c.useFIFO
        · simp only [Option.some_bind]
          rcases modifyLine ls i _ with _ | ls2 <;> rfl
        · rfl
  · simp only [Option.some_bind]
    cases c.useFIFO
    · rcases modifyLine s.lines i _ with _ | ls <;> rfl
    · rfl

theorem DirectMappedCache.dm_AddrInCache_eq (c : Cache) (addr : Nat) :
    DirectMappedCache.AddrInCache c addr =
      (decode c.lineSize c.totalLines addr).bind fun d =>
        (c.sets[d.1]?).bind fun s =>
          (s.lines[0]?).bind fun l0 =>
            if l0.inUse && l0.tag == d.2 then
              some (true, { c with hits := (c.hits + 1) % UINT32_MOD })
            else
              some (false, { c with
                sets := c.sets.set d.1 { s with lines := s.lines.set 0 { l0 with inUse := true, tag := d.2 } } }) := by
  unfold DirectMappedCache.AddrInCache decode
  simp only [Option.bind_eq_bind, Option.pure_def, Option.bind_assoc, Option.some_bind]
  congr 1; funext ow
  congr 1; funext sw
  congr 1; funext m1
  congr 1; funext set
  congr 1; funext m2
  congr 1; funext tag
  congr 1; funext s
  congr 1; funext l0
  cases hu : l0.inUse <;> simp [hu]

/-! ### The loops -/

theorem findTag_spec (lines : List Line) (tag : Nat) :
    ∀ k i, i + k ≤ lines.length →
      (∃ j l, findTag lines tag k i = some (some j) ∧ i ≤ j ∧ j < i + k ∧
          lines[j]? = some l ∧ l.inUse = true ∧ l.tag = tag ∧
          ∀ (j2 : Nat) (l2 : Line), i ≤ j2 → j2 < j → lines[j2]? = some l2 →
            ¬(l2.inUse = true ∧ l2.tag = tag)) ∨
      (findTag lines tag k i = some none ∧
          ∀ (j2 : Nat) (l2 : Line), i ≤ j2 → j2 < i + k → lines[j2]? = some l2 →
            ¬(l2.inUse = true ∧ l2.tag = tag)) := by
  intro k
  induction k with
  | zero =>
    intro i _
    right
    exact ⟨rfl, fun j2 l2 h1 h2 => by omega⟩
  | succ k ih =>
    intro i hi
    have hlt : i < lines.length := by omega
    have hget : lines[i]? = some lines[i] := List.getElem?_eq_getElem hlt
    by_cases hp : lines[i].inUse = true ∧ lines[i].tag = tag
    · left
      refine ⟨i, lines[i], ?_, le_refl _, by omega, hget, hp.1, hp.2, ?_⟩
      · simp [findTag, hget, hp.1, hp.2]
      · intro j2 l2 h1 h2; omega
    · have hstep : findTag lines tag (k + 1) i = findTag lines tag k (i + 1) := by
        simp only [findTag, hget]
        have : (lines[i].inUse && lines[i].tag == tag) = false := by
          cases hu : lines[i].inUse
          · simp
          · simp only [Bool.true_and, beq_eq_false_iff_ne]
            intro ht; exact hp ⟨hu, ht⟩
        simp [this]
      have hhere : ∀ (j2 : Nat) (l2 : Line), j2 = i → lines[j2]? = some l2 →
          ¬(l2.inUse = true ∧ l2.tag = tag) := by
        intro j2 l2 hj hl
        subst hj
        rw [hget] at hl
        cases hl
        exact hp
      rcases ih (i + 1) (by omega) with ⟨j, l, h1, h2, h3, h4, h5, h6, h7⟩ | ⟨h1, h2⟩
      · left
        refine ⟨j, l, by rw [hstep, h1], by omega, by omega, h4, h5, h6, ?_⟩
        intro j2 l2 hj1 hj2 hl
        by_cases hji : j2 = i
        · exact hhere j2 l2 hji hl
        · exact h7 j2 l2 (by omega) hj2 hl
      · right
        refine ⟨by rw [hstep, h1], ?_⟩
        intro j2 l2 hj1 hj2 hl
        by_cases hji : j2 = i
        · exact hhere j2 l2 hji hl
        · exact h2 j2 l2 (by omega) (by omega) hl

theorem findFree_spec (lines : List Line) :
    ∀ k i, i + k ≤ lines.length →
      (∃ j l, findFree lines k i = some (some j) ∧ i ≤ j ∧ j < i + k ∧
          lines[j]? = some l ∧ l.inUse = false ∧
          ∀ (j2 : Nat) (l2 : Line), i ≤ j2 → j2 < j → lines[j2]? = some l2 → l2.inUse = true) ∨
      (findFree lines k i = some none ∧
          ∀ (j2 : Nat) (l2 : Line), i ≤ j2 → j2 < i + k → lines[j2]? = some l2 → l2.inUse = true) := by
  intro k
  induction k with
  | zero =>
    intro i _
    right
    exact ⟨rfl, fun j2 l2 h1 h2 => by omega⟩
  | succ k ih =>
    intro i hi
    have hlt : i < lines.length := by omega
    have hget : lines[i]? = some lines[i] := List.getElem?_eq_getElem hlt
    cases hp : lines[i].inUse with
    | false =>
      left
      refine ⟨i, lines[i], ?_, le_refl _, by omega, hget, hp, ?_⟩
      · simp [findFree, hget, hp]
      · intro j2 l2 h1 h2; omega
    | true =>
      have hstep : findFree lines (k + 1) i = findFree lines k (i + 1) := by
        simp [findFree, hget, hp]
      have hhere : ∀ (j2 : Nat) (l2 : Line), j2 = i → lines[j2]? = some l2 → l2.inUse = true := by
        intro j2 l2 hj hl
        subst hj
        rw [hget] at hl
        cases hl
        exact hp
      rcases ih (i + 1) (by omega) with ⟨j, l, h1, h2, h3, h4, h5, h7⟩ | ⟨h1, h2⟩
      · left
        refine ⟨j, l, by rw [hstep, h1], by omega, by omega, h4, h5, ?_⟩
        intro j2 l2 hj1 hj2 hl
        by_cases hji : j2 = i
        · exact hhere j2 l2 hji hl
        · exact h7 j2 l2 (by omega) hj2 hl
      · right
        refine ⟨by rw [hstep, h1], ?_⟩
        intro j2 l2 hj1 hj2 hl
        by_cases hji : j2 = i
        · exact hhere j2 l2 hji hl
        · exact h2 j2 l2 (by omega) (by omega) hl

theorem modifyLine_eq_some (lines : List Line) (i : Nat) (f : Line → Line) (l : Line)
    (h : lines[i]? = some l) : modifyLine lines i f = some (lines.set i (f l)) := by
  simp [modifyLine, h]

theorem modifyLine_eq_none (lines : List Line) (i : Nat) (f : Line → Line)
    (h : lines[i]? = none) : modifyLine lines i f = none := by
  simp [modifyLine, h]

/-- Invariant of the victim loop: `mc` is a lower bound of the counters seen so
far, strictly below the counters before `mi`, and it is the counter of line
`mi` unless no counter was below `SIZE_MAX` yet. -/
theorem minCounterLoop_spec (lines : List Line) :
    ∀ k i mi mc, i + k ≤ lines.length →
      (∀ (j : Nat) (l : Line), j < i → lines[j]? = some l → mc ≤ l.counter) →
      (∀ (j : Nat) (l : Line), j < mi → lines[j]? = some l → mc < l.counter) →
      ((mi < i ∧ ∃ l, lines[mi]? = some l ∧ l.counter = mc) ∨ (mi = 0 ∧ mc = SIZE_MAX)) →
      ∃ v, minCounterLoop lines k i mi mc = some v ∧
        ∃ mc2, (∀ (j : Nat) (l : Line), j < i + k → lines[j]? = some l → mc2 ≤ l.counter) ∧
          (∀ (j : Nat) (l : Line), j < v → lines[j]? = some l → mc2 < l.counter) ∧
          ((v < i + k ∧ ∃ l, lines[v]? = some l ∧ l.counter = mc2) ∨ (v = 0 ∧ mc2 = SIZE_MAX)) := by
  intro k
  induction k with
  | zero =>
    intro i mi mc _ h1 h2 h3
    exact ⟨mi, rfl, mc, h1, h2, h3⟩
  | succ k ih =>
    intro i mi mc hi h1 h2 h3
    have hlt : i < lines.length := by omega
    have hget : lines[i]? = some lines[i] := List.getElem?_eq_getElem hlt
    by_cases hc : lines[i].counter < mc
    · have hstep : minCounterLoop lines (k + 1) i mi mc
          = minCounterLoop lines k (i + 1) i lines[i].counter := by
        simp [minCounterLoop, hget, hc]
      rw [hstep]
      have := ih (i + 1) i lines[i].counter (by omega) ?_ ?_ ?_
      · rcases this with ⟨v, hv, mc2, a1, a2, a3⟩
        refine ⟨v, hv, mc2, ?_, a2, ?_⟩
        · intro j l hj hl; exact a1 j l (by omega) hl
        · rcases a3 with ⟨a, b⟩ | a
          · left; exact ⟨by omega, b⟩
          · right; exact a
      · intro j l hj hl
        by_cases hji : j = i
        · subst hji; rw [hget] at hl; cases hl; exact le_refl _
        · have := h1 j l (by omega) hl; omega
      · intro j l hj hl
        have := h1 j l hj hl; omega
      · left; exact ⟨by omega, lines[i], hget, rfl⟩
    · have hstep : minCounterLoop lines (k + 1) i mi mc
          = minCounterLoop lines k (i + 1) mi mc := by
        simp [minCounterLoop, hget, hc]
      rw [hstep]
      have := ih (i + 1) mi mc (by omega) ?_ h2 ?_
      · rcases this with ⟨v, hv, mc2, a1, a2, a3⟩
        refine ⟨v, hv, mc2, ?_, a2, ?_⟩
        · intro j l hj hl; exact a1 j l (by omega) hl
        · rcases a3 with ⟨a, b⟩ | a
          · left; exact ⟨by omega, b⟩
          · right; exact a
      · intro j l hj hl
        by_cases hji : j = i
        · subst hji; rw [hget] at hl; cases hl; omega
        · exact h1 j l (by omega) hl
      · rcases h3 with ⟨a, b⟩ | a
        · left; exact ⟨by omega, b⟩
        · right; exact a

/-- The victim loop over all `n >= 1` lines of a set returns the lowest index
among the lines of smallest counter. -/
theorem minCounterLoop_min (lines : List Line) (n : Nat) (hn : lines.length = n) (hpos : 0 < n)
    (hbound : ∀ (j : Nat) (l : Line), lines[j]? = some l → l.counter ≤ SIZE_MAX) :
    ∃ v lv, minCounterLoop lines n 0 0 SIZE_MAX = some v ∧ lines[v]? = some lv ∧
      (∀ (j : Nat) (l : Line), lines[j]? = some l → lv.counter ≤ l.counter) ∧
      (∀ (j : Nat) (l : Line), j < v → lines[j]? = some l → lv.counter < l.counter) := by
  rcases minCounterLoop_spec lines n 0 0 SIZE_MAX (by omega)
      (fun j l hj _ => by omega) (fun j l hj _ => by omega) (Or.inr ⟨rfl, rfl⟩) with
    ⟨v, hv, mc2, a1, a2, a3⟩
  have hall : ∀ (j : Nat) (l : Line), lines[j]? = some l → mc2 ≤ l.counter := by
    intro j l hl
    have hj : j < lines.length := by
      rcases Nat.lt_or_ge j lines.length with h | h
      · exact h
      · rw [List.getElem?_eq_none h] at hl; cases hl
    exact a1 j l (by omega) hl
  rcases a3 with ⟨_, lv, hlv, hc⟩ | ⟨hv0, hmc⟩
  · refine ⟨v, lv, hv, hlv, ?_, ?_⟩
    · intro j l hl; rw [hc]; exact hall j l hl
    · intro j l hj hl; rw [hc]; exact a2 j l hj hl
  · have h0 : 0 < lines.length := by omega
    have hget : lines[0]? = some lines[0] := List.getElem?_eq_getElem h0
    have hc0 : lines[0].counter = mc2 := by
      have := hall 0 _ hget
      have := hbound 0 _ hget
      omega
    subst hv0
    refine ⟨0, lines[0], hv, hget, ?_, ?_⟩
    · intro j l hl; rw [hc0]; exact hall j l hl
    · intro j l hj; omega

/-! ### What a probe of one set does -/

theorem modifyLine_set (lines : List Line) (i : Nat) (f : Line → Line) (x : Line)
    (hi : i < lines.length) :
    modifyLine (lines.set i x) i f = some (lines.set i (f x)) := by
  have : (lines.set i x)[i]? = some x := by
    rw [List.getElem?_set]; simp [hi]
  rw [modifyLine_eq_some _ _ _ _ this, List.set_set]

theorem probeSet_spec (fifo : Bool) (n m : Nat) (s : Set) (tag : Nat) (b : Bool) (s2 : Set)
    (hn : s.lines.length = n) (h : probeSet fifo n m s tag = some (b, s2)) :
    (∃ i l, b = true ∧ s.lines[i]? = some l ∧ l.inUse = true ∧ l.tag = tag ∧
        (∀ (j2 : Nat) (l2 : Line), j2 < i → s.lines[j2]? = some l2 →
          ¬(l2.inUse = true ∧ l2.tag = tag)) ∧
        s2 = s.afterHit fifo i l) ∨
    (∃ i l, b = false ∧
        (∀ (j2 : Nat) (l2 : Line), s.lines[j2]? = some l2 → ¬(l2.inUse = true ∧ l2.tag = tag)) ∧
        s.lines[i]? = some l ∧ l.inUse = false ∧
        (∀ (j2 : Nat) (l2 : Line), j2 < i → s.lines[j2]? = some l2 → l2.inUse = true) ∧
        s2 = s.afterFill fifo i l tag) ∨
    (∃ v l, b = false ∧
        (∀ (j2 : Nat) (l2 : Line), s.lines[j2]? = some l2 → l2.inUse = true ∧ l2.tag ≠ tag) ∧
        s.lines[v]? = some l ∧
        (fifo = true → s.toReplace.head? = some v) ∧
        (fifo = false → minCounterLoop s.lines m 0 0 SIZE_MAX = some v) ∧
        s2 = s.afterEvict fifo v l tag) := by
  have inb : ∀ (j : Nat) (l : Line), s.lines[j]? = some l → j < n := by
    intro j l hl
    rcases Nat.lt_or_ge j s.lines.length with hj | hj
    · omega
    · rw [List.getElem?_eq_none hj] at hl; cases hl
  unfold probeSet at h
  rcases findTag_spec s.lines tag n 0 (by omega) with ⟨i, l, e, _, _, hl, hu, ht, hfirst⟩ | ⟨e, hno⟩
  · left
    rw [e] at h
    have h2 : b = true ∧ s2 = s.afterHit fifo i l := by
      unfold Set.afterHit
      cases fifo
      · simp only [Option.bind_eq_bind, Option.some_bind, Bool.not_false, if_true,
          modifyLine_eq_some _ _ _ _ hl, Option.pure_def, Option.some.injEq, Prod.mk.injEq] at h
        exact ⟨h.1.symm, by rw [← h.2]; simp⟩
      · simp only [Option.bind_eq_bind, Option.some_bind, Bool.not_true, Bool.false_eq_true,
          if_false, Option.pure_def, Option.some.injEq, Prod.mk.injEq] at h
        exact ⟨h.1.symm, by rw [← h.2]; simp⟩
    exact ⟨i, l, h2.1, hl, hu, ht, fun j2 l2 hj => hfirst j2 l2 (Nat.zero_le _) hj, h2.2⟩
  · right
    rw [e] at h
    have hno2 : ∀ (j2 : Nat) (l2 : Line), s.lines[j2]? = some l2 →
        ¬(l2.inUse = true ∧ l2.tag = tag) := fun j2 l2 hl2 =>
      hno j2 l2 (Nat.zero_le _) (by have := inb j2 l2 hl2; omega) hl2
    rcases findFree_spec s.lines n 0 (by omega) with ⟨i, l, e2, _, _, hl, hu, hfirst⟩ | ⟨e2, hfull⟩
    · left
      rw [e2] at h
      have hi : i < s.lines.length := by have := inb i l hl; omega
      have h2 : b = false ∧ s2 = s.afterFill fifo i l tag := by
        unfold Set.afterFill
        cases fifo
        · simp only [Option.bind_eq_bind, Option.some_bind, modifyLine_eq_some _ _ _ _ hl,
            Bool.false_eq_true, if_false, modifyLine_set _ _ _ _ hi, Option.pure_def,
            Option.some.injEq, Prod.mk.injEq] at h
          exact ⟨h.1.symm, by rw [← h.2]; simp⟩
        · simp only [Option.bind_eq_bind, Option.some_bind, modifyLine_eq_some _ _ _ _ hl,
            if_true, Option.pure_def, Option.some.injEq, Prod.mk.injEq] at h
          exact ⟨h.1.symm, by rw [← h.2]; simp⟩
      exact ⟨i, l, h2.1, hno2, hl, hu, fun j2 l2 hj => hfirst j2 l2 (Nat.zero_le _) hj, h2.2⟩
    · right
      rw [e2] at h
      have hfull2 : ∀ (j2 : Nat) (l2 : Line), s.lines[j2]? = some l2 →
          l2.inUse = true ∧ l2.tag ≠ tag := by
        intro j2 l2 hl2
        have hu := hfull j2 l2 (Nat.zero_le _) (by have := inb j2 l2 hl2; omega) hl2
        exact ⟨hu, fun ht => hno2 j2 l2 hl2 ⟨hu, ht⟩⟩
      cases fifo with
      | true =>
        simp only [Option.bind_eq_bind, Option.some_bind, if_true] at h
        rcases hq : s.toReplace.head? with _ | v
        · rw [hq] at h; simp at h
        · rw [hq] at h
          rcases hv : s.lines[v]? with _ | l
          · simp [modifyLine_eq_none _ _ _ hv] at h
          · simp only [Option.some_bind, modifyLine_eq_some _ _ _ _ hv, Option.pure_def,
              Option.some.injEq, Prod.mk.injEq] at h
            refine ⟨v, l, h.1.symm, hfull2, hv, fun _ => rfl, ?_,
              by rw [← h.2]; simp [Set.afterEvict]⟩
            intro hf; cases hf
      | false =>
        simp only [Option.bind_eq_bind, Option.some_bind, Bool.false_eq_true, if_false] at h
        rcases hq : minCounterLoop s.lines m 0 0 SIZE_MAX with _ | v
        · rw [hq] at h; simp at h
        · rw [hq] at h
          rcases hv : s.lines[v]? with _ | l
          · simp [modifyLine_eq_none _ _ _ hv] at h
          · simp only [Option.some_bind, modifyLine_eq_some _ _ _ _ hv, Option.pure_def,
              Option.some.injEq, Prod.mk.injEq] at h
            refine ⟨v, l, h.1.symm, hfull2, hv, ?_, fun _ => rfl,
              by rw [← h.2]; simp [Set.afterEvict]⟩
            intro hf; cases hf

/-! ### Word arithmetic -/

theorem log2Loop_le : ∀ (f n k : Nat), n < 2 ^ (k + 1) → log2Loop f n ≤ k := by
  intro f
  induction f with
  | zero => intro n k _; simp [log2Loop]
  | succ f ih =>
    intro n k hn
    unfold log2Loop
    split
    · rename_i h2
      cases k with
      | zero => simp at hn; omega
      | succ k =>
        have : n / 2 < 2 ^ (k + 1) := by
          rw [Nat.div_lt_iff_lt_mul (by decide)]
          rw [pow_succ] at hn
          exact hn
        have := ih (n / 2) k this
        omega
    · exact Nat.zero_le _

theorem log2u_some (x : Nat) (h0 : 0 < x) (h32 : x < 2 ^ 32) :
    ∃ w, log2u x = some w ∧ w ≤ 31 := by
  refine ⟨log2Loop 32 x, ?_, log2Loop_le 32 x 31 h32⟩
  simp [log2u]; omega

theorem mask_closed : ∀ a < 33, ∀ b < 32,
    mask a b = some (if a ≤ b then (2 ^ (b + 1 - a) - 1) <<< a else 0) := by
  decide

theorem FullyAssociativeCache.fa_tagOf_some (ls addr : Nat) (h0 : 0 < ls) (h32 : ls < 2 ^ 32) :
    ∃ t, FullyAssociativeCache.tagOf ls addr = some t := by
  rcases log2u_some ls h0 h32 with ⟨w, hw, hle⟩
  have hm := mask_closed w (by omega) 31 (by decide)
  rw [if_pos hle] at hm
  refine ⟨(((2 ^ (31 + 1 - w) - 1) <<< w) &&& addr) >>> w, ?_⟩
  simp only [FullyAssociativeCache.tagOf, hw, Option.bind_eq_bind, Option.some_bind,
    ADDR_SIZE, hm, shr32]
  rw [if_pos (by omega)]

/-! ### The set invariant -/

theorem getElem?_lt {α : Type} (xs : List α) (j : Nat) (x : α) (h : xs[j]? = some x) :
    j < xs.length := by
  rcases Nat.lt_or_ge j xs.length with hj | hj
  · exact hj
  · rw [List.getElem?_eq_none hj] at h; cases h

theorem getElem?_set_cases (lines : List Line) (i j : Nat) (x y : Line)
    (h : (lines.set i x)[j]? = some y) :
    (j = i ∧ y = x ∧ i < lines.length) ∨ (j ≠ i ∧ lines[j]? = some y) := by
  rw [List.getElem?_set] at h
  by_cases hij : i = j
  · subst hij
    rw [if_pos rfl] at h
    by_cases hi : i < lines.length
    · rw [if_pos hi] at h
      cases h
      exact Or.inl ⟨rfl, rfl, hi⟩
    · rw [if_neg hi] at h; cases h
  · rw [if_neg hij] at h
    exact Or.inr ⟨fun e => hij e.symm, h⟩

theorem UniqueTags_set (lines : List Line) (i : Nat) (x : Line) (hu : UniqueTags lines)
    (hx : x.inUse = true → ∀ (j : Nat) (lj : Line), j ≠ i → lines[j]? = some lj →
      lj.inUse = true → lj.tag ≠ x.tag) :
    UniqueTags (lines.set i x) := by
  intro a b la lb hab ha hb hua hub
  rcases getElem?_set_cases lines i a x la ha with ⟨ea, rfl, _⟩ | ⟨na, ha2⟩
  · rcases getElem?_set_cases lines i b la lb hb with ⟨eb, _, _⟩ | ⟨nb, hb2⟩
    · omega
    · exact fun e => hx hua b lb nb hb2 hub e.symm
  · rcases getElem?_set_cases lines i b x lb hb with ⟨eb, rfl, _⟩ | ⟨nb, hb2⟩
    · exact hx hub a la na ha2 hua
    · exact hu a b la lb hab ha2 hb2 hua hub

theorem Set.Inv_fresh (fifo : Bool) (n : Nat) : (Set.fresh n).Inv fifo n := by
  have hget : ∀ (j : Nat) (l : Line), (Set.fresh n).lines[j]? = some l → l = {} := by
    intro j l h
    simp only [Set.fresh, List.getElem?_replicate] at h
    split at h
    · cases h; rfl
    · cases h
  refine ⟨by simp [Set.fresh], ?_, ?_, ?_, ?_⟩
  · intro i j li lj _ hi _ hu _
    rw [hget i li hi] at hu; cases hu
  · intro j l h
    rw [hget j l h]; simp [SIZE_MAX]
  · intro _
    refine ⟨by simp [Set.fresh], ?_⟩
    intro i
    constructor
    · intro h; simp [Set.fresh] at h
    · rintro ⟨l, hl, hu⟩
      rw [hget i l hl] at hu; cases hu
  · intro _; rfl

theorem probeSet_inv (fifo : Bool) (n m : Nat) (s : Set) (tag : Nat) (b : Bool) (s2 : Set)
    (hinv : s.Inv fifo n) (h : probeSet fifo n m s tag = some (b, s2)) : s2.Inv fifo n := by
  obtain ⟨hlen, huniq, hcnt, hq, hnq⟩ := hinv
  rcases probeSet_spec fifo n m s tag b s2 hlen h with
    ⟨i, l, _, hl, hu, ht, _, rfl⟩ | ⟨i, l, _, hno, hl, hu, _, rfl⟩ | ⟨v, l, _, hfull, hl, hhead, _, rfl⟩
  · -- hit
    cases fifo with
    | true => exact ⟨hlen, huniq, hcnt, hq, hnq⟩
    | false =>
      refine ⟨by simp [Set.afterHit, hlen], ?_, ?_, ?_, fun _ => hnq rfl⟩
      rotate_left 2
      · intro hf; cases hf
      · apply UniqueTags_set _ _ _ huniq
        intro _ j lj hj hlj huj
        exact huniq j i lj l hj hlj hl huj hu
      · intro j y hy
        simp only [Set.afterHit, Bool.false_eq_true, if_false] at hy
        rcases getElem?_set_cases _ _ _ _ _ hy with ⟨_, rfl, _⟩ | ⟨_, hy2⟩
        · have : (l.counter + 1) % SIZE_MOD < SIZE_MOD := Nat.mod_lt _ (by decide)
          simp only [SIZE_MAX, SIZE_MOD] at this ⊢
          omega
        · exact hcnt j y hy2
  · -- fill
    have hi : i < s.lines.length := getElem?_lt _ _ _ hl
    refine ⟨by simp [Set.afterFill, hlen], ?_, ?_, ?_, ?_⟩
    · apply UniqueTags_set _ _ _ huniq
      intro _ j lj _ hlj huj e
      exact hno j lj hlj ⟨huj, e⟩
    · intro j y hy
      rcases getElem?_set_cases _ _ _ _ _ hy with ⟨_, rfl, _⟩ | ⟨_, hy2⟩
      · have := hcnt i l hl
        show (if fifo = true then l.counter else 0) ≤ SIZE_MAX
        split
        · exact this
        · exact Nat.zero_le _
      · exact hcnt j y hy2
    · intro hf
      subst hf
      obtain ⟨hnd, hmem⟩ := hq rfl
      have hni : i ∉ s.toReplace := by
        intro hin
        rcases (hmem i).1 hin with ⟨l2, hl2, hu2⟩
        rw [hl] at hl2; cases hl2
        rw [hu] at hu2; cases hu2
      refine ⟨?_, ?_⟩
      · simp only [Set.afterFill, if_true]
        rw [List.nodup_append]
        refine ⟨hnd, List.nodup_singleton i, ?_⟩
        intro a ha hb
        simp only [List.mem_singleton] at hb
        subst hb
        exact hni ha
      · intro j
        simp only [Set.afterFill, if_true, List.mem_append, List.mem_singleton]
        constructor
        · rintro (hj | rfl)
          · rcases (hmem j).1 hj with ⟨l2, hl2, hu2⟩
            have hji : j ≠ i := fun e => hni (e ▸ hj)
            refine ⟨l2, ?_, hu2⟩
            rw [List.getElem?_set, if_neg (fun e => hji e.symm)]
            exact hl2
          · have hx : (s.afterFill true j l tag).lines[j]? = some
                { tag := tag, counter := l.counter, inUse := true } := by
              simp only [Set.afterFill, if_true]
              rw [List.getElem?_set, if_pos rfl, if_pos hi]
            exact ⟨_, hx, rfl⟩
        · rintro ⟨y, hy, huy⟩
          rcases getElem?_set_cases _ _ _ _ _ hy with ⟨e, _, _⟩ | ⟨_, hy2⟩
          · exact Or.inr e
          · exact Or.inl ((hmem j).2 ⟨y, hy2, huy⟩)
    · intro hf
      subst hf
      simp only [Set.afterFill, Bool.false_eq_true, if_false]
      exact hnq rfl
  · -- evict
    have hv : v < s.lines.length := getElem?_lt _ _ _ hl
    have hul : l.inUse = true := (hfull v l hl).1
    refine ⟨by simp [Set.afterEvict, hlen], ?_, ?_, ?_, ?_⟩
    · apply UniqueTags_set _ _ _ huniq
      intro _ j lj _ hlj _ e
      exact (hfull j lj hlj).2 e
    · intro j y hy
      rcases getElem?_set_cases _ _ _ _ _ hy with ⟨_, rfl, _⟩ | ⟨_, hy2⟩
      · exact hcnt v l hl
      · exact hcnt j y hy2
    · intro hf
      subst hf
      obtain ⟨hnd, hmem⟩ := hq rfl
      have hhd := hhead rfl
      have hqe : s.toReplace = v :: s.toReplace.tail := by
        cases hq2 : s.toReplace with
        | nil => rw [hq2] at hhd; cases hhd
        | cons a t => rw [hq2] at hhd; simp at hhd; simp [hhd]
      have hperm : (s.toReplace.tail ++ [v]).Perm s.toReplace := by
        conv => rhs; rw [hqe]
        exact List.perm_append_singleton v _
      refine ⟨?_, ?_⟩
      · simp only [Set.afterEvict, if_true]
        exact hperm.nodup_iff.2 hnd
      · intro j
        simp only [Set.afterEvict, if_true]
        rw [hperm.mem_iff, hmem j]
        constructor
        · rintro ⟨y, hy, huy⟩
          by_cases hjv : j = v
          · subst hjv
            have hx : (s.lines.set j { l with tag := tag })[j]? = some { l with tag := tag } := by
              rw [List.getElem?_set, if_pos rfl, if_pos hv]
            exact ⟨_, hx, hul⟩
          · refine ⟨y, ?_, huy⟩
            rw [List.getElem?_set, if_neg (fun e => hjv e.symm)]
            exact hy
        · rintro ⟨y, hy, huy⟩
          rcases getElem?_set_cases _ _ _ _ _ hy with ⟨e, _, _⟩ | ⟨_, hy2⟩
          · subst e; exact ⟨l, hl, hul⟩
          · exact ⟨y, hy2, huy⟩
    · intro hf
      subst hf
      simp only [Set.afterEvict, Bool.false_eq_true, if_false]
      exact hnq rfl

/-! ### A probe of a set with the invariant returns -/

theorem probeSet_total (fifo : Bool) (n : Nat) (s : Set) (tag : Nat)
    (hinv : s.Inv fifo n) (hn : 0 < n) : ∃ b s2, probeSet fifo n n s tag = some (b, s2) := by
  obtain ⟨hlen, _, hcnt, hq, _⟩ := hinv
  unfold probeSet
  rcases findTag_spec s.lines tag n 0 (by omega) with ⟨i, l, e, _, _, hl, _⟩ | ⟨e, _⟩
  · rw [e]
    cases fifo
    · simp [modifyLine_eq_some _ _ _ _ hl]
    · simp
  · rw [e]
    rcases findFree_spec s.lines n 0 (by omega) with ⟨i, l, e2, _, _, hl, _⟩ | ⟨e2, hfull⟩
    · rw [e2]
      have hi : i < s.lines.length := getElem?_lt _ _ _ hl
      cases fifo
      · simp [modifyLine_eq_some _ _ _ _ hl, modifyLine_set _ _ _ _ hi]
      · simp [modifyLine_eq_some _ _ _ _ hl]
    · rw [e2]
      cases fifo
      · rcases minCounterLoop_min s.lines n hlen hn hcnt with ⟨v, lv, hv, hlv, _⟩
        simp [hv, modifyLine_eq_some _ _ _ _ hlv]
      · obtain ⟨_, hmem⟩ := hq rfl
        have h0 : 0 < s.lines.length := by omega
        have hget : s.lines[0]? = some s.lines[0] := List.getElem?_eq_getElem h0
        have hin : 0 ∈ s.toReplace :=
          (hmem 0).2 ⟨_, hget, hfull 0 _ (le_refl _) (by omega) hget⟩
        rcases hqe : s.toReplace with _ | ⟨v, t⟩
        · rw [hqe] at hin; cases hin
        · have hvin : v ∈ s.toReplace := by rw [hqe]; exact List.mem_cons_self _ _
          rcases (hmem v).1 hvin with ⟨lv, hlv, _⟩
          simp [modifyLine_eq_some _ _ _ _ hlv]

/-! ### `FullyAssociativeCache`: invariant and totality -/

theorem FullyAssociativeCache.fa_new_some (cs ls : Nat) (fifo : Bool) (h0 : 0 < ls) :
    ∃ c, FullyAssociativeCache.new cs ls fifo = some c ∧
      FullyAssociativeCache.Inv cs ls fifo c ∧ c.hits = 0 ∧ c.misses = 0 := by
  refine ⟨_, by simp only [FullyAssociativeCache.new]; rw [if_neg (by omega)], ?_, rfl, rfl⟩
  exact ⟨rfl, rfl, rfl, _, rfl, Set.Inv_fresh fifo _⟩

theorem FullyAssociativeCache.fa_AddrInCache_some (c : Cache) (addr : Nat) (b : Bool) (c2 : Cache)
    (h : FullyAssociativeCache.AddrInCache c addr = some (b, c2)) :
    ∃ s tag s2, c.sets[0]? = some s ∧ FullyAssociativeCache.tagOf c.lineSize addr = some tag ∧
      probeSet c.useFIFO c.totalLines c.totalLines s tag = some (b, s2) ∧
      c2 = c.commit 0 (b, s2) := by
  rw [FullyAssociativeCache.fa_AddrInCache_eq] at h
  simp only [Option.bind_eq_some, Option.map_eq_some', Prod.mk.injEq] at h
  obtain ⟨s, h0, tag, h1, ⟨b2, s2⟩, h2, hb, hc⟩ := h
  simp only at hb
  subst hb
  exact ⟨s, tag, s2, h0, h1, h2, hc.symm⟩

theorem Cache.commit_fields (c : Cache) (idx : Nat) (r : Bool × Set) :
    (c.commit idx r).lineSize = c.lineSize ∧ (c.commit idx r).totalLines = c.totalLines ∧
      (c.commit idx r).useFIFO = c.useFIFO ∧ (c.commit idx r).cacheSize = c.cacheSize ∧
      (c.commit idx r).sets = c.sets.set idx r.2 := by
  unfold Cache.commit
  split <;> exact ⟨rfl, rfl, rfl, rfl, rfl⟩

theorem FullyAssociativeCache.fa_AddrInCache_inv (cs ls : Nat) (fifo : Bool) (c : Cache)
    (addr : Nat) (b : Bool) (c2 : Cache) (hinv : FullyAssociativeCache.Inv cs ls fifo c)
    (h : FullyAssociativeCache.AddrInCache c addr = some (b, c2)) :
    FullyAssociativeCache.Inv cs ls fifo c2 := by
  obtain ⟨h1, h2, h3, s, hs, hsinv⟩ := hinv
  rcases FullyAssociativeCache.fa_AddrInCache_some c addr b c2 h with ⟨s0, tag, s2, e0, _, ep, rfl⟩
  rw [hs] at e0
  simp only [List.getElem?_cons_zero, Option.some.injEq] at e0
  subst e0
  rw [h2, h3] at ep
  obtain ⟨f1, f2, f3, _, f5⟩ := Cache.commit_fields c 0 (b, s2)
  refine ⟨f1.trans h1, f2.trans h2, f3.trans h3, s2, ?_, probeSet_inv _ _ _ _ _ _ _ hsinv ep⟩
  rw [f5, hs]; rfl

theorem FullyAssociativeCache.fa_AddrInCache_total (cs ls : Nat) (fifo : Bool) (c : Cache)
    (addr : Nat) (hinv : FullyAssociativeCache.Inv cs ls fifo c)
    (h0 : 0 < ls) (hle : ls ≤ cs) (h32 : ls < 2 ^ 32) :
    ∃ b c2, FullyAssociativeCache.AddrInCache c addr = some (b, c2) := by
  obtain ⟨h1, h2, h3, s, hs, hsinv⟩ := hinv
  have hn : 0 < cs / ls := Nat.div_pos hle h0
  rcases FullyAssociativeCache.fa_tagOf_some ls addr h0 h32 with ⟨t, ht⟩
  rcases probeSet_total fifo (cs / ls) s t hsinv hn with ⟨b, s2, hp⟩
  refine ⟨b, c.commit 0 (b, s2), ?_⟩
  rw [FullyAssociativeCache.fa_AddrInCache_eq, hs, h1, h2, h3]
  simp [ht, hp]

theorem FullyAssociativeCache.fa_run_inv (cs ls : Nat) (fifo : Bool) (addrs : List Nat) :
    ∀ (c : Cache) (bs : List Bool) (c2 : Cache), FullyAssociativeCache.Inv cs ls fifo c →
      FullyAssociativeCache.run c addrs = some (bs, c2) →
      FullyAssociativeCache.Inv cs ls fifo c2 := by
  induction addrs with
  | nil =>
    intro c bs c2 hinv h
    simp only [FullyAssociativeCache.run, Option.some.injEq, Prod.mk.injEq] at h
    rw [← h.2]; exact hinv
  | cons a as ih =>
    intro c bs c2 hinv h
    simp only [FullyAssociativeCache.run, Option.bind_eq_bind] at h
    rcases h1 : FullyAssociativeCache.AddrInCache c a with _ | ⟨b, c1⟩
    · rw [h1] at h; cases h
    · rw [h1] at h
      simp only [Option.some_bind] at h
      rcases h2 : FullyAssociativeCache.run c1 as with _ | ⟨bs1, c3⟩
      · rw [h2] at h; cases h
      · rw [h2] at h
        simp only [Option.some_bind, Option.some.injEq, Prod.mk.injEq] at h
        rw [← h.2]
        exact ih c1 bs1 c3 (FullyAssociativeCache.fa_AddrInCache_inv cs ls fifo c a b c1 hinv h1) h2

theorem FullyAssociativeCache.fa_run_total (cs ls : Nat) (fifo : Bool) (addrs : List Nat)
    (h0 : 0 < ls) (hle : ls ≤ cs) (h32 : ls < 2 ^ 32) :
    ∀ (c : Cache), FullyAssociativeCache.Inv cs ls fifo c →
      ∃ bs c2, FullyAssociativeCache.run c addrs = some (bs, c2) ∧ bs.length = addrs.length := by
  induction addrs with
  | nil => intro c _; exact ⟨[], c, rfl, rfl⟩
  | cons a as ih =>
    intro c hinv
    rcases FullyAssociativeCache.fa_AddrInCache_total cs ls fifo c a hinv h0 hle h32 with ⟨b, c1, h1⟩
    rcases ih c1 (FullyAssociativeCache.fa_AddrInCache_inv cs ls fifo c a b c1 hinv h1) with
      ⟨bs, c2, h2, hl⟩
    refine ⟨b :: bs, c2, ?_, by simp [hl]⟩
    simp [FullyAssociativeCache.run, h1, h2]

theorem FullyAssociativeCache.fa_simulate_total (cs ls : Nat) (fifo : Bool) (addrs : List Nat)
    (h0 : 0 < ls) (hle : ls ≤ cs) (h32 : ls < 2 ^ 32) :
    ∃ bs c, FullyAssociativeCache.simulate cs ls fifo addrs = some (bs, c) ∧
      bs.length = addrs.length ∧ FullyAssociativeCache.Inv cs ls fifo c := by
  rcases FullyAssociativeCache.fa_new_some cs ls fifo h0 with ⟨c0, hc0, hinv0, _, _⟩
  rcases FullyAssociativeCache.fa_run_total cs ls fifo addrs h0 hle h32 c0 hinv0 with ⟨bs, c, hr, hl⟩
  refine ⟨bs, c, ?_, hl, FullyAssociativeCache.fa_run_inv cs ls fifo addrs c0 bs c hinv0 hr⟩
  simp [FullyAssociativeCache.simulate, hc0, hr]

theorem mem_of_getElem? {α : Type} (xs : List α) (j : Nat) (x : α) (h : xs[j]? = some x) :
    x ∈ xs := by
  have hj := getElem?_lt xs j x h
  rw [List.getElem?_eq_getElem hj] at h
  cases h
  exact List.getElem_mem hj

/-- C5: in a fully associative cache under the counter policy, in every state
reached from construction, every probe returns; when it misses while all lines
are in use, exactly one line `v` has its tag overwritten (the set becomes
`afterEvict`), the counter of `v` is the smallest of all lines and strictly
smaller than the counter of every line of lower index.  With two lines, after
one line was hit once and the other never, the never-hit line is evicted,
whether it was filled first (`0, 4, 4, 8`) or second (`0, 4, 0, 8`). -/
theorem FullyAssociativeCache.counter_policy_evicts_min (cs ls : Nat) (addrs : List Nat)
    (a : Nat) (h0 : 0 < ls) (hle : ls ≤ cs) (h32 : ls < 2 ^ 32) :
    (∃ bs c s tag b c2 s2,
      FullyAssociativeCache.simulate cs ls false addrs = some (bs, c) ∧ c.sets = [s] ∧
      FullyAssociativeCache.tagOf ls a = some tag ∧
      FullyAssociativeCache.AddrInCache c a = some (b, c2) ∧ c2.sets = [s2] ∧
      (b = false → (∀ l ∈ s.lines, l.inUse = true) →
        ∃ v lv, s.lines[v]? = some lv ∧
          (∀ (j : Nat) (l : Line), s.lines[j]? = some l → lv.counter ≤ l.counter) ∧
          (∀ (j : Nat) (l : Line), j < v → s.lines[j]? = some l → lv.counter < l.counter) ∧
          s2 = s.afterEvict false v lv tag)) ∧
    (FullyAssociativeCache.simulate 8 4 false [0, 4, 4, 8]).map (fun r => (r.1, r.2.sets)) =
      some ([false, false, true, false],
        [{ lines := [{ tag := 2, counter := 0, inUse := true },
                     { tag := 1, counter := 1, inUse := true }], toReplace := [] }]) ∧
    (FullyAssociativeCache.simulate 8 4 false [0, 4, 0, 8]).map (fun r => (r.1, r.2.sets)) =
      some ([false, false, true, false],
        [{ lines := [{ tag := 0, counter := 1, inUse := true },
                     { tag := 2, counter := 0, inUse := true }], toReplace := [] }]) := by
  refine ⟨?_, by decide, by decide⟩
  rcases FullyAssociativeCache.fa_simulate_total cs ls false addrs h0 hle h32 with ⟨bs, c, hsim, _, hinv⟩
  rcases FullyAssociativeCache.fa_AddrInCache_total cs ls false c a hinv h0 hle h32 with ⟨b, c2, hp⟩
  obtain ⟨h1, h2, h3, s, hs, hsinv⟩ := hinv
  rcases FullyAssociativeCache.fa_AddrInCache_some c a b c2 hp with ⟨s0, tag, s2, e0, etag, ep, rfl⟩
  rw [hs] at e0
  simp only [List.getElem?_cons_zero, Option.some.injEq] at e0
  subst e0
  rw [h1] at etag
  rw [h2, h3] at ep
  have hn : 0 < cs / ls := Nat.div_pos hle h0
  refine ⟨bs, c, s, tag, b, _, s2, hsim, hs, etag, hp, ?_, ?_⟩
  · rw [(Cache.commit_fields c 0 (b, s2)).2.2.2.2, hs]; rfl
  · intro hb hfull
    subst hb
    rcases probeSet_spec false _ _ s tag false s2 hsinv.1 ep with
      ⟨_, _, hb, _⟩ | ⟨i, l, _, _, hl, hu, _⟩ | ⟨v, l, _, _, hl, _, hmin, rfl⟩
    · cases hb
    · have := hfull l (mem_of_getElem? _ _ _ hl)
      rw [hu] at this; cases this
    · rcases minCounterLoop_min s.lines (cs / ls) hsinv.1 hn hsinv.2.2.1 with
        ⟨v2, lv, hv2, hlv, hmin1, hmin2⟩
      have hv := hmin rfl
      rw [hv2] at hv
      cases hv
      rw [hl] at hlv
      cases hlv
      exact ⟨_, _, hl, hmin1, hmin2, rfl⟩

/-- Instance of C5 at an 8-byte cache with 4-byte lines, after probes `0, 4, 4`, for address 8. -/
theorem FullyAssociativeCache.counter_policy_evicts_min_witness :
    (0 < 4 ∧ 4 ≤ 8 ∧ 4 < 2 ^ 32) ∧
    ∃ bs c s tag b c2 s2,
      FullyAssociativeCache.simulate 8 4 false [0, 4, 4] = some (bs, c) ∧ c.sets = [s] ∧
      FullyAssociativeCache.tagOf 4 8 = some tag ∧
      FullyAssociativeCache.AddrInCache c 8 = some (b, c2) ∧ c2.sets = [s2] ∧
      (b = false → (∀ l ∈ s.lines, l.inUse = true) →
        ∃ v lv, s.lines[v]? = some lv ∧
          (∀ (j : Nat) (l : Line), s.lines[j]? = some l → lv.counter ≤ l.counter) ∧
          (∀ (j : Nat) (l : Line), j < v → s.lines[j]? = some l → lv.counter < l.counter) ∧
          s2 = s.afterEvict false v lv tag) :=
  ⟨by decide,
   (FullyAssociativeCache.counter_policy_evicts_min 8 4 [0, 4, 4] 8
      (by decide) (by decide) (by decide)).1⟩

/-! ### FIFO install times -/

theorem restamp_same (t : Nat) (lines : List Line) (st : Nat → Nat) :
    restamp t lines lines st = st := by
  funext i
  unfold restamp tagWritten
  rcases lines[i]? with _ | x
  · rfl
  · simp

theorem restamp_set (t : Nat) (lines : List Line) (st : Nat → Nat) (v : Nat) (l x : Line)
    (hl : lines[v]? = some l) (hx : l.inUse ≠ x.inUse ∨ l.tag ≠ x.tag) :
    restamp t lines (lines.set v x) st = Function.update st v t := by
  have hv := getElem?_lt _ _ _ hl
  funext i
  unfold restamp
  by_cases hiv : i = v
  · subst hiv
    have e1 : (lines.set i x)[i]? = some x := by
      rw [List.getElem?_set, if_pos rfl, if_pos hv]
    have : tagWritten (some l) (some x) = true := by
      simp only [tagWritten, Bool.or_eq_true, bne_iff_ne, ne_eq]
      exact hx
    rw [Function.update_same, hl, e1, this]; rfl
  · have e1 : (lines.set v x)[i]? = lines[i]? := by
      rw [List.getElem?_set, if_neg (fun e => hiv e.symm)]
    have : tagWritten lines[i]? lines[i]? = false := by
      unfold tagWritten
      rcases lines[i]? with _ | y
      · rfl
      · simp
    rw [Function.update_noteq hiv, e1, this]; rfl

theorem probeSet_stamp (n : Nat) (s : Set) (tag : Nat) (b : Bool) (s2 : Set)
    (st : Nat → Nat) (t : Nat) (hinv : s.Inv true n) (hst : StampInv s st t)
    (h : probeSet true n n s tag = some (b, s2)) :
    StampInv s2 (restamp (t + 1) s.lines s2.lines st) (t + 1) := by
  obtain ⟨hlen, _, _, hq, _⟩ := hinv
  obtain ⟨hnd, hmem⟩ := hq rfl
  obtain ⟨hle, hpw⟩ := hst
  have hle2 : ∀ i : Nat, st i ≤ t + 1 := fun i => Nat.le_succ_of_le (hle i)
  have hupd : ∀ (v i : Nat), Function.update st v (t + 1) i ≤ t + 1 := by
    intro v i
    by_cases hiv : i = v
    · subst hiv; rw [Function.update_same]
    · rw [Function.update_noteq hiv]; exact hle2 i
  rcases probeSet_spec true n n s tag b s2 hlen h with
    ⟨i, l, _, hl, hu, ht, _, rfl⟩ | ⟨i, l, _, hno, hl, hu, _, rfl⟩ | ⟨v, l, _, hfull, hl, hhead, _, rfl⟩
  · -- hit: nothing moves
    have : (s.afterHit true i l) = s := by simp [Set.afterHit]
    rw [this, restamp_same]
    exact ⟨hle2, hpw⟩
  · -- fill: line `i` is stamped and joins the back of the queue
    have hni : i ∉ s.toReplace := by
      intro hin
      rcases (hmem i).1 hin with ⟨l2, hl2, hu2⟩
      rw [hl] at hl2; cases hl2
      rw [hu] at hu2; cases hu2
    have hre : restamp (t + 1) s.lines (s.afterFill true i l tag).lines st
        = Function.update st i (t + 1) := by
      simp only [Set.afterFill, if_true]
      exact restamp_set _ _ _ _ l _ hl (Or.inl (by simp [hu]))
    rw [hre]
    have hne : ∀ a : Nat, a ∈ s.toReplace → a ≠ i := by
      intro a ha e; rw [e] at ha; exact hni ha
    refine ⟨hupd i, ?_⟩
    simp only [Set.afterFill, if_true]
    rw [List.pairwise_append]
    refine ⟨?_, List.pairwise_singleton _ _, ?_⟩
    · refine hpw.imp_of_mem ?_
      intro a c ha hc hac
      rw [Function.update_noteq (hne a ha), Function.update_noteq (hne c hc)]
      exact hac
    · intro a ha c hc
      simp only [List.mem_singleton] at hc
      subst hc
      rw [Function.update_noteq (hne a ha), Function.update_same]
      exact Nat.lt_succ_of_le (hle a)
  · -- eviction: the front line is stamped and moves to the back
    have hhd := hhead rfl
    have hqe : s.toReplace = v :: s.toReplace.tail := by
      cases hq2 : s.toReplace with
      | nil => rw [hq2] at hhd; cases hhd
      | cons a tl => rw [hq2] at hhd; simp at hhd; simp [hhd]
    have hnv : v ∉ s.toReplace.tail := by
      rw [hqe] at hnd
      exact (List.nodup_cons.1 hnd).1
    have hpwt : s.toReplace.tail.Pairwise (fun i j => st i < st j) := by
      rw [hqe] at hpw
      exact (List.pairwise_cons.1 hpw).2
    have hre : restamp (t + 1) s.lines (s.afterEvict true v l tag).lines st
        = Function.update st v (t + 1) := by
      simp only [Set.afterEvict]
      exact restamp_set _ _ _ _ l _ hl (Or.inr (hfull v l hl).2)
    rw [hre]
    have hne : ∀ a : Nat, a ∈ s.toReplace.tail → a ≠ v := by
      intro a ha e; rw [e] at ha; exact hnv ha
    refine ⟨hupd v, ?_⟩
    simp only [Set.afterEvict, if_true]
    rw [List.pairwise_append]
    refine ⟨?_, List.pairwise_singleton _ _, ?_⟩
    · refine hpwt.imp_of_mem ?_
      intro a c ha hc hac
      rw [Function.update_noteq (hne a ha), Function.update_noteq (hne c hc)]
      exact hac
    · intro a ha c hc
      simp only [List.mem_singleton] at hc
      subst hc
      rw [Function.update_noteq (hne a ha), Function.update_same]
      exact Nat.lt_succ_of_le (hle a)

theorem FullyAssociativeCache.fa_lines_eq (c : Cache) (s : Set) (h : c.sets = [s]) :
    FullyAssociativeCache.lines c = s.lines := by
  simp [FullyAssociativeCache.lines, h]

theorem FullyAssociativeCache.fa_runStamped_spec (cs ls : Nat) (addrs : List Nat) :
    ∀ (c : Cache) (st : Nat → Nat) (t : Nat) (bs : List Bool) (c2 : Cache) (s : Set),
      FullyAssociativeCache.Inv cs ls true c → c.sets = [s] → StampInv s st t →
      FullyAssociativeCache.run c addrs = some (bs, c2) →
      ∃ st2 s2, FullyAssociativeCache.runStamped c st t addrs = some (c2, st2) ∧
        c2.sets = [s2] ∧ StampInv s2 st2 (t + addrs.length) := by
  induction addrs with
  | nil =>
    intro c st t bs c2 s _ hs hst h
    simp only [FullyAssociativeCache.run, Option.some.injEq, Prod.mk.injEq] at h
    obtain ⟨_, rfl⟩ := h
    exact ⟨st, s, rfl, hs, hst⟩
  | cons a as ih =>
    intro c st t bs c2 s hinv hs hst h
    simp only [FullyAssociativeCache.run, Option.bind_eq_bind, Option.bind_eq_some,
      Option.some.injEq, Prod.mk.injEq] at h
    obtain ⟨⟨b, c1⟩, h1, ⟨bs1, c3⟩, h2, _, rfl⟩ := h
    have hinv1 := FullyAssociativeCache.fa_AddrInCache_inv cs ls true c a b c1 hinv h1
    obtain ⟨e1, e2, e3, s0, hs0, hsinv⟩ := hinv
    rw [hs] at hs0
    cases hs0
    rcases FullyAssociativeCache.fa_AddrInCache_some c a b c1 h1 with ⟨s0, tag, s1, e0, _, ep, hc1⟩
    rw [hs] at e0
    simp only [List.getElem?_cons_zero, Option.some.injEq] at e0
    subst e0
    rw [e2, e3] at ep
    have hs1 : c1.sets = [s1] := by
      rw [hc1, (Cache.commit_fields c 0 (b, s1)).2.2.2.2, hs]; rfl
    have hst1 := probeSet_stamp _ s tag b s1 st t hsinv hst ep
    rcases ih c1 (restamp (t + 1) s.lines s1.lines st) (t + 1) bs1 c3 s1 hinv1 hs1 hst1 h2 with
      ⟨st2, s2, hr, hs2, hst2⟩
    refine ⟨st2, s2, ?_, hs2, ?_⟩
    · simp only [FullyAssociativeCache.runStamped, Option.bind_eq_bind, h1, Option.some_bind]
      rw [FullyAssociativeCache.fa_lines_eq c s hs, FullyAssociativeCache.fa_lines_eq c1 s1 hs1]
      exact hr
    · have : t + (a :: as).length = t + 1 + as.length := by simp; omega
      rw [this]; exact hst2

/-- C4: in a fully associative FIFO cache, in every state reached from
construction (with install times `st` kept by `runStamped`), every probe
returns.  A hit leaves the set, hence the queue order, unchanged.  A miss with
every line in use overwrites the tag of the line `v` at the front of
`toReplace`; the tag of `v` was installed strictly before the tag of every
other line; afterwards `v` is at the back of the queue and its install time is
later than that of every other line.  The probes `0x00, 0x04, 0x00, 0x08, 0x00`
on an 8-byte cache with 4-byte lines give miss, miss, hit, miss, miss. -/
theorem FullyAssociativeCache.fifo_evicts_oldest (cs ls : Nat) (addrs : List Nat) (a : Nat)
    (h0 : 0 < ls) (hle : ls ≤ cs) (h32 : ls < 2 ^ 32) :
    (∃ c0 bs c st s tag b c2 s2,
      FullyAssociativeCache.new cs ls true = some c0 ∧
      FullyAssociativeCache.run c0 addrs = some (bs, c) ∧
      FullyAssociativeCache.runStamped c0 (fun _ => 0) 0 addrs = some (c, st) ∧
      c.sets = [s] ∧ FullyAssociativeCache.tagOf ls a = some tag ∧
      FullyAssociativeCache.AddrInCache c a = some (b, c2) ∧ c2.sets = [s2] ∧
      (b = true → s2 = s) ∧
      (b = false → (∀ l ∈ s.lines, l.inUse = true) →
        ∃ v lv, s.toReplace.head? = some v ∧ s.lines[v]? = some lv ∧
          (∀ j : Nat, j < s.lines.length → j ≠ v → st v < st j) ∧
          s2 = s.afterEvict true v lv tag ∧
          (∀ j : Nat, j ≠ v → restamp (addrs.length + 1) s.lines s2.lines st j
              < restamp (addrs.length + 1) s.lines s2.lines st v))) ∧
    (FullyAssociativeCache.simulate 8 4 true [0, 4, 0, 8, 0]).map (fun r => r.1) =
      some [false, false, true, false, false] := by
  refine ⟨?_, by decide⟩
  rcases FullyAssociativeCache.fa_new_some cs ls true h0 with ⟨c0, hc0, hinv0, _, _⟩
  rcases FullyAssociativeCache.fa_run_total cs ls true addrs h0 hle h32 c0 hinv0 with ⟨bs, c, hr, _⟩
  have hinv := FullyAssociativeCache.fa_run_inv cs ls true addrs c0 bs c hinv0 hr
  have hs0 : c0.sets = [Set.fresh (cs / ls)] := by
    simp only [FullyAssociativeCache.new] at hc0
    rw [if_neg (by omega)] at hc0
    cases hc0; rfl
  have hst0 : StampInv (Set.fresh (cs / ls)) (fun _ => 0) 0 :=
    ⟨fun _ => le_refl _, by simp [Set.fresh]⟩
  rcases FullyAssociativeCache.fa_runStamped_spec cs ls addrs c0 (fun _ => 0) 0 bs c _ hinv0 hs0 hst0 hr
    with ⟨st, s, hrs, hs, hst⟩
  rcases FullyAssociativeCache.fa_AddrInCache_total cs ls true c a hinv h0 hle h32 with ⟨b, c2, hp⟩
  obtain ⟨h1, h2, h3, s1, hs1, hsinv⟩ := hinv
  rw [hs] at hs1
  cases hs1
  rcases FullyAssociativeCache.fa_AddrInCache_some c a b c2 hp with ⟨s0, tag, s2, e0, etag, ep, rfl⟩
  rw [hs] at e0
  simp only [List.getElem?_cons_zero, Option.some.injEq] at e0
  subst e0
  rw [h1] at etag
  rw [h2, h3] at ep
  refine ⟨c0, bs, c, st, s, tag, b, _, s2, hc0, hr, hrs, hs, etag, hp, ?_, ?_, ?_⟩
  · rw [(Cache.commit_fields c 0 (b, s2)).2.2.2.2, hs]; rfl
  · intro hb
    subst hb
    rcases probeSet_spec true _ _ s tag true s2 hsinv.1 ep with
      ⟨i, l, _, _, _, _, _, rfl⟩ | ⟨_, _, hb, _⟩ | ⟨_, _, hb, _⟩
    · simp [Set.afterHit]
    · cases hb
    · cases hb
  · intro hb hfull
    subst hb
    rcases probeSet_spec true _ _ s tag false s2 hsinv.1 ep with
      ⟨_, _, hb, _⟩ | ⟨i, l, _, _, hl, hu, _⟩ | ⟨v, l, _, hne, hl, hhead, _, rfl⟩
    · cases hb
    · have := hfull l (mem_of_getElem? _ _ _ hl)
      rw [hu] at this; cases this
    · have hhd := hhead rfl
      obtain ⟨_, hmem⟩ := hsinv.2.2.2.1 rfl
      have hqe : s.toReplace = v :: s.toReplace.tail := by
        cases hq2 : s.toReplace with
        | nil => rw [hq2] at hhd; cases hhd
        | cons x tl => rw [hq2] at hhd; simp at hhd; simp [hhd]
      refine ⟨v, l, hhd, hl, ?_, rfl, ?_⟩
      · intro j hj hjv
        have hget : s.lines[j]? = some s.lines[j] := List.getElem?_eq_getElem hj
        have hin : j ∈ s.toReplace :=
          (hmem j).2 ⟨_, hget, hfull _ (List.getElem_mem hj)⟩
        rw [hqe] at hin
        have hpw := hst.2
        rw [hqe] at hpw
        rcases List.mem_cons.1 hin with e | hin2
        · exact absurd e hjv
        · exact (List.pairwise_cons.1 hpw).1 j hin2
      · intro j hjv
        have hre : restamp (addrs.length + 1) s.lines (s.afterEvict true v l tag).lines st
            = Function.update st v (addrs.length + 1) := by
          simp only [Set.afterEvict]
          exact restamp_set _ _ _ _ l _ hl (Or.inr (hne v l hl).2)
        rw [hre, Function.update_noteq hjv, Function.update_same]
        have := hst.1 j
        omega

/-- Instance of C4 at an 8-byte cache with 4-byte lines, after probes
`0x00, 0x04, 0x00`, for address `0x08`. -/
theorem FullyAssociativeCache.fifo_evicts_oldest_witness :
    (0 < 4 ∧ 4 ≤ 8 ∧ 4 < 2 ^ 32) ∧
    ∃ c0 bs c st s tag b c2 s2,
      FullyAssociativeCache.new 8 4 true = some c0 ∧
      FullyAssociativeCache.run c0 [0, 4, 0] = some (bs, c) ∧
      FullyAssociativeCache.runStamped c0 (fun _ => 0) 0 [0, 4, 0] = some (c, st) ∧
      c.sets = [s] ∧ FullyAssociativeCache.tagOf 4 8 = some tag ∧
      FullyAssociativeCache.AddrInCache c 8 = some (b, c2) ∧ c2.sets = [s2] ∧
      (b = true → s2 = s) ∧
      (b = false → (∀ l ∈ s.lines, l.inUse = true) →
        ∃ v lv, s.toReplace.head? = some v ∧ s.lines[v]? = some lv ∧
          (∀ j : Nat, j < s.lines.length → j ≠ v → st v < st j) ∧
          s2 = s.afterEvict true v lv tag ∧
          (∀ j : Nat, j ≠ v → restamp ([0, 4, 0].length + 1) s.lines s2.lines st j
              < restamp ([0, 4, 0].length + 1) s.lines s2.lines st v)) :=
  ⟨by decide,
   (FullyAssociativeCache.fifo_evicts_oldest 8 4 [0, 4, 0] 8
      (by decide) (by decide) (by decide)).1⟩

/-! ### `SetAssociativeCache` and `DirectMappedCache`: invariants -/

theorem SetAssociativeCache.sa_new_inv (cs ls assoc : Nat) (fifo : Bool) (c : SetAssociativeCache)
    (h : SetAssociativeCache.new cs ls assoc fifo = some c) :
    SetAssociativeCache.Inv cs ls assoc fifo c := by
  unfold SetAssociativeCache.new at h
  split at h
  · cases h
  · split at h
    · cases h
    · cases h
      refine ⟨rfl, rfl, rfl, rfl, rfl, by simp, ?_⟩
      intro s hs
      rw [List.eq_of_mem_replicate hs]
      exact Set.Inv_fresh fifo assoc

theorem SetAssociativeCache.sa_AddrInCache_some (c : SetAssociativeCache) (addr : Nat) (b : Bool)
    (c2 : SetAssociativeCache) (h : SetAssociativeCache.AddrInCache c addr = some (b, c2)) :
    ∃ idx tag s s2, decode c.lineSize c.numSets addr = some (idx, tag) ∧ c.sets[idx]? = some s ∧
      probeSet c.useFIFO c.associativity c.totalLines s tag = some (b, s2) ∧
      c2 = { c with toCache := c.toCache.commit idx (b, s2) } := by
  rw [SetAssociativeCache.sa_AddrInCache_eq] at h
  simp only [Option.bind_eq_some, Option.map_eq_some', Prod.mk.injEq] at h
  obtain ⟨⟨idx, tag⟩, h0, s, h1, ⟨b2, s2⟩, h2, hb, hc⟩ := h
  simp only at hb
  subst hb
  exact ⟨idx, tag, s, s2, h0, h1, h2, hc.symm⟩

theorem SetAssociativeCache.sa_AddrInCache_inv (cs ls assoc : Nat) (fifo : Bool)
    (c : SetAssociativeCache) (addr : Nat) (b : Bool) (c2 : SetAssociativeCache)
    (hinv : SetAssociativeCache.Inv cs ls assoc fifo c)
    (h : SetAssociativeCache.AddrInCache c addr = some (b, c2)) :
    SetAssociativeCache.Inv cs ls assoc fifo c2 := by
  obtain ⟨h1, h2, h3, h4, h5, h6, hsets⟩ := hinv
  rcases SetAssociativeCache.sa_AddrInCache_some c addr b c2 h with ⟨idx, tag, s, s2, _, es, ep, rfl⟩
  obtain ⟨f1, f2, f3, _, f5⟩ := Cache.commit_fields c.toCache idx (b, s2)
  have hsin : s ∈ c.sets := mem_of_getElem? _ _ _ es
  rw [h3, h4] at ep
  have hs2 := probeSet_inv _ _ _ _ _ _ _ (hsets s hsin) ep
  refine ⟨f1.trans h1, f2.trans h2, f3.trans h3, h4, h5, ?_, ?_⟩
  · show (c.toCache.commit idx (b, s2)).sets.length = _
    rw [f5, List.length_set]; exact h6
  · intro x hx
    change x ∈ (c.toCache.commit idx (b, s2)).sets at hx
    rw [f5] at hx
    rcases List.mem_or_eq_of_mem_set hx with hx | rfl
    · exact hsets x hx
    · exact hs2

theorem SetAssociativeCache.sa_run_inv (cs ls assoc : Nat) (fifo : Bool) (addrs : List Nat) :
    ∀ (c : SetAssociativeCache) (bs : List Bool) (c2 : SetAssociativeCache),
      SetAssociativeCache.Inv cs ls assoc fifo c →
      SetAssociativeCache.run c addrs = some (bs, c2) →
      SetAssociativeCache.Inv cs ls assoc fifo c2 := by
  induction addrs with
  | nil =>
    intro c bs c2 hinv h
    simp only [SetAssociativeCache.run, Option.some.injEq, Prod.mk.injEq] at h
    rw [← h.2]; exact hinv
  | cons a as ih =>
    intro c bs c2 hinv h
    simp only [SetAssociativeCache.run, Option.bind_eq_bind, Option.bind_eq_some,
      Option.some.injEq, Prod.mk.injEq] at h
    obtain ⟨⟨b, c1⟩, h1, ⟨bs1, c3⟩, h2, _, rfl⟩ := h
    exact ih c1 bs1 c3 (SetAssociativeCache.sa_AddrInCache_inv cs ls assoc fifo c a b c1 hinv h1) h2

theorem DirectMappedCache.dm_new_inv (cs ls : Nat) (fifo : Bool) (c : Cache)
    (h : DirectMappedCache.new cs ls fifo = some c) : DirectMappedCache.Inv cs ls c := by
  unfold DirectMappedCache.new at h
  split at h
  · cases h
  · cases h
    refine ⟨rfl, rfl, by simp, ?_⟩
    intro s hs
    rw [List.eq_of_mem_replicate hs]
    exact ⟨by simp [Set.fresh], rfl⟩

theorem DirectMappedCache.dm_AddrInCache_some (c : Cache) (addr : Nat) (b : Bool) (c2 : Cache)
    (h : DirectMappedCache.AddrInCache c addr = some (b, c2)) :
    ∃ idx tag s l0, decode c.lineSize c.totalLines addr = some (idx, tag) ∧
      c.sets[idx]? = some s ∧ s.lines[0]? = some l0 ∧
      ((l0.inUse = true ∧ l0.tag = tag ∧ b = true ∧
          c2 = { c with hits := (c.hits + 1) % UINT32_MOD }) ∨
       (¬(l0.inUse = true ∧ l0.tag = tag) ∧ b = false ∧
          c2 = { c with
            sets := c.sets.set idx
              { s with lines := s.lines.set 0 { l0 with inUse := true, tag := tag } } })) := by
  rw [DirectMappedCache.dm_AddrInCache_eq] at h
  simp only [Option.bind_eq_some] at h
  obtain ⟨⟨idx, tag⟩, h0, s, h1, l0, h2, h3⟩ := h
  refine ⟨idx, tag, s, l0, h0, h1, h2, ?_⟩
  by_cases hp : l0.inUse = true ∧ l0.tag = tag
  · left
    simp only [hp.1, hp.2, Bool.true_and, beq_self_eq_true, if_true, Option.some.injEq,
      Prod.mk.injEq] at h3
    exact ⟨hp.1, hp.2, h3.1.symm, h3.2.symm⟩
  · right
    have : (l0.inUse && l0.tag == tag) = false := by
      cases hu : l0.inUse
      · simp
      · simp only [Bool.true_and, beq_eq_false_iff_ne]
        intro ht; exact hp ⟨hu, ht⟩
    simp only [this, Bool.false_eq_true, if_false, Option.some.injEq, Prod.mk.injEq] at h3
    exact ⟨hp, h3.1.symm, h3.2.symm⟩

theorem DirectMappedCache.dm_AddrInCache_inv (cs ls : Nat) (c : Cache) (addr : Nat) (b : Bool)
    (c2 : Cache) (hinv : DirectMappedCache.Inv cs ls c)
    (h : DirectMappedCache.AddrInCache c addr = some (b, c2)) :
    DirectMappedCache.Inv cs ls c2 := by
  obtain ⟨h1, h2, h3, hsets⟩ := hinv
  rcases DirectMappedCache.dm_AddrInCache_some c addr b c2 h with
    ⟨idx, tag, s, l0, _, es, _, ⟨_, _, _, rfl⟩ | ⟨_, _, rfl⟩⟩
  · exact ⟨h1, h2, h3, hsets⟩
  · refine ⟨h1, h2, by simp [h3], ?_⟩
    intro x hx
    rcases List.mem_or_eq_of_mem_set hx with hx | rfl
    · exact hsets x hx
    · have := hsets s (mem_of_getElem? _ _ _ es)
      exact ⟨by simp [this.1], this.2⟩

theorem DirectMappedCache.dm_run_inv (cs ls : Nat) (addrs : List Nat) :
    ∀ (c : Cache) (bs : List Bool) (c2 : Cache), DirectMappedCache.Inv cs ls c →
      DirectMappedCache.run c addrs = some (bs, c2) → DirectMappedCache.Inv cs ls c2 := by
  induction addrs with
  | nil =>
    intro c bs c2 hinv h
    simp only [DirectMappedCache.run, Option.some.injEq, Prod.mk.injEq] at h
    rw [← h.2]; exact hinv
  | cons a as ih =>
    intro c bs c2 hinv h
    simp only [DirectMappedCache.run, Option.bind_eq_bind, Option.bind_eq_some,
      Option.some.injEq, Prod.mk.injEq] at h
    obtain ⟨⟨b, c1⟩, h1, ⟨bs1, c3⟩, h2, _, rfl⟩ := h
    exact ih c1 bs1 c3 (DirectMappedCache.dm_AddrInCache_inv cs ls c a b c1 hinv h1) h2

theorem UniqueTags_of_length_le_one (lines : List Line) (h : lines.length ≤ 1) :
    UniqueTags lines := by
  intro i j li lj hij hi hj _ _
  have := getElem?_lt _ _ _ hi
  have := getElem?_lt _ _ _ hj
  omega

/-- C9: in every state that `AddrInCache` calls reach from construction, for
each of the three cache classes and both policies, no set holds two distinct
in-use lines with equal tags. -/
theorem unique_tags_in_every_reachable_state (cs ls assoc : Nat) (fifo : Bool)
    (addrs : List Nat) :
    (∀ (bs : List Bool) (c : Cache),
      FullyAssociativeCache.simulate cs ls fifo addrs = some (bs, c) →
        ∀ s ∈ c.sets, UniqueTags s.lines) ∧
    (∀ (bs : List Bool) (c : Cache),
      DirectMappedCache.simulate cs ls fifo addrs = some (bs, c) →
        ∀ s ∈ c.sets, UniqueTags s.lines) ∧
    (∀ (bs : List Bool) (c : SetAssociativeCache),
      SetAssociativeCache.simulate cs ls assoc fifo addrs = some (bs, c) →
        ∀ s ∈ c.sets, UniqueTags s.lines) := by
  refine ⟨?_, ?_, ?_⟩
  · intro bs c h s hs
    simp only [FullyAssociativeCache.simulate, Option.bind_eq_bind, Option.bind_eq_some] at h
    obtain ⟨c0, hc0, hr⟩ := h
    have h0 : 0 < ls := by
      rcases Nat.eq_zero_or_pos ls with e | e
      · simp [FullyAssociativeCache.new, e] at hc0
      · exact e
    rcases FullyAssociativeCache.fa_new_some cs ls fifo h0 with ⟨c0b, hc0b, hinv0, _, _⟩
    rw [hc0] at hc0b
    cases hc0b
    obtain ⟨_, _, _, s1, hs1, hsinv⟩ :=
      FullyAssociativeCache.fa_run_inv cs ls fifo addrs c0 bs c hinv0 hr
    rw [hs1] at hs
    simp only [List.mem_singleton] at hs
    subst hs
    exact hsinv.2.1
  · intro bs c h s hs
    simp only [DirectMappedCache.simulate, Option.bind_eq_bind, Option.bind_eq_some] at h
    obtain ⟨c0, hc0, hr⟩ := h
    have hinv := DirectMappedCache.dm_run_inv cs ls addrs c0 bs c
      (DirectMappedCache.dm_new_inv cs ls fifo c0 hc0) hr
    exact UniqueTags_of_length_le_one _ (le_of_eq (hinv.2.2.2 s hs).1)
  · intro bs c h s hs
    simp only [SetAssociativeCache.simulate, Option.bind_eq_bind, Option.bind_eq_some] at h
    obtain ⟨c0, hc0, hr⟩ := h
    have hinv := SetAssociativeCache.sa_run_inv cs ls assoc fifo addrs c0 bs c
      (SetAssociativeCache.sa_new_inv cs ls assoc fifo c0 hc0) hr
    exact (hinv.2.2.2.2.2.2 s hs).2.1

/-- Instance of C9 after the probes `0, 8, 16` on an 8-byte cache with 4-byte
lines (associativity 2 for the set associative cache), FIFO policy. -/
theorem unique_tags_in_every_reachable_state_witness :
    (FullyAssociativeCache.simulate 8 4 true [0, 8, 16] =
        some ([false, false, false],
          Cache.mk 8 4 2 true [Set.mk [Line.mk 4 0 true, Line.mk 2 0 true] [1, 0]] 0 3) ∧
      ∀ s ∈ (Cache.mk 8 4 2 true [Set.mk [Line.mk 4 0 true, Line.mk 2 0 true] [1, 0]] 0 3).sets,
        UniqueTags s.lines) ∧
    (DirectMappedCache.simulate 8 4 true [0, 8, 16] =
        some ([false, false, false],
          Cache.mk 8 4 2 true [Set.mk [Line.mk 2 0 true] [], Set.mk [Line.mk 0 0 false] []] 0 0) ∧
      ∀ s ∈ (Cache.mk 8 4 2 true
          [Set.mk [Line.mk 2 0 true] [], Set.mk [Line.mk 0 0 false] []] 0 0).sets,
        UniqueTags s.lines) ∧
    (SetAssociativeCache.simulate 8 4 2 true [0, 8, 16] =
        some ([false, false, false], SetAssociativeCache.mk
          (Cache.mk 8 4 2 true [Set.mk [Line.mk 4 0 true, Line.mk 2 0 true] [1, 0]] 0 3) 1 2) ∧
      ∀ s ∈ (SetAssociativeCache.mk
          (Cache.mk 8 4 2 true [Set.mk [Line.mk 4 0 true, Line.mk 2 0 true] [1, 0]] 0 3) 1 2).sets,
        UniqueTags s.lines) :=
  ⟨⟨by decide,
      (unique_tags_in_every_reachable_state 8 4 2 true [0, 8, 16]).1
        [false, false, false] _ (by decide)⟩,
   ⟨by decide,
      (unique_tags_in_every_reachable_state 8 4 2 true [0, 8, 16]).2.1
        [false, false, false] _ (by decide)⟩,
   ⟨by decide,
      (unique_tags_in_every_reachable_state 8 4 2 true [0, 8, 16]).2.2
        [false, false, false] _ (by decide)⟩⟩

/-! ### Where the code departs from its specification -/

/-- The loop of `mask(0, 0xFFFFFFFF)` reaches `i = 32` with the condition
`i <= b` still true, whatever bound is put on the number of tests: it has no
defined result. -/
theorem maskLoop_wrapped_bound (fuel : Nat) :
    ∀ (i r : Nat), i ≤ 32 → maskLoop fuel i (UINT32_MOD - 1) r = none := by
  induction fuel with
  | zero => intro i r _; rfl
  | succ f ih =>
    intro i r hi
    unfold maskLoop
    rw [if_pos (by simp only [UINT32_MOD]; omega)]
    by_cases h : i < 32
    · rw [if_pos h]; exact ih (i + 1) _ (by omega)
    · rw [if_neg h]

/-- More than 33 tests of the loop condition never change the result of the
loop of `mask`: a defined run ends at `i = 32` at the latest. -/
theorem maskLoop_fuel : ∀ (fuel i b r : Nat), 32 ≤ fuel + i →
    maskLoop (fuel + 2) i b r = maskLoop (fuel + 1) i b r := by
  intro fuel
  induction fuel with
  | zero =>
    intro i b r h
    have h32 : ¬ i < 32 := by omega
    simp only [maskLoop, h32, if_false]
  | succ f ih =>
    intro i b r h
    rw [maskLoop]
    conv => rhs; rw [maskLoop]
    by_cases h1 : i ≤ b
    · rw [if_pos h1, if_pos h1]
      by_cases h2 : i < 32
      · rw [if_pos h2, if_pos h2]
        exact ih (i + 1) b _ (by omega)
      · rw [if_neg h2, if_neg h2]
    · rw [if_neg h1, if_neg h1]

theorem decode_one_one (addr : Nat) : decode 1 1 addr = none := by
  have hm : ∀ fuel : Nat, maskLoop fuel 0 4294967295 0 = none :=
    fun fuel => maskLoop_wrapped_bound fuel 0 0 (by decide)
  have h1 : log2u 1 = some 0 := by decide
  have h2 : (0 + 0 + (UINT32_MOD - 1)) % UINT32_MOD = 4294967295 := by decide
  simp only [decode, h1, Option.bind_eq_bind, Option.some_bind, h2, mask, hm, Option.none_bind]

theorem DirectMappedCache.dm_AddrInCache_one_one (c : Cache) (addr : Nat)
    (h1 : c.lineSize = 1) (h2 : c.totalLines = 1) :
    DirectMappedCache.AddrInCache c addr = none := by
  rw [DirectMappedCache.dm_AddrInCache_eq, h1, h2, decode_one_one]; rfl

theorem SetAssociativeCache.sa_AddrInCache_one_one (c : SetAssociativeCache) (addr : Nat)
    (h1 : c.lineSize = 1) (h2 : c.numSets = 1) :
    SetAssociativeCache.AddrInCache c addr = none := by
  rw [SetAssociativeCache.sa_AddrInCache_eq, h1, h2, decode_one_one]; rfl

/-- C1 (code defect): an 8-byte direct mapped cache with 4-byte lines misses
on its first probe and leaves `misses` at 0, so `hits + misses` is 0 after one
call; the two sibling classes count the same miss. -/
theorem DirectMappedCache.miss_is_not_counted :
    (DirectMappedCache.simulate 8 4 true [0]).map (fun r => (r.1, r.2.hits, r.2.misses))
      = some ([false], 0, 0) ∧
    (FullyAssociativeCache.simulate 8 4 true [0]).map (fun r => (r.1, r.2.hits, r.2.misses))
      = some ([false], 0, 1) ∧
    (SetAssociativeCache.simulate 8 4 1 true [0]).map (fun r => (r.1, r.2.hits, r.2.misses))
      = some ([false], 0, 1) := by
  decide

/-- C2 (code defect): with a 1-byte line and one set both field widths are 0,
the upper bit `offsetWidth + setWidth - 1` wraps to `0xFFFFFFFF`, and the loop
of `mask` has no defined result for any bound on its length: no set index is
computed for any address, where the specification gives index 0. -/
theorem decode_one_byte_line_one_set_undefined (addr : Nat) :
    log2u 1 = some 0 ∧ (0 + 0 + (UINT32_MOD - 1)) % UINT32_MOD = 4294967295 ∧
    (∀ fuel : Nat, maskLoop fuel 0 4294967295 0 = none) ∧
    decode 1 1 addr = none ∧
    DirectMappedCache.simulate 1 1 true [addr] = none ∧
    SetAssociativeCache.simulate 4 1 4 true [addr] = none := by
  refine ⟨by decide, by decide, fun fuel => maskLoop_wrapped_bound fuel 0 0 (by decide),
    decode_one_one addr, ?_, ?_⟩
  · have hnew : ∃ c, DirectMappedCache.new 1 1 true = some c ∧ c.lineSize = 1 ∧
        c.totalLines = 1 := ⟨_, rfl, rfl, rfl⟩
    obtain ⟨c, hc, h1, h2⟩ := hnew
    simp only [DirectMappedCache.simulate, hc, Option.bind_eq_bind, Option.some_bind,
      DirectMappedCache.run, DirectMappedCache.dm_AddrInCache_one_one c addr h1 h2,
      Option.none_bind]
  · have hnew : ∃ c, SetAssociativeCache.new 4 1 4 true = some c ∧ c.lineSize = 1 ∧
        c.numSets = 1 := ⟨_, rfl, rfl, rfl⟩
    obtain ⟨c, hc, h1, h2⟩ := hnew
    simp only [SetAssociativeCache.simulate, hc, Option.bind_eq_bind, Option.some_bind,
      SetAssociativeCache.run, SetAssociativeCache.sa_AddrInCache_one_one c addr h1 h2,
      Option.none_bind]

/-- C3 (code defect): set associative cache, 16 bytes, 4-byte lines, 2 ways,
counter policy.  After the probes `0, 0, 8, 8` set 0 is full; the probe of 16
misses and the victim loop reads `lines[2]` of the 2-line set, so the call has
no defined result and "probe 16 twice" does not give (miss, hit).  The same
trace under FIFO, and on the fully associative cache, does. -/
theorem SetAssociativeCache.repeat_probe_undefined :
    (SetAssociativeCache.simulate 16 4 2 false [0, 0, 8, 8]).map (fun r => (r.1, r.2.sets)) =
      some ([false, true, false, true],
        [Set.mk [Line.mk 0 1 true, Line.mk 1 1 true] [],
         Set.mk [Line.mk 0 0 false, Line.mk 0 0 false] []]) ∧
    minCounterLoop [Line.mk 0 1 true, Line.mk 1 1 true] 4 0 0 SIZE_MAX = none ∧
    SetAssociativeCache.simulate 16 4 2 false [0, 0, 8, 8, 16] = none ∧
    SetAssociativeCache.simulate 16 4 2 false [0, 0, 8, 8, 16, 16] = none ∧
    (SetAssociativeCache.simulate 16 4 2 true [0, 0, 8, 8, 16, 16]).map (fun r => r.1) =
      some [false, true, false, true, false, true] ∧
    (FullyAssociativeCache.simulate 16 4 false [0, 0, 8, 8, 16, 16]).map (fun r => r.1) =
      some [false, true, false, true, false, true] := by
  decide

/-- C6 (code defect): a direct mapped cache of one 1-byte line is constructed,
but no probe of it has a defined result (the `mask` call of C2), where the
specification makes the first probe of an address a miss. -/
theorem DirectMappedCache.one_byte_cache_probe_undefined (fifo : Bool) (addr : Nat) :
    (∃ c, DirectMappedCache.new 1 1 fifo = some c ∧ c.totalLines = 1 ∧
      c.sets = [Set.mk [Line.mk 0 0 false] []] ∧
      DirectMappedCache.AddrInCache c addr = none) ∧
    DirectMappedCache.simulate 1 1 fifo [addr] = none ∧
    (DirectMappedCache.simulate 2 2 fifo [0, 1, 2]).map (fun r => r.1)
      = some [false, true, false] := by
  have hnew : ∃ c, DirectMappedCache.new 1 1 fifo = some c ∧ c.lineSize = 1 ∧
      c.totalLines = 1 ∧ c.sets = [Set.mk [Line.mk 0 0 false] []] := ⟨_, rfl, rfl, rfl, rfl⟩
  obtain ⟨c, hc, h1, h2, h3⟩ := hnew
  have hp := DirectMappedCache.dm_AddrInCache_one_one c addr h1 h2
  refine ⟨⟨c, hc, h2, h3, hp⟩, ?_, by cases fifo <;> decide⟩
  simp only [DirectMappedCache.simulate, hc, Option.bind_eq_bind, Option.some_bind,
    DirectMappedCache.run, hp, Option.none_bind]

/-- C7 (code defect): 4-byte cache with 1-byte lines.  The fully associative
cache answers every probe; the set associative cache with associativity 4 (one
set) has no defined answer to any probe (the `mask` call of C2), under either
policy. -/
theorem SetAssociativeCache.one_set_one_byte_line_differs (fifo : Bool) (addr : Nat) :
    (FullyAssociativeCache.simulate 4 1 fifo [0, 1, 0]).map (fun r => r.1)
      = some [false, false, true] ∧
    (∃ c, SetAssociativeCache.new 4 1 4 fifo = some c ∧ c.numSets = 1 ∧
      SetAssociativeCache.AddrInCache c addr = none) ∧
    SetAssociativeCache.simulate 4 1 4 fifo [addr] = none := by
  have hnew : ∃ c, SetAssociativeCache.new 4 1 4 fifo = some c ∧ c.numSets = 1 ∧
      c.lineSize = 1 := ⟨_, rfl, rfl, rfl⟩
  obtain ⟨c, hc, hn, hl⟩ := hnew
  have hp := SetAssociativeCache.sa_AddrInCache_one_one c addr hl hn
  refine ⟨by cases fifo <;> decide, ⟨c, hc, hn, hp⟩, ?_⟩
  simp only [SetAssociativeCache.simulate, hc, Option.bind_eq_bind, Option.some_bind,
    SetAssociativeCache.run, hp, Option.none_bind]

/-- C8 (code defect): 8-byte cache, 4-byte lines, counter policy, addresses 0
and 8 (same line, different tags).  The direct mapped cache answers the probes
`0, 0, 8, 8` with miss, hit, miss, hit.  The set associative cache with
associativity 1 has no defined answer to the third probe: its victim loop
compares the counter 1 of line 0 with `lines[1]`, outside the 1-line set.  Under
FIFO the two agree on this trace. -/
theorem SetAssociativeCache.one_way_counter_policy_differs :
    (DirectMappedCache.simulate 8 4 false [0, 0, 8, 8]).map (fun r => r.1)
      = some [false, true, false, true] ∧
    (SetAssociativeCache.simulate 8 4 1 false [0, 0]).map (fun r => (r.1, r.2.sets)) =
      some ([false, true], [Set.mk [Line.mk 0 1 true] [], Set.mk [Line.mk 0 0 false] []]) ∧
    minCounterLoop [Line.mk 0 1 true] 2 0 0 SIZE_MAX = none ∧
    SetAssociativeCache.simulate 8 4 1 false [0, 0, 8] = none ∧
    SetAssociativeCache.simulate 8 4 1 false [0, 0, 8, 8] = none ∧
    (SetAssociativeCache.simulate 8 4 1 true [0, 0, 8, 8]).map (fun r => r.1)
      = some [false, true, false, true] := by
  decide

/-- C10 (code defect): set associative cache, 16 bytes, 4-byte lines, 2 ways,
counter policy: the third probe of set 0 indexes `lines[2]` of a 2-line array
(the victim loop is bounded by `totalLines = 4`), so the call fails.  The
sibling loop of the fully associative cache is bounded by its array length. -/
theorem SetAssociativeCache.victim_loop_out_of_bounds :
    (SetAssociativeCache.simulate 16 4 2 false [0, 8]).map (fun r => (r.1, r.2.sets)) =
      some ([false, false],
        [Set.mk [Line.mk 0 0 true, Line.mk 1 0 true] [],
         Set.mk [Line.mk 0 0 false, Line.mk 0 0 false] []]) ∧
    [Line.mk 0 0 true, Line.mk 1 0 true][2]? = none ∧
    minCounterLoop [Line.mk 0 0 true, Line.mk 1 0 true] 4 0 0 SIZE_MAX = none ∧
    SetAssociativeCache.simulate 16 4 2 false [0, 8, 16] = none ∧
    (FullyAssociativeCache.simulate 16 4 false [0, 8, 16]).map (fun r => r.1)
      = some [false, false, false] := by
  decide

/-! ### The decoding, where it is defined -/

theorem and_shifted_ones (x k s : Nat) :
    (((2 ^ s - 1) <<< k) &&& x) >>> k = (x >>> k) &&& (2 ^ s - 1) := by
  apply Nat.eq_of_testBit_eq
  intro j
  simp only [Nat.testBit_shiftRight, Nat.testBit_and, Nat.testBit_shiftLeft,
    Nat.add_sub_cancel_left]
  have : decide (k + j ≥ k) = true := by simp
  rw [this, Bool.true_and, Bool.and_comm]

theorem and_high_ones (x k : Nat) (hk : k ≤ 32) (hx : x < 2 ^ 32) :
    (((2 ^ (32 - k) - 1) <<< k) &&& x) >>> k = x >>> k := by
  rw [and_shifted_ones, Nat.and_pow_two_sub_one_eq_mod]
  apply Nat.mod_eq_of_lt
  rw [Nat.shiftRight_eq_div_pow, Nat.div_lt_iff_lt_mul (Nat.two_pow_pos k), ← pow_add]
  have : 32 - k + k = 32 := by omega
  rw [this]; exact hx

theorem log2u_two_pow : ∀ k < 32, log2u (2 ^ k) = some k := by
  decide

/-- The tag that `FullyAssociativeCache::AddrInCache` computes for a line size
`2 ^ ow` is `a >> ow`. -/
theorem FullyAssociativeCache.fa_tagOf_spec (ow a : Nat) (how : ow ≤ 31) (ha : a < 2 ^ 32) :
    FullyAssociativeCache.tagOf (2 ^ ow) a = some (a >>> ow) := by
  have hm := mask_closed ow (by omega) 31 (by decide)
  rw [if_pos how] at hm
  simp only [FullyAssociativeCache.tagOf, log2u_two_pow ow (by omega), Option.bind_eq_bind,
    Option.some_bind, ADDR_SIZE, hm, shr32]
  rw [if_pos (by omega), and_high_ones a ow (by omega) ha]

/-- Outside the corner `lineSize = 1`, `numSets = 1` the decoding of
`DirectMappedCache::AddrInCache` and `SetAssociativeCache::AddrInCache` is the
one of the specification: for `lineSize = 2 ^ ow` and `numSets = 2 ^ sw` with
`1 <= ow + sw <= 31` the index is `(a >> ow) & (numSets - 1)` and the tag is
`a >> (ow + sw)`. -/
theorem decode_spec (ow sw a : Nat) (hpos : 0 < ow + sw) (hle : ow + sw ≤ 31)
    (ha : a < 2 ^ 32) :
    decode (2 ^ ow) (2 ^ sw) a = some ((a >>> ow) &&& (2 ^ sw - 1), a >>> (ow + sw)) := by
  have hb : (ow + sw + (UINT32_MOD - 1)) % UINT32_MOD = ow + sw - 1 := by
    simp only [UINT32_MOD]; omega
  have hm1 : mask ow (ow + sw - 1) = some ((2 ^ sw - 1) <<< ow) := by
    rw [mask_closed ow (by omega) (ow + sw - 1) (by omega)]
    by_cases hs : sw = 0
    · subst hs
      rw [if_neg (by omega)]; simp
    · rw [if_pos (by omega)]
      have : ow + sw - 1 + 1 - ow = sw := by omega
      rw [this]
  have hm2 := mask_closed (ow + sw) (by omega) 31 (by decide)
  rw [if_pos hle] at hm2
  simp only [decode, log2u_two_pow ow (by omega), log2u_two_pow sw (by omega),
    Option.bind_eq_bind, Option.some_bind, hb, hm1, ADDR_SIZE, hm2, shr32]
  rw [if_pos (by omega), if_pos (by omega)]
  simp only [Option.some_bind, Option.some.injEq, Prod.mk.injEq]
  exact ⟨and_shifted_ones a ow sw, and_high_ones a (ow + sw) (by omega) ha⟩

/-- Instance of `decode_spec`: 4-byte lines, 2 sets, address `0x1C`. -/
theorem decode_spec_example :
    decode 4 2 28 = some (1, 3) := by
  decide

/-! ### Probing an address twice -/

theorem probeSet_installs (fifo : Bool) (n m : Nat) (s : Set) (tag : Nat) (b : Bool) (s2 : Set)
    (hn : s.lines.length = n) (h : probeSet fifo n m s tag = some (b, s2)) :
    s2.lines.length = n ∧ ∃ (j : Nat) (l : Line), s2.lines[j]? = some l ∧ l.inUse = true ∧ l.tag = tag := by
  rcases probeSet_spec fifo n m s tag b s2 hn h with
    ⟨i, l, _, hl, hu, ht, _, rfl⟩ | ⟨i, l, _, _, hl, _, _, rfl⟩ | ⟨v, l, _, hfull, hl, _, _, rfl⟩
  · have hi := getElem?_lt _ _ _ hl
    cases fifo
    · have hx : (s.afterHit false i l).lines[i]? =
          some { l with counter := (l.counter + 1) % SIZE_MOD } := by
        simp only [Set.afterHit, Bool.false_eq_true, if_false]
        rw [List.getElem?_set, if_pos rfl, if_pos hi]
      exact ⟨by simp [Set.afterHit, hn], i, _, hx, hu, ht⟩
    · exact ⟨hn, i, l, hl, hu, ht⟩
  · have hi := getElem?_lt _ _ _ hl
    have hx : (s.afterFill fifo i l tag).lines[i]? =
        some { tag := tag, counter := if fifo then l.counter else 0, inUse := true } := by
      simp only [Set.afterFill]
      rw [List.getElem?_set, if_pos rfl, if_pos hi]
    exact ⟨by simp [Set.afterFill, hn], i, _, hx, rfl, rfl⟩
  · have hv := getElem?_lt _ _ _ hl
    have hx : (s.afterEvict fifo v l tag).lines[v]? = some { l with tag := tag } := by
      simp only [Set.afterEvict]
      rw [List.getElem?_set, if_pos rfl, if_pos hv]
    exact ⟨by simp [Set.afterEvict, hn], v, _, hx, (hfull v l hl).1, rfl⟩

theorem probeSet_resident (fifo : Bool) (n m : Nat) (s : Set) (tag : Nat)
    (hn : s.lines.length = n)
    (hres : ∃ (j : Nat) (l : Line), s.lines[j]? = some l ∧ l.inUse = true ∧ l.tag = tag) :
    ∃ s2, probeSet fifo n m s tag = some (true, s2) := by
  obtain ⟨j, l, hl, hu, ht⟩ := hres
  have hj := getElem?_lt _ _ _ hl
  unfold probeSet
  rcases findTag_spec s.lines tag n 0 (by omega) with ⟨i, li, e, _, _, hli, _⟩ | ⟨e, hno⟩
  · rw [e]
    cases fifo
    · simp [modifyLine_eq_some _ _ _ _ hli]
    · simp
  · exact absurd ⟨hu, ht⟩ (hno j l (Nat.zero_le _) (by omega) hl)

/-- In a fully associative cache, in every state reached from construction,
probing an address twice in a row returns; the second call returns `true`. -/
theorem FullyAssociativeCache.fa_repeat_probe_hits (cs ls : Nat) (fifo : Bool)
    (addrs : List Nat) (a : Nat) (h0 : 0 < ls) (hle : ls ≤ cs) (h32 : ls < 2 ^ 32) :
    ∃ bs c b c1 c2, FullyAssociativeCache.simulate cs ls fifo addrs = some (bs, c) ∧
      FullyAssociativeCache.AddrInCache c a = some (b, c1) ∧
      FullyAssociativeCache.AddrInCache c1 a = some (true, c2) := by
  rcases FullyAssociativeCache.fa_simulate_total cs ls fifo addrs h0 hle h32 with
    ⟨bs, c, hsim, _, hinv⟩
  rcases FullyAssociativeCache.fa_AddrInCache_total cs ls fifo c a hinv h0 hle h32 with
    ⟨b, c1, hp⟩
  have hinv1 := FullyAssociativeCache.fa_AddrInCache_inv cs ls fifo c a b c1 hinv hp
  rcases FullyAssociativeCache.fa_AddrInCache_total cs ls fifo c1 a hinv1 h0 hle h32 with
    ⟨b2, c2, hp2⟩
  refine ⟨bs, c, b, c1, c2, hsim, hp, ?_⟩
  obtain ⟨h1, h2, h3, s, hs, hsinv⟩ := hinv
  rcases FullyAssociativeCache.fa_AddrInCache_some c a b c1 hp with ⟨s0, tag, s1, e0, etag, ep, hc1⟩
  rw [hs] at e0
  simp only [List.getElem?_cons_zero, Option.some.injEq] at e0
  subst e0
  rw [h2, h3] at ep
  obtain ⟨hlen1, hres⟩ := probeSet_installs _ _ _ _ _ _ _ hsinv.1 ep
  obtain ⟨f1, f2, f3, _, f5⟩ := Cache.commit_fields c 0 (b, s1)
  rcases FullyAssociativeCache.fa_AddrInCache_some c1 a b2 c2 hp2 with
    ⟨s1b, tag2, s2, e1, etag2, ep2, _⟩
  rw [hc1, f1] at etag2
  rw [etag] at etag2
  cases etag2
  rw [hc1, f5, hs] at e1
  simp only [List.set_cons_zero, List.getElem?_cons_zero, Option.some.injEq] at e1
  subst e1
  rw [hc1, f2, f3, h2, h3] at ep2
  rcases probeSet_resident fifo _ _ s1 tag hlen1 hres with ⟨s3, hp3⟩
  rw [hp3] at ep2
  simp only [Option.some.injEq, Prod.mk.injEq] at ep2
  rw [← ep2.1] at hp2
  exact hp2

/-- In a set associative cache, in every state reached from construction: if a
probe of an address returns, probing the same address again returns `true`. -/
theorem SetAssociativeCache.sa_repeat_probe_hits (cs ls assoc : Nat) (fifo : Bool)
    (addrs : List Nat) (a : Nat) (bs : List Bool) (c c1 : SetAssociativeCache) (b : Bool)
    (hsim : SetAssociativeCache.simulate cs ls assoc fifo addrs = some (bs, c))
    (hp : SetAssociativeCache.AddrInCache c a = some (b, c1)) :
    ∃ c2, SetAssociativeCache.AddrInCache c1 a = some (true, c2) := by
  simp only [SetAssociativeCache.simulate, Option.bind_eq_bind, Option.bind_eq_some] at hsim
  obtain ⟨c0, hc0, hr⟩ := hsim
  have hinv := SetAssociativeCache.sa_run_inv cs ls assoc fifo addrs c0 bs c
    (SetAssociativeCache.sa_new_inv cs ls assoc fifo c0 hc0) hr
  obtain ⟨h1, h2, h3, h4, h5, h6, hsets⟩ := hinv
  rcases SetAssociativeCache.sa_AddrInCache_some c a b c1 hp with ⟨idx, tag, s, s1, ed, es, ep, rfl⟩
  obtain ⟨f1, f2, f3, _, f5⟩ := Cache.commit_fields c.toCache idx (b, s1)
  have hsin : s ∈ c.sets := mem_of_getElem? _ _ _ es
  have hidx : idx < c.sets.length := getElem?_lt _ _ _ es
  obtain ⟨hlen1, hres⟩ := probeSet_installs _ _ _ _ _ _ _
    ((hsets s hsin).1.trans h4.symm) ep
  rcases probeSet_resident c.useFIFO c.associativity c.totalLines s1 tag hlen1 hres with ⟨s3, hp3⟩
  refine ⟨{ c with toCache := (c.toCache.commit idx (b, s1)).commit idx (true, s3) }, ?_⟩
  rw [SetAssociativeCache.sa_AddrInCache_eq]
  show ((decode (c.toCache.commit idx (b, s1)).lineSize c.numSets a).bind fun d =>
      ((c.toCache.commit idx (b, s1)).sets[d.1]?).bind fun s =>
        (probeSet (c.toCache.commit idx (b, s1)).useFIFO c.associativity
          (c.toCache.commit idx (b, s1)).totalLines s d.2).map fun r =>
            (r.1, _)) = _
  rw [f1, f2, f3, f5, ed]
  simp only [Option.some_bind]
  have : (c.sets.set idx s1)[idx]? = some s1 := by
    rw [List.getElem?_set, if_pos rfl, if_pos hidx]
  rw [this]
  simp only [Option.some_bind, hp3, Option.map_some']

/-! ### One set of `totalLines` lines against the fully associative cache -/

theorem log2u_ge_one (ls w : Nat) (h2 : 2 ≤ ls) (h : log2u ls = some w) : 1 ≤ w := by
  simp only [log2u] at h
  rw [if_neg (by omega)] at h
  simp only [Option.some.injEq] at h
  rw [← h]
  show 1 ≤ log2Loop (31 + 1) ls
  unfold log2Loop
  rw [if_pos h2]
  omega

theorem decode_one_set (ls a : Nat) (h2 : 2 ≤ ls) (h32 : ls < 2 ^ 32) :
    decode ls 1 a = (FullyAssociativeCache.tagOf ls a).map (fun t => (0, t)) := by
  rcases log2u_some ls (by omega) h32 with ⟨ow, hw, hle⟩
  have h1 := log2u_ge_one ls ow h2 hw
  have hone : log2u 1 = some 0 := by decide
  have hb : (ow + (UINT32_MOD - 1)) % UINT32_MOD = ow - 1 := by
    simp only [UINT32_MOD]; omega
  have hm1 : mask ow (ow - 1) = some 0 := by
    rw [mask_closed ow (by omega) (ow - 1) (by omega), if_neg (by omega)]
  have hs : shr32 (0 &&& a) ow = some 0 := by
    simp only [shr32, Nat.zero_and, Nat.zero_shiftRight]
    rw [if_pos (by omega)]
  simp only [decode, FullyAssociativeCache.tagOf, hw, hone, Option.bind_eq_bind,
    Option.some_bind, hb, hm1, hs, Nat.add_zero]
  rcases mask ow (ADDR_SIZE - 1) with _ | m
  · rfl
  · simp only [Option.some_bind]
    rcases shr32 (m &&& a) ow with _ | t <;> rfl

theorem SetAssociativeCache.sa_step_one_set (c : SetAssociativeCache) (a : Nat)
    (hn : c.numSets = 1) (hassoc : c.associativity = c.totalLines)
    (h2 : 2 ≤ c.lineSize) (h32 : c.lineSize < 2 ^ 32) :
    SetAssociativeCache.AddrInCache c a =
      (FullyAssociativeCache.AddrInCache c.toCache a).map
        (fun r => (r.1, { c with toCache := r.2 })) := by
  rw [SetAssociativeCache.sa_AddrInCache_eq, FullyAssociativeCache.fa_AddrInCache_eq, hn,
    decode_one_set _ a h2 h32, hassoc]
  rcases FullyAssociativeCache.tagOf c.lineSize a with _ | t
  · rcases c.sets[0]? with _ | s <;> rfl
  · simp only [Option.map_some', Option.some_bind]
    rcases c.sets[0]? with _ | s
    · rfl
    · simp only [Option.some_bind]
      rcases probeSet c.useFIFO c.totalLines c.totalLines s t with _ | r <;> rfl

theorem FullyAssociativeCache.fa_step_fields (c : Cache) (a : Nat) (b : Bool) (c2 : Cache)
    (h : FullyAssociativeCache.AddrInCache c a = some (b, c2)) :
    c2.lineSize = c.lineSize ∧ c2.totalLines = c.totalLines := by
  rcases FullyAssociativeCache.fa_AddrInCache_some c a b c2 h with ⟨_, _, s2, _, _, _, rfl⟩
  obtain ⟨f1, f2, _⟩ := Cache.commit_fields c 0 (b, s2)
  exact ⟨f1, f2⟩

theorem SetAssociativeCache.sa_run_one_set (addrs : List Nat) :
    ∀ (c : SetAssociativeCache), c.numSets = 1 → c.associativity = c.totalLines →
      2 ≤ c.lineSize → c.lineSize < 2 ^ 32 →
      (SetAssociativeCache.run c addrs).map (fun r => r.1) =
        (FullyAssociativeCache.run c.toCache addrs).map (fun r => r.1) := by
  induction addrs with
  | nil => intro c _ _ _ _; rfl
  | cons a as ih =>
    intro c hn hassoc h2 h32
    simp only [SetAssociativeCache.run, FullyAssociativeCache.run, Option.bind_eq_bind,
      SetAssociativeCache.sa_step_one_set c a hn hassoc h2 h32]
    rcases hp : FullyAssociativeCache.AddrInCache c.toCache a with _ | ⟨b, c1⟩
    · rfl
    · obtain ⟨f1, f2⟩ := FullyAssociativeCache.fa_step_fields c.toCache a b c1 hp
      simp only [Option.map_some', Option.some_bind]
      have := ih { c with toCache := c1 } hn (hassoc.trans f2.symm) (by rw [f1]; exact h2)
        (by rw [f1]; exact h32)
      simp only at this
      rcases h1 : SetAssociativeCache.run { c with toCache := c1 } as with _ | r1
      · rw [h1] at this
        rcases h3 : FullyAssociativeCache.run c1 as with _ | r3
        · rfl
        · rw [h3] at this; cases this
      · rw [h1] at this
        rcases h3 : FullyAssociativeCache.run c1 as with _ | r3
        · rw [h3] at this; cases this
        · rw [h3] at this
          simp only [Option.map_some', Option.some.injEq] at this
          simp only [Option.some_bind, Option.map_some', this]

/-- Outside the corner `lineSize = 1`: for every line size from 2 up and every
cache of at least one line, under either policy, a set associative cache with
`associativity = totalLines` returns, probe by probe, what the fully
associative cache of the same sizes returns, and both answer every probe. -/
theorem SetAssociativeCache.sa_one_set_agrees (cs ls : Nat) (fifo : Bool) (addrs : List Nat)
    (h2 : 2 ≤ ls) (hle : ls ≤ cs) (h32 : ls < 2 ^ 32) :
    (SetAssociativeCache.simulate cs ls (cs / ls) fifo addrs).map (fun r => r.1) =
      (FullyAssociativeCache.simulate cs ls fifo addrs).map (fun r => r.1) ∧
    ∃ bs c, FullyAssociativeCache.simulate cs ls fifo addrs = some (bs, c) ∧
      bs.length = addrs.length := by
  have hn : 0 < cs / ls := Nat.div_pos hle (by omega)
  refine ⟨?_, ?_⟩
  · have hsa : SetAssociativeCache.new cs ls (cs / ls) fifo = some
        { cacheSize := cs, lineSize := ls, totalLines := cs / ls, useFIFO := fifo,
          sets := List.replicate (cs / ls / (cs / ls)) (Set.fresh (cs / ls)),
          hits := 0, misses := 0, numSets := cs / ls / (cs / ls), associativity := cs / ls } := by
      simp only [SetAssociativeCache.new]
      rw [if_neg (by omega), if_neg (by omega)]
    have hfa : FullyAssociativeCache.new cs ls fifo = some
        { cacheSize := cs, lineSize := ls, totalLines := cs / ls, useFIFO := fifo,
          sets := [Set.fresh (cs / ls)], hits := 0, misses := 0 } := by
      simp only [FullyAssociativeCache.new]
      rw [if_neg (by omega)]
    have hone : cs / ls / (cs / ls) = 1 := Nat.div_self hn
    simp only [SetAssociativeCache.simulate, FullyAssociativeCache.simulate, hsa, hfa,
      Option.bind_eq_bind, Option.some_bind]
    rw [SetAssociativeCache.sa_run_one_set addrs _ hone rfl h2 h32]
    simp only [hone, List.replicate_one]
  · rcases FullyAssociativeCache.fa_simulate_total cs ls fifo addrs (by omega) hle h32 with
      ⟨bs, c, h, hl, _⟩
    exact ⟨bs, c, h, hl⟩

/-! ### The direct mapped cache against its specification -/

theorem decode_some (ow sw a : Nat) (hpos : 0 < ow + sw) (hle : ow + sw ≤ 31) :
    ∃ idx tag, decode (2 ^ ow) (2 ^ sw) a = some (idx, tag) ∧ idx < 2 ^ sw := by
  have hb : (ow + sw + (UINT32_MOD - 1)) % UINT32_MOD = ow + sw - 1 := by
    simp only [UINT32_MOD]; omega
  have hm1 : mask ow (ow + sw - 1) = some ((2 ^ sw - 1) <<< ow) := by
    rw [mask_closed ow (by omega) (ow + sw - 1) (by omega)]
    by_cases hs : sw = 0
    · subst hs
      rw [if_neg (by omega)]; simp
    · rw [if_pos (by omega)]
      have : ow + sw - 1 + 1 - ow = sw := by omega
      rw [this]
  have hm2 := mask_closed (ow + sw) (by omega) 31 (by decide)
  rw [if_pos hle] at hm2
  refine ⟨(a >>> ow) &&& (2 ^ sw - 1),
    (((2 ^ (31 + 1 - (ow + sw)) - 1) <<< (ow + sw)) &&& a) >>> (ow + sw), ?_, ?_⟩
  · simp only [decode, log2u_two_pow ow (by omega), log2u_two_pow sw (by omega),
      Option.bind_eq_bind, Option.some_bind, hb, hm1, ADDR_SIZE, hm2, shr32]
    rw [if_pos (by omega), if_pos (by omega)]
    simp only [Option.some_bind, and_shifted_ones]
  · rw [Nat.and_pow_two_sub_one_eq_mod]
    exact Nat.mod_lt _ (Nat.two_pow_pos sw)

theorem DirectMappedCache.dm_hitSpec_eq (ls n : Nat) (earlier : List Nat) (c : Cache) (a : Nat)
    (idx tag : Nat) (s : Set) (l : Line) (htr : DirectMappedCache.Tracks ls n earlier c)
    (hd : decode ls n a = some (idx, tag)) (hidx : idx < n)
    (hs : c.sets[idx]? = some s) (hl : s.lines[0]? = some l) :
    DirectMappedCache.hitSpec ls n earlier a = (l.inUse && l.tag == tag) := by
  obtain ⟨_, _, hsets⟩ := htr
  obtain ⟨s2, l2, hs2, hl2, hrec⟩ := hsets idx hidx
  rw [hs] at hs2
  cases hs2
  rw [hl] at hl2
  cases hl2
  simp only [DirectMappedCache.hitSpec, hd, Option.map_some']
  rcases hf : earlier.find? (fun e => (decode ls n e).map Prod.fst == some idx) with _ | e
  · rw [hf] at hrec
    simp only at hrec
    simp [hrec]
  · rw [hf] at hrec
    simp only at hrec
    show ((decode ls n e).map Prod.snd == some tag) = _
    rw [hrec.2, hrec.1]
    simp

theorem DirectMappedCache.dm_tracks_update (ls n : Nat) (earlier : List Nat) (c c2 : Cache)
    (a idx tag : Nat) (htr : DirectMappedCache.Tracks ls n earlier c)
    (hd : decode ls n a = some (idx, tag))
    (h1 : c2.lineSize = ls) (h2 : c2.totalLines = n)
    (hsame : ∀ k : Nat, k ≠ idx → c2.sets[k]? = c.sets[k]?)
    (hnew : ∃ s l, c2.sets[idx]? = some s ∧ s.lines[0]? = some l ∧ l.inUse = true ∧
      l.tag = tag) :
    DirectMappedCache.Tracks ls n (a :: earlier) c2 := by
  obtain ⟨_, _, hsets⟩ := htr
  refine ⟨h1, h2, ?_⟩
  intro j hjn
  by_cases hj : j = idx
  · subst hj
    obtain ⟨s, l, hs, hl, hu, ht⟩ := hnew
    refine ⟨s, l, hs, hl, ?_⟩
    have hhere : ((decode ls n a).map Prod.fst == some j) = true := by
      rw [hd]; simp
    rw [List.find?_cons, hhere]
    simp only [hd, Option.map_some', ht]
    exact ⟨hu, trivial⟩
  · obtain ⟨sj, lj, hsj, hlj, hrecj⟩ := hsets j hjn
    refine ⟨sj, lj, by rw [hsame j hj]; exact hsj, hlj, ?_⟩
    have : ((decode ls n a).map Prod.fst == some j) = false := by
      rw [hd]
      simp only [Option.map_some', beq_eq_false_iff_ne, ne_eq, Option.some.injEq]
      exact fun e => hj e.symm
    rw [List.find?_cons, this]
    exact hrecj

theorem DirectMappedCache.dm_step_spec (ls n : Nat) (earlier : List Nat) (c : Cache) (a : Nat)
    (idx tag : Nat) (htr : DirectMappedCache.Tracks ls n earlier c)
    (hd : decode ls n a = some (idx, tag)) (hidx : idx < n) :
    ∃ c2, DirectMappedCache.AddrInCache c a =
        some (DirectMappedCache.hitSpec ls n earlier a, c2) ∧
      DirectMappedCache.Tracks ls n (a :: earlier) c2 := by
  obtain ⟨s, l, hs, hl, _⟩ := htr.2.2 idx hidx
  have h1 := htr.1
  have h2 := htr.2.1
  have hlen : idx < c.sets.length := getElem?_lt _ _ _ hs
  have hl0 : 0 < s.lines.length := getElem?_lt _ _ _ hl
  have hspec := DirectMappedCache.dm_hitSpec_eq ls n earlier c a idx tag s l htr hd hidx hs hl
  rw [DirectMappedCache.dm_AddrInCache_eq, h1, h2, hd]
  simp only [Option.some_bind, hs, hl, hspec]
  by_cases hp : (l.inUse && l.tag == tag) = true
  · rw [if_pos hp, hp]
    refine ⟨_, rfl, ?_⟩
    refine DirectMappedCache.dm_tracks_update ls n earlier c _ a idx tag htr hd rfl rfl
      (fun _ _ => rfl) ⟨s, l, hs, hl, ?_⟩
    simp only [Bool.and_eq_true, beq_iff_eq] at hp
    exact hp
  · rw [if_neg hp]
    have hpf : (l.inUse && l.tag == tag) = false := by
      cases h : (l.inUse && l.tag == tag)
      · rfl
      · exact absurd h hp
    rw [hpf]
    refine ⟨_, rfl, ?_⟩
    refine DirectMappedCache.dm_tracks_update ls n earlier c _ a idx tag htr hd rfl rfl ?_
      ⟨{ s with lines := s.lines.set 0 { l with inUse := true, tag := tag } },
        { l with inUse := true, tag := tag }, ?_, ?_, rfl, rfl⟩
    · intro k hk
      show (c.sets.set idx _)[k]? = _
      rw [List.getElem?_set, if_neg (fun e => hk e.symm)]
    · show (c.sets.set idx _)[idx]? = some _
      rw [List.getElem?_set, if_pos rfl, if_pos hlen]
    · show (s.lines.set 0 _)[0]? = some _
      rw [List.getElem?_set, if_pos rfl, if_pos hl0]

theorem DirectMappedCache.dm_run_spec (ow sw : Nat) (hpos : 0 < ow + sw) (hle : ow + sw ≤ 31)
    (addrs : List Nat) :
    ∀ (earlier : List Nat) (c : Cache),
      DirectMappedCache.Tracks (2 ^ ow) (2 ^ sw) earlier c →
      ∃ c2, DirectMappedCache.run c addrs =
        some (DirectMappedCache.runSpec (2 ^ ow) (2 ^ sw) earlier addrs, c2) := by
  induction addrs with
  | nil => intro earlier c _; exact ⟨c, rfl⟩
  | cons a as ih =>
    intro earlier c htr
    rcases decode_some ow sw a hpos hle with ⟨idx, tag, hd, hidx⟩
    rcases DirectMappedCache.dm_step_spec _ _ earlier c a idx tag htr hd hidx with ⟨c1, h1, htr1⟩
    rcases ih (a :: earlier) c1 htr1 with ⟨c2, h2⟩
    refine ⟨c2, ?_⟩
    simp only [DirectMappedCache.run, Option.bind_eq_bind, h1, Option.some_bind, h2,
      DirectMappedCache.runSpec]

/-- Outside the one-byte cache: for `lineSize = 2 ^ ow` and `2 ^ sw` lines with
`1 <= ow + sw <= 31`, under either policy, a direct mapped cache answers every
probe, and it answers `true` exactly when some earlier probe decoded to the same
line and the most recent of those had the same tag (`hitSpec`). -/
theorem DirectMappedCache.dm_matches_spec (ow sw : Nat) (fifo : Bool) (addrs : List Nat)
    (hpos : 0 < ow + sw) (hle : ow + sw ≤ 31) :
    ∃ c, DirectMappedCache.simulate (2 ^ (ow + sw)) (2 ^ ow) fifo addrs =
      some (DirectMappedCache.runSpec (2 ^ ow) (2 ^ sw) [] addrs, c) := by
  have hdiv : 2 ^ (ow + sw) / 2 ^ ow = 2 ^ sw := by
    rw [Nat.pow_add, Nat.mul_div_cancel_left _ (Nat.two_pow_pos ow)]
  have hne : (2 : Nat) ^ ow ≠ 0 := Nat.ne_of_gt (Nat.two_pow_pos ow)
  have hnew : DirectMappedCache.new (2 ^ (ow + sw)) (2 ^ ow) fifo = some
      { cacheSize := 2 ^ (ow + sw), lineSize := 2 ^ ow, totalLines := 2 ^ sw, useFIFO := fifo,
        sets := List.replicate (2 ^ sw) (Set.fresh 1), hits := 0, misses := 0 } := by
    simp only [DirectMappedCache.new]
    rw [if_neg hne, hdiv]
  have htr : DirectMappedCache.Tracks (2 ^ ow) (2 ^ sw) []
      { cacheSize := 2 ^ (ow + sw), lineSize := 2 ^ ow, totalLines := 2 ^ sw, useFIFO := fifo,
        sets := List.replicate (2 ^ sw) (Set.fresh 1), hits := 0, misses := 0 } := by
    refine ⟨rfl, rfl, ?_⟩
    intro idx hidx
    refine ⟨Set.fresh 1, {}, ?_, rfl, rfl⟩
    simp only [List.getElem?_replicate]
    rw [if_pos hidx]
  rcases DirectMappedCache.dm_run_spec ow sw hpos hle addrs [] _ htr with ⟨c2, h2⟩
  refine ⟨c2, ?_⟩
  simp only [DirectMappedCache.simulate, hnew, Option.bind_eq_bind, Option.some_bind, h2]

/-- By `hitSpec`, an address probed again right after itself hits. -/
theorem DirectMappedCache.dm_hitSpec_repeat (ls n : Nat) (earlier : List Nat) (a : Nat) :
    DirectMappedCache.hitSpec ls n (a :: earlier) a = true := by
  simp [DirectMappedCache.hitSpec, List.find?_cons]

/-- Instance of `dm_matches_spec`: 8-byte cache, 4-byte lines; `0x00` and `0x08`
share line 0 with different tags and evict each other, a repeated address hits. -/
theorem DirectMappedCache.dm_aliasing_example :
    (0 < 2 + 1 ∧ 2 + 1 ≤ 31) ∧
    (∃ c, DirectMappedCache.simulate (2 ^ (2 + 1)) (2 ^ 2) true [0, 8, 0, 8, 8, 4, 4] =
      some (DirectMappedCache.runSpec (2 ^ 2) (2 ^ 1) [] [0, 8, 0, 8, 8, 4, 4], c)) ∧
    DirectMappedCache.runSpec (2 ^ 2) (2 ^ 1) [] [0, 8, 0, 8, 8, 4, 4] =
      [false, false, false, false, true, false, true] :=
  ⟨by decide,
   DirectMappedCache.dm_matches_spec 2 1 true [0, 8, 0, 8, 8, 4, 4] (by decide) (by decide),
   by decide⟩

/-! ### Associativity 1 under FIFO against the direct mapped cache -/

theorem probeSet_total_fifo (n m : Nat) (s : Set) (tag : Nat)
    (hinv : s.Inv true n) (hn : 0 < n) : ∃ b s2, probeSet true n m s tag = some (b, s2) := by
  have h : probeSet true n m s tag = probeSet true n n s tag := by
    simp only [probeSet, if_true]
  rw [h]
  exact probeSet_total true n s tag hinv hn

theorem SetAssociativeCache.sa_step_one_way (cs ls n : Nat) (earlier : List Nat)
    (c : SetAssociativeCache) (a idx tag : Nat)
    (hinv : SetAssociativeCache.Inv cs ls 1 true c) (hnum : c.numSets = n)
    (htr : DirectMappedCache.Tracks ls n earlier c.toCache)
    (hd : decode ls n a = some (idx, tag)) (hidx : idx < n) :
    ∃ c2, SetAssociativeCache.AddrInCache c a =
        some (DirectMappedCache.hitSpec ls n earlier a, c2) ∧
      c2.numSets = n ∧ DirectMappedCache.Tracks ls n (a :: earlier) c2.toCache := by
  obtain ⟨s, l, hs, hl, _⟩ := htr.2.2 idx hidx
  obtain ⟨h1, h2, h3, h4, _, _, hsets⟩ := hinv
  have hlen : idx < c.sets.length := getElem?_lt _ _ _ hs
  have hsinv : s.Inv true 1 := hsets s (mem_of_getElem? _ _ _ hs)
  have hspec := DirectMappedCache.dm_hitSpec_eq ls n earlier c.toCache a idx tag s l htr hd
    hidx hs hl
  have hone : ∀ (i : Nat) (li : Line), s.lines[i]? = some li → i = 0 ∧ li = l := by
    intro i li hli
    have hi := getElem?_lt _ _ _ hli
    have hi0 : i = 0 := by have := hsinv.1; omega
    subst hi0
    rw [hl] at hli
    cases hli
    exact ⟨rfl, rfl⟩
  rcases probeSet_total_fifo 1 c.totalLines s tag hsinv (by decide) with ⟨b, s2, hp⟩
  have hstep : SetAssociativeCache.AddrInCache c a =
      some (b, { c with toCache := c.toCache.commit idx (b, s2) }) := by
    rw [SetAssociativeCache.sa_AddrInCache_eq, h1, hnum, hd]
    simp only [Option.some_bind, hs, h3, h4, hp, Option.map_some']
  obtain ⟨f1, f2, _, _, f5⟩ := Cache.commit_fields c.toCache idx (b, s2)
  have hsame : ∀ k : Nat, k ≠ idx →
      (c.toCache.commit idx (b, s2)).sets[k]? = c.sets[k]? := by
    intro k hk
    rw [f5, List.getElem?_set, if_neg (fun e => hk e.symm)]
  have hget : (c.toCache.commit idx (b, s2)).sets[idx]? = some s2 := by
    rw [f5, List.getElem?_set, if_pos rfl, if_pos hlen]
  have hl0 : 0 < s.lines.length := getElem?_lt _ _ _ hl
  have key : b = (l.inUse && l.tag == tag) ∧
      ∃ l2, s2.lines[0]? = some l2 ∧ l2.inUse = true ∧ l2.tag = tag := by
    rcases probeSet_spec true 1 c.totalLines s tag b s2 hsinv.1 hp with
      ⟨i, li, hb, hli, hu, ht, _, rfl⟩ | ⟨i, li, hb, _, hli, hu, _, rfl⟩ |
      ⟨v, lv, hb, hfull, hlv, _, _, rfl⟩
    · obtain ⟨rfl, rfl⟩ := hone i li hli
      refine ⟨by rw [hb, hu, ht]; simp, li, ?_, hu, ht⟩
      simp only [Set.afterHit, if_true]
      exact hl
    · obtain ⟨rfl, rfl⟩ := hone i li hli
      have hx : (s.afterFill true 0 li tag).lines[0]? =
          some { tag := tag, counter := li.counter, inUse := true } := by
        simp only [Set.afterFill, if_true]
        rw [List.getElem?_set, if_pos rfl, if_pos hl0]
      exact ⟨by rw [hb, hu]; rfl, _, hx, rfl, rfl⟩
    · obtain ⟨rfl, rfl⟩ := hone v lv hlv
      have hne := (hfull 0 lv hlv).2
      have hu := (hfull 0 lv hlv).1
      refine ⟨?_, { lv with tag := tag }, ?_, hu, rfl⟩
      · rw [hb, hu]
        simp only [Bool.true_and]
        exact (beq_eq_false_iff_ne.2 hne).symm
      · simp only [Set.afterEvict]
        rw [List.getElem?_set, if_pos rfl, if_pos hl0]
  obtain ⟨hb, l2, hl2, hu2, ht2⟩ := key
  refine ⟨{ c with toCache := c.toCache.commit idx (b, s2) }, ?_, hnum, ?_⟩
  · rw [hstep, hspec, ← hb]
  · exact DirectMappedCache.dm_tracks_update ls n earlier c.toCache _ a idx tag htr hd
      (f1.trans h1) (f2.trans htr.2.1) hsame ⟨s2, l2, hget, hl2, hu2, ht2⟩

theorem SetAssociativeCache.sa_run_one_way (cs ow sw : Nat) (hpos : 0 < ow + sw)
    (hle : ow + sw ≤ 31) (addrs : List Nat) :
    ∀ (earlier : List Nat) (c : SetAssociativeCache),
      SetAssociativeCache.Inv cs (2 ^ ow) 1 true c → c.numSets = 2 ^ sw →
      DirectMappedCache.Tracks (2 ^ ow) (2 ^ sw) earlier c.toCache →
      ∃ c2, SetAssociativeCache.run c addrs =
        some (DirectMappedCache.runSpec (2 ^ ow) (2 ^ sw) earlier addrs, c2) := by
  induction addrs with
  | nil => intro earlier c _ _ _; exact ⟨c, rfl⟩
  | cons a as ih =>
    intro earlier c hinv hnum htr
    rcases decode_some ow sw a hpos hle with ⟨idx, tag, hd, hidx⟩
    rcases SetAssociativeCache.sa_step_one_way cs _ _ earlier c a idx tag hinv hnum htr hd hidx
      with ⟨c1, h1, hnum1, htr1⟩
    have hinv1 := SetAssociativeCache.sa_AddrInCache_inv cs _ 1 true c a _ c1 hinv h1
    rcases ih (a :: earlier) c1 hinv1 hnum1 htr1 with ⟨c2, h2⟩
    refine ⟨c2, ?_⟩
    simp only [SetAssociativeCache.run, Option.bind_eq_bind, h1, Option.some_bind, h2,
      DirectMappedCache.runSpec]

/-- Under FIFO and outside the one-byte cache: for `lineSize = 2 ^ ow` and
`2 ^ sw` lines with `1 <= ow + sw <= 31`, a set associative cache with
associativity 1 returns, probe by probe, what the direct mapped cache of the
same sizes returns (with either policy flag), namely `runSpec`. -/
theorem SetAssociativeCache.sa_one_way_fifo_agrees (ow sw : Nat) (fifo : Bool)
    (addrs : List Nat) (hpos : 0 < ow + sw) (hle : ow + sw ≤ 31) :
    (SetAssociativeCache.simulate (2 ^ (ow + sw)) (2 ^ ow) 1 true addrs).map (fun r => r.1) =
      some (DirectMappedCache.runSpec (2 ^ ow) (2 ^ sw) [] addrs) ∧
    (DirectMappedCache.simulate (2 ^ (ow + sw)) (2 ^ ow) fifo addrs).map (fun r => r.1) =
      some (DirectMappedCache.runSpec (2 ^ ow) (2 ^ sw) [] addrs) := by
  refine ⟨?_, ?_⟩
  · have hdiv : 2 ^ (ow + sw) / 2 ^ ow = 2 ^ sw := by
      rw [Nat.pow_add, Nat.mul_div_cancel_left _ (Nat.two_pow_pos ow)]
    have hne : (2 : Nat) ^ ow ≠ 0 := Nat.ne_of_gt (Nat.two_pow_pos ow)
    rcases hnew : SetAssociativeCache.new (2 ^ (ow + sw)) (2 ^ ow) 1 true with _ | c0
    · simp only [SetAssociativeCache.new] at hnew
      rw [if_neg hne, if_neg (by decide)] at hnew
      cases hnew
    · have hinv0 := SetAssociativeCache.sa_new_inv _ _ 1 true c0 hnew
      obtain ⟨g1, g2, _, _, g5, _, _⟩ := id hinv0
      have hnum : c0.numSets = 2 ^ sw := by rw [g5, hdiv, Nat.div_one]
      have hsets : c0.sets = List.replicate (2 ^ sw) (Set.fresh 1) := by
        simp only [SetAssociativeCache.new] at hnew
        rw [if_neg hne, if_neg (by decide)] at hnew
        cases hnew
        simp only [hdiv, Nat.div_one]
      have htr : DirectMappedCache.Tracks (2 ^ ow) (2 ^ sw) [] c0.toCache := by
        refine ⟨g1, by rw [g2, hdiv], ?_⟩
        intro idx hidx
        refine ⟨Set.fresh 1, {}, ?_, rfl, rfl⟩
        rw [hsets, List.getElem?_replicate, if_pos hidx]
      rcases SetAssociativeCache.sa_run_one_way _ ow sw hpos hle addrs [] c0 hinv0 hnum htr with
        ⟨c2, h2⟩
      simp only [SetAssociativeCache.simulate, hnew, Option.bind_eq_bind, Option.some_bind, h2,
        Option.map_some']
  · rcases DirectMappedCache.dm_matches_spec ow sw fifo addrs hpos hle with ⟨c, hc⟩
    rw [hc]; rfl

/-! ### The masks of `mask` -/

theorem shifted_ones_eq (a b : Nat) (hab : a ≤ b) :
    (2 ^ (b + 1 - a) - 1) <<< a = 2 ^ (b + 1) - 2 ^ a := by
  rw [Nat.shiftLeft_eq, Nat.sub_mul, one_mul, ← pow_add]
  have : b + 1 - a + a = b + 1 := by omega
  rw [this]

theorem testBit_bit_range (a b j : Nat) (hab : a ≤ b) :
    (2 ^ (b + 1) - 2 ^ a).testBit j = decide (a ≤ j ∧ j ≤ b) := by
  rw [← shifted_ones_eq a b hab, Nat.testBit_shiftLeft, Nat.testBit_two_pow_sub_one]
  by_cases h1 : a ≤ j
  · by_cases h2 : j ≤ b
    · have e1 : decide (j ≥ a) = true := by simp [h1]
      have e2 : decide (j - a < b + 1 - a) = true := by
        simp only [decide_eq_true_eq]; omega
      have e3 : decide (a ≤ j ∧ j ≤ b) = true := by simp [h1, h2]
      rw [e1, e2, e3]; rfl
    · have e2 : decide (j - a < b + 1 - a) = false := by
        simp only [decide_eq_false_iff_not]; omega
      have e3 : decide (a ≤ j ∧ j ≤ b) = false := by simp [h2]
      rw [e2, e3, Bool.and_false]
  · have e1 : decide (j ≥ a) = false := by simp [h1]
    have e3 : decide (a ≤ j ∧ j ≤ b) = false := by simp [h1]
    rw [e1, e3, Bool.false_and]

/-- C20: for `a <= b <= 31`, `mask(a, b)` returns `2^(b+1) - 2^a`, the value
whose set bits are exactly the positions `a` to `b`; for `b < a <= 31` it
returns 0; hence `(mask(k, 31) & x) >> k = x >> k` for every 32-bit `x` and
`k <= 31`. -/
theorem mask_is_bit_range :
    (∀ a b : Nat, a ≤ b → b ≤ 31 →
      mask a b = some (2 ^ (b + 1) - 2 ^ a) ∧
      ∀ j : Nat, (2 ^ (b + 1) - 2 ^ a).testBit j = decide (a ≤ j ∧ j ≤ b)) ∧
    (∀ a b : Nat, b < a → a ≤ 31 → mask a b = some 0) ∧
    (∀ k x : Nat, k ≤ 31 → x < 2 ^ 32 →
      ∃ m, mask k 31 = some m ∧ (m &&& x) >>> k = x >>> k) := by
  refine ⟨?_, ?_, ?_⟩
  · intro a b hab hb
    refine ⟨?_, fun j => testBit_bit_range a b j hab⟩
    rw [mask_closed a (by omega) b (by omega), if_pos hab, shifted_ones_eq a b hab]
  · intro a b hba ha
    rw [mask_closed a (by omega) b (by omega), if_neg (by omega)]
  · intro k x hk hx
    have hm := mask_closed k (by omega) 31 (by decide)
    rw [if_pos hk] at hm
    exact ⟨_, hm, and_high_ones x k (by omega) hx⟩

/-- Instance of C20: `mask(2, 4) = 0b11100`, `mask(5, 4) = 0`, and the tag of
`0xDEADBEEF` for 16-byte lines. -/
theorem mask_is_bit_range_witness :
    ((2 ≤ 4 ∧ 4 ≤ 31) ∧ mask 2 4 = some (2 ^ (4 + 1) - 2 ^ 2) ∧
      ∀ j : Nat, (2 ^ (4 + 1) - 2 ^ 2).testBit j = decide (2 ≤ j ∧ j ≤ 4)) ∧
    ((4 < 5 ∧ 5 ≤ 31) ∧ mask 5 4 = some 0) ∧
    ((4 ≤ 31 ∧ 3735928559 < 2 ^ 32) ∧
      ∃ m, mask 4 31 = some m ∧ (m &&& 3735928559) >>> 4 = 3735928559 >>> 4) :=
  ⟨⟨by decide, mask_is_bit_range.1 2 4 (by decide) (by decide)⟩,
   ⟨by decide, mask_is_bit_range.2.1 5 4 (by decide) (by decide)⟩,
   ⟨by decide, mask_is_bit_range.2.2 4 3735928559 (by decide) (by decide)⟩⟩

/-! ### Frame of a probe -/

/-- Frame of a probe that returns: a probe of a set associative or of a direct
mapped cache, in any state and under either policy, that decodes to set index
`s` and returns, leaves every set other than `s` as it was: lines (tag,
`inUse`, counter) and queue.  The counter-policy eviction of the set
associative cache, which does not return, is not covered. -/
theorem probe_leaves_other_sets_unchanged :
    (∀ (c : SetAssociativeCache) (a s tag : Nat) (b : Bool) (c2 : SetAssociativeCache),
      decode c.lineSize c.numSets a = some (s, tag) →
      SetAssociativeCache.AddrInCache c a = some (b, c2) →
      ∀ k : Nat, k ≠ s → c2.sets[k]? = c.sets[k]?) ∧
    (∀ (c : Cache) (a s tag : Nat) (b : Bool) (c2 : Cache),
      decode c.lineSize c.totalLines a = some (s, tag) →
      DirectMappedCache.AddrInCache c a = some (b, c2) →
      ∀ k : Nat, k ≠ s → c2.sets[k]? = c.sets[k]?) := by
  refine ⟨?_, ?_⟩
  · intro c a s tag b c2 hd h k hk
    rcases SetAssociativeCache.sa_AddrInCache_some c a b c2 h with ⟨idx, tag2, s1, s2, ed, _, _, rfl⟩
    rw [hd] at ed
    simp only [Option.some.injEq, Prod.mk.injEq] at ed
    obtain ⟨rfl, rfl⟩ := ed
    show (c.toCache.commit s (b, s2)).sets[k]? = _
    rw [(Cache.commit_fields c.toCache s (b, s2)).2.2.2.2, List.getElem?_set,
      if_neg (fun e => hk e.symm)]
  · intro c a s tag b c2 hd h k hk
    rcases DirectMappedCache.dm_AddrInCache_some c a b c2 h with
      ⟨idx, tag2, s1, l0, ed, _, _, ⟨_, _, _, rfl⟩ | ⟨_, _, rfl⟩⟩
    · rfl
    · rw [hd] at ed
      simp only [Option.some.injEq, Prod.mk.injEq] at ed
      obtain ⟨rfl, rfl⟩ := ed
      show (c.sets.set s _)[k]? = _
      rw [List.getElem?_set, if_neg (fun e => hk e.symm)]

/-- Instance of the frame of a returning probe: the first probe of address 4,
which decodes to set 1, on a fresh 2-way set associative cache of 16 bytes and
on a fresh direct mapped cache of 8 bytes (4-byte lines, FIFO). -/
theorem probe_leaves_other_sets_unchanged_witness :
    ((decode 4 2 4 = some (1, 0) ∧
        SetAssociativeCache.AddrInCache
          (SetAssociativeCache.mk (Cache.mk 16 4 4 true [Set.fresh 2, Set.fresh 2] 0 0) 2 2) 4 =
        some (false, SetAssociativeCache.mk (Cache.mk 16 4 4 true
          [Set.fresh 2, Set.mk [Line.mk 0 0 true, Line.mk 0 0 false] [0]] 0 1) 2 2)) ∧
      ∀ k : Nat, k ≠ 1 →
        (SetAssociativeCache.mk (Cache.mk 16 4 4 true
          [Set.fresh 2, Set.mk [Line.mk 0 0 true, Line.mk 0 0 false] [0]] 0 1) 2 2).sets[k]? =
        (SetAssociativeCache.mk (Cache.mk 16 4 4 true [Set.fresh 2, Set.fresh 2] 0 0) 2 2).sets[k]?) ∧
    ((decode 4 2 4 = some (1, 0) ∧
        DirectMappedCache.AddrInCache (Cache.mk 8 4 2 true [Set.fresh 1, Set.fresh 1] 0 0) 4 =
        some (false, Cache.mk 8 4 2 true [Set.fresh 1, Set.mk [Line.mk 0 0 true] []] 0 0)) ∧
      ∀ k : Nat, k ≠ 1 →
        (Cache.mk 8 4 2 true [Set.fresh 1, Set.mk [Line.mk 0 0 true] []] 0 0).sets[k]? =
        (Cache.mk 8 4 2 true [Set.fresh 1, Set.fresh 1] 0 0).sets[k]?) :=
  ⟨⟨⟨by decide, by decide⟩,
      probe_leaves_other_sets_unchanged.1 _ 4 1 0 false _ (by decide) (by decide)⟩,
   ⟨⟨by decide, by decide⟩,
      probe_leaves_other_sets_unchanged.2 _ 4 1 0 false _ (by decide) (by decide)⟩⟩

/-! ### The victim loop of `SetAssociativeCache` -/

/-- A victim loop that is to visit more lines than the array has reads outside
the array. -/
theorem minCounterLoop_out_of_bounds (lines : List Line) :
    ∀ (k i mi mc : Nat), i ≤ lines.length → lines.length < i + k →
      minCounterLoop lines k i mi mc = none := by
  intro k
  induction k with
  | zero => intro i mi mc h1 h2; omega
  | succ k ih =>
    intro i mi mc h1 h2
    by_cases hi : i < lines.length
    · have hget : lines[i]? = some lines[i] := List.getElem?_eq_getElem hi
      simp only [minCounterLoop, hget]
      split
      · exact ih (i + 1) _ _ (by omega) (by omega)
      · exact ih (i + 1) _ _ (by omega) (by omega)
    · have hget : lines[i]? = none := List.getElem?_eq_none (by omega)
      simp only [minCounterLoop, hget]

/-- Under the counter policy a set associative cache with more than one set has
no defined eviction at all: whenever a probe misses on a set whose lines are
all in use, the call has no result. -/
theorem SetAssociativeCache.sa_counter_eviction_undefined (cs ls assoc : Nat)
    (c : SetAssociativeCache) (a idx tag : Nat) (s : Set)
    (hinv : SetAssociativeCache.Inv cs ls assoc false c) (hlt : assoc < cs / ls)
    (hd : decode c.lineSize c.numSets a = some (idx, tag)) (hs : c.sets[idx]? = some s)
    (hfull : ∀ (j : Nat) (l : Line), s.lines[j]? = some l → l.inUse = true ∧ l.tag ≠ tag) :
    SetAssociativeCache.AddrInCache c a = none := by
  obtain ⟨_, h2, h3, h4, _, _, hsets⟩ := hinv
  have hlen : s.lines.length = assoc := (hsets s (mem_of_getElem? _ _ _ hs)).1
  rcases h : SetAssociativeCache.AddrInCache c a with _ | ⟨b, c2⟩
  · rfl
  · exfalso
    rcases SetAssociativeCache.sa_AddrInCache_some c a b c2 h with ⟨idx2, tag2, s1, s2, ed, es, ep, _⟩
    rw [hd] at ed
    simp only [Option.some.injEq, Prod.mk.injEq] at ed
    obtain ⟨rfl, rfl⟩ := ed
    rw [hs] at es
    cases es
    rw [h3, h4, h2] at ep
    rcases probeSet_spec false assoc (cs / ls) s tag b s2 hlen ep with
      ⟨i, l, _, hl, hu, ht, _⟩ | ⟨i, l, _, _, hl, hu, _⟩ | ⟨v, l, _, _, _, _, hmin, _⟩
    · exact (hfull i l hl).2 ht
    · have := (hfull i l hl).1
      rw [hu] at this; cases this
    · have := minCounterLoop_out_of_bounds s.lines (cs / ls) 0 0 SIZE_MAX (Nat.zero_le _)
        (by omega)
      rw [hmin rfl] at this
      cases this

/-- Where the victim loop ends up when it runs past the lines of the set: if
the array it reads continues with further lines (`rest`) and one of them has a
counter below every counter of the set, the index it returns is not an index of
the set. -/
theorem minCounterLoop_past_the_set (lines rest : List Line)
    (hb : ∀ (j : Nat) (l : Line), (lines ++ rest)[j]? = some l → l.counter ≤ SIZE_MAX)
    (hlow : ∃ (j : Nat) (y : Line), rest[j]? = some y ∧ ∀ l ∈ lines, y.counter < l.counter) :
    ∃ v, minCounterLoop (lines ++ rest) (lines ++ rest).length 0 0 SIZE_MAX = some v ∧
      lines.length ≤ v := by
  obtain ⟨j, y, hy, hlt⟩ := hlow
  have hj : j < rest.length := getElem?_lt _ _ _ hy
  have hpos : 0 < (lines ++ rest).length := by
    rw [List.length_append]; omega
  rcases minCounterLoop_min (lines ++ rest) _ rfl hpos hb with ⟨v, lv, hv, hlv, hmin, _⟩
  refine ⟨v, hv, ?_⟩
  by_contra hcon
  have hvl : v < lines.length := by omega
  have hin : lines[v]? = some lv := by
    rw [List.getElem?_append_left hvl] at hlv
    exact hlv
  have h1 := hlt lv (mem_of_getElem? _ _ _ hin)
  have hy2 : (lines ++ rest)[lines.length + j]? = some y := by
    rw [List.getElem?_append_right (by omega)]
    simpa using hy
  have h2 := hmin _ y hy2
  omega

/-- C13 (code defect): set associative cache, 16 bytes, 4-byte lines, 2 ways
(2 sets), counter policy.  After the probes `0x00, 0x00, 0x08, 0x08` both lines
of set 0 are in use with counter 1 and set 1 is untouched.  Address `0x10`
decodes to set 0 and misses there; the victim loop, bounded by `totalLines = 4`,
goes on to `lines[2]` and `lines[3]` of the 2-line array of set 0, so the line
whose tag is then written is not determined by set 0 (if the words read there
are those of value-initialised lines, it is index 2, past the array): the call
has no defined result, and nothing keeps the write inside set 0 or leaves
set 1 as it was.  Under FIFO the same probes return and leave set 1
unchanged. -/
theorem SetAssociativeCache.eviction_breaks_the_frame :
    decode 4 2 16 = some (0, 2) ∧
    (SetAssociativeCache.simulate 16 4 2 false [0, 0, 8, 8]).map
        (fun r => (r.1, r.2.sets, r.2.associativity, r.2.totalLines)) =
      some ([false, true, false, true],
        [Set.mk [Line.mk 0 1 true, Line.mk 1 1 true] [],
         Set.mk [Line.mk 0 0 false, Line.mk 0 0 false] []], 2, 4) ∧
    minCounterLoop [Line.mk 0 1 true, Line.mk 1 1 true] 4 0 0 SIZE_MAX = none ∧
    minCounterLoop
        ([Line.mk 0 1 true, Line.mk 1 1 true] ++ [Line.mk 0 0 false, Line.mk 0 0 false])
        4 0 0 SIZE_MAX = some 2 ∧
    SetAssociativeCache.simulate 16 4 2 false [0, 0, 8, 8, 16] = none ∧
    (SetAssociativeCache.simulate 16 4 2 true [0, 0, 8, 8, 16]).map
        (fun r => (r.1, r.2.sets[1]?)) =
      some ([false, true, false, true, false],
        some (Set.mk [Line.mk 0 0 false, Line.mk 0 0 false] [])) := by
  decide

/-- C14 (code defect): set associative cache, 32 bytes, 4-byte lines, 2 ways
(4 sets), counter policy.  The probes `0x04, 0x04, 0x14, 0x14` leave both lines
of set 1 in use with counter 1; the probe `0x24` misses in set 1.  Bounded by
`associativity` the victim loop would choose line 0 of set 1; bounded by
`totalLines = 8` it reads `lines[2]` to `lines[7]` of the 2-line array, and any
counter below 1 read there moves the victim out of the set (index 2 if the
words are those of value-initialised lines): no line of the probed set is
chosen, the call has no defined result. -/
theorem SetAssociativeCache.victim_search_leaves_the_set :
    decode 4 4 4 = some (1, 0) ∧ decode 4 4 20 = some (1, 1) ∧ decode 4 4 36 = some (1, 2) ∧
    (SetAssociativeCache.simulate 32 4 2 false [4, 4, 20, 20]).map
        (fun r => (r.1, r.2.sets[1]?, r.2.associativity, r.2.totalLines)) =
      some ([false, true, false, true],
        some (Set.mk [Line.mk 0 1 true, Line.mk 1 1 true] []), 2, 8) ∧
    minCounterLoop [Line.mk 0 1 true, Line.mk 1 1 true] 2 0 0 SIZE_MAX = some 0 ∧
    minCounterLoop [Line.mk 0 1 true, Line.mk 1 1 true] 8 0 0 SIZE_MAX = none ∧
    minCounterLoop
        ([Line.mk 0 1 true, Line.mk 1 1 true] ++ List.replicate 6 (Line.mk 0 0 false))
        8 0 0 SIZE_MAX = some 2 ∧
    SetAssociativeCache.simulate 32 4 2 false [4, 4, 20, 20, 36] = none := by
  decide

/-! ### The counters `hits` and `misses` -/

theorem FullyAssociativeCache.fa_step_counters (c : Cache) (a : Nat) (b : Bool) (c2 : Cache)
    (h : FullyAssociativeCache.AddrInCache c a = some (b, c2)) :
    c2.hits = (if b then (c.hits + 1) % UINT32_MOD else c.hits) ∧
    c2.misses = (if b then c.misses else (c.misses + 1) % UINT32_MOD) := by
  rcases FullyAssociativeCache.fa_AddrInCache_some c a b c2 h with ⟨_, _, s2, _, _, _, rfl⟩
  cases b <;> exact ⟨rfl, rfl⟩

theorem SetAssociativeCache.sa_step_counters (c : SetAssociativeCache) (a : Nat) (b : Bool)
    (c2 : SetAssociativeCache) (h : SetAssociativeCache.AddrInCache c a = some (b, c2)) :
    c2.hits = (if b then (c.hits + 1) % UINT32_MOD else c.hits) ∧
    c2.misses = (if b then c.misses else (c.misses + 1) % UINT32_MOD) := by
  rcases SetAssociativeCache.sa_AddrInCache_some c a b c2 h with ⟨_, _, _, s2, _, _, _, rfl⟩
  cases b <;> exact ⟨rfl, rfl⟩

theorem DirectMappedCache.dm_step_counters (c : Cache) (a : Nat) (b : Bool) (c2 : Cache)
    (h : DirectMappedCache.AddrInCache c a = some (b, c2)) :
    c2.hits = (if b then (c.hits + 1) % UINT32_MOD else c.hits) ∧ c2.misses = c.misses := by
  rcases DirectMappedCache.dm_AddrInCache_some c a b c2 h with
    ⟨_, _, _, _, _, _, _, ⟨_, _, rfl, rfl⟩ | ⟨_, rfl, rfl⟩⟩
  · exact ⟨rfl, rfl⟩
  · exact ⟨rfl, rfl⟩

theorem count_step (x k : Nat) (b : Bool) (bs : List Bool) (v : Bool)
    (h : k = (((if b = v then (x + 1) % UINT32_MOD else x) + bs.count v) % UINT32_MOD)) :
    k = (x + (b :: bs).count v) % UINT32_MOD := by
  rw [h, List.count_cons]
  by_cases hb : b = v
  · subst hb
    simp only [if_true, beq_self_eq_true]
    rw [Nat.mod_add_mod]
    congr 1
    omega
  · have : (b == v) = false := by
      cases b <;> cases v <;> simp at hb ⊢
    simp only [if_neg hb, this, Bool.false_eq_true, if_false, Nat.add_zero]

theorem FullyAssociativeCache.fa_run_counters (addrs : List Nat) :
    ∀ (c : Cache) (bs : List Bool) (c2 : Cache), c.hits < UINT32_MOD → c.misses < UINT32_MOD →
      FullyAssociativeCache.run c addrs = some (bs, c2) →
      c2.hits = (c.hits + bs.count true) % UINT32_MOD ∧
      c2.misses = (c.misses + bs.count false) % UINT32_MOD ∧ bs.length = addrs.length := by
  induction addrs with
  | nil =>
    intro c bs c2 h1 h2 h
    simp only [FullyAssociativeCache.run, Option.some.injEq, Prod.mk.injEq] at h
    obtain ⟨rfl, rfl⟩ := h
    simp [Nat.mod_eq_of_lt h1, Nat.mod_eq_of_lt h2]
  | cons a as ih =>
    intro c bs c2 h1 h2 h
    simp only [FullyAssociativeCache.run, Option.bind_eq_bind, Option.bind_eq_some,
      Option.some.injEq, Prod.mk.injEq] at h
    obtain ⟨⟨b, c1⟩, hp, ⟨bs1, c3⟩, hr, rfl, rfl⟩ := h
    obtain ⟨e1, e2⟩ := FullyAssociativeCache.fa_step_counters c a b c1 hp
    have hM : 0 < UINT32_MOD := by decide
    have g1 : c1.hits < UINT32_MOD := by
      rw [e1]; split
      · exact Nat.mod_lt _ hM
      · exact h1
    have g2 : c1.misses < UINT32_MOD := by
      rw [e2]; split
      · exact h2
      · exact Nat.mod_lt _ hM
    obtain ⟨i1, i2, i3⟩ := ih c1 bs1 c3 g1 g2 hr
    refine ⟨?_, ?_, by simp [i3]⟩
    · apply count_step c.hits _ b bs1 true
      rw [i1, e1]
    · apply count_step c.misses _ b bs1 false
      rw [i2, e2]
      cases b <;> rfl

theorem DirectMappedCache.dm_run_counters (addrs : List Nat) :
    ∀ (c : Cache) (bs : List Bool) (c2 : Cache), c.hits < UINT32_MOD →
      DirectMappedCache.run c addrs = some (bs, c2) →
      c2.hits = (c.hits + bs.count true) % UINT32_MOD ∧ c2.misses = c.misses ∧
      bs.length = addrs.length := by
  induction addrs with
  | nil =>
    intro c bs c2 h1 h
    simp only [DirectMappedCache.run, Option.some.injEq, Prod.mk.injEq] at h
    obtain ⟨rfl, rfl⟩ := h
    simp [Nat.mod_eq_of_lt h1]
  | cons a as ih =>
    intro c bs c2 h1 h
    simp only [DirectMappedCache.run, Option.bind_eq_bind, Option.bind_eq_some,
      Option.some.injEq, Prod.mk.injEq] at h
    obtain ⟨⟨b, c1⟩, hp, ⟨bs1, c3⟩, hr, rfl, rfl⟩ := h
    obtain ⟨e1, e2⟩ := DirectMappedCache.dm_step_counters c a b c1 hp
    have hM : 0 < UINT32_MOD := by decide
    have g1 : c1.hits < UINT32_MOD := by
      rw [e1]; split
      · exact Nat.mod_lt _ hM
      · exact h1
    obtain ⟨i1, i2, i3⟩ := ih c1 bs1 c3 g1 hr
    refine ⟨?_, i2.trans e2, by simp [i3]⟩
    apply count_step c.hits _ b bs1 true
    rw [i1, e1]

theorem count_true_add_count_false (bs : List Bool) :
    bs.count true + bs.count false = bs.length := by
  induction bs with
  | nil => rfl
  | cons b bs ih =>
    cases b <;> simp [List.count_cons] <;> omega

/-! ### `HitRate` and `MissRate` -/

/-- C11 (amended): a freshly constructed cache of each of the three classes
has `hits = misses = 0`, and `HitRate()` and `MissRate()` are then
not-a-number (`0.0 / 0.0`).  Whenever the `uint32_t` sum `hits + misses` is not
0 the two methods return `hits / (hits + misses)` and `misses / (hits + misses)`
with that sum as denominator; for a fully associative cache this is the case
after every trace of 1 to `2^32 - 1` probes, and the rates are then the numbers
of `true` and of `false` results over the number of probes. -/
theorem rates_of_fresh_and_probed_cache :
    (∀ (cs ls : Nat) (fifo : Bool) (c : Cache),
      FullyAssociativeCache.new cs ls fifo = some c →
        c.HitRate = Rate.nan ∧ c.MissRate = Rate.nan) ∧
    (∀ (cs ls : Nat) (fifo : Bool) (c : Cache),
      DirectMappedCache.new cs ls fifo = some c →
        c.HitRate = Rate.nan ∧ c.MissRate = Rate.nan) ∧
    (∀ (cs ls assoc : Nat) (fifo : Bool) (c : SetAssociativeCache),
      SetAssociativeCache.new cs ls assoc fifo = some c →
        c.HitRate = Rate.nan ∧ c.MissRate = Rate.nan) ∧
    (∀ c : Cache, (c.hits + c.misses) % UINT32_MOD ≠ 0 →
      c.HitRate = Rate.quotient c.hits ((c.hits + c.misses) % UINT32_MOD) ∧
      c.MissRate = Rate.quotient c.misses ((c.hits + c.misses) % UINT32_MOD)) ∧
    (∀ (cs ls : Nat) (fifo : Bool) (addrs : List Nat) (bs : List Bool) (c : Cache),
      FullyAssociativeCache.simulate cs ls fifo addrs = some (bs, c) →
      0 < addrs.length → addrs.length < 2 ^ 32 →
        c.HitRate = Rate.quotient (bs.count true) addrs.length ∧
        c.MissRate = Rate.quotient (bs.count false) addrs.length) := by
  refine ⟨?_, ?_, ?_, ?_, ?_⟩
  · intro cs ls fifo c h
    simp only [FullyAssociativeCache.new] at h
    split at h
    · cases h
    · cases h; exact ⟨rfl, rfl⟩
  · intro cs ls fifo c h
    simp only [DirectMappedCache.new] at h
    split at h
    · cases h
    · cases h; exact ⟨rfl, rfl⟩
  · intro cs ls assoc fifo c h
    simp only [SetAssociativeCache.new] at h
    split at h
    · cases h
    · split at h
      · cases h
      · cases h; exact ⟨rfl, rfl⟩
  · intro c hne
    simp only [Cache.HitRate, Cache.MissRate, divDouble, if_neg hne]
    exact ⟨trivial, trivial⟩
  · intro cs ls fifo addrs bs c h hpos hlt
    simp only [FullyAssociativeCache.simulate, Option.bind_eq_bind, Option.bind_eq_some] at h
    obtain ⟨c0, hc0, hr⟩ := h
    have h00 : c0.hits = 0 ∧ c0.misses = 0 := by
      simp only [FullyAssociativeCache.new] at hc0
      split at hc0
      · cases hc0
      · cases hc0; exact ⟨rfl, rfl⟩
    obtain ⟨e1, e2, e3⟩ := FullyAssociativeCache.fa_run_counters addrs c0 bs c
      (by rw [h00.1]; decide) (by rw [h00.2]; decide) hr
    have hsum := count_true_add_count_false bs
    have hM : UINT32_MOD = 2 ^ 32 := rfl
    rw [h00.1, Nat.zero_add, Nat.mod_eq_of_lt (by rw [hM]; omega)] at e1
    rw [h00.2, Nat.zero_add, Nat.mod_eq_of_lt (by rw [hM]; omega)] at e2
    have hden : (c.hits + c.misses) % UINT32_MOD = addrs.length := by
      rw [e1, e2, hsum, e3, Nat.mod_eq_of_lt (by rw [hM]; exact hlt)]
    refine ⟨?_, ?_⟩
    · unfold Cache.HitRate divDouble
      rw [hden, if_neg (Nat.ne_of_gt hpos), e1]
    · unfold Cache.MissRate divDouble
      rw [hden, if_neg (Nat.ne_of_gt hpos), e2]

/-- Instance of C11 (amended): fresh caches of 8 bytes with 4-byte lines, and the fully
associative one after the probes `0, 4, 0`. -/
theorem rates_of_fresh_and_probed_cache_witness :
    (FullyAssociativeCache.new 8 4 true = some (Cache.mk 8 4 2 true [Set.fresh 2] 0 0) ∧
      (Cache.mk 8 4 2 true [Set.fresh 2] 0 0).HitRate = Rate.nan ∧
      (Cache.mk 8 4 2 true [Set.fresh 2] 0 0).MissRate = Rate.nan) ∧
    ((FullyAssociativeCache.simulate 8 4 true [0, 4, 0] =
        some ([false, false, true], Cache.mk 8 4 2 true
          [Set.mk [Line.mk 0 0 true, Line.mk 1 0 true] [0, 1]] 1 2) ∧
      0 < [0, 4, 0].length ∧ [0, 4, 0].length < 2 ^ 32) ∧
      (Cache.mk 8 4 2 true [Set.mk [Line.mk 0 0 true, Line.mk 1 0 true] [0, 1]] 1 2).HitRate =
        Rate.quotient ([false, false, true].count true) [0, 4, 0].length ∧
      (Cache.mk 8 4 2 true [Set.mk [Line.mk 0 0 true, Line.mk 1 0 true] [0, 1]] 1 2).MissRate =
        Rate.quotient ([false, false, true].count false) [0, 4, 0].length) :=
  ⟨⟨by decide, rates_of_fresh_and_probed_cache.1 8 4 true _ (by decide)⟩,
   ⟨⟨by decide, by decide, by decide⟩,
    rates_of_fresh_and_probed_cache.2.2.2.2 8 4 true [0, 4, 0] [false, false, true] _
      (by decide) (by decide) (by decide)⟩⟩

/-- C18 (as stated, refuted): after the probes `0x00, 0x00` on an 8-byte direct
mapped cache with 4-byte lines the second probe has hit, `misses` is 0 and
`MissRate()` is `0 / 1`, a number. -/
theorem DirectMappedCache.miss_rate_defined_after_a_hit :
    (DirectMappedCache.simulate 8 4 true [0, 0]).map
        (fun r => (r.1, r.2.hits, r.2.misses, r.2.MissRate)) =
      some ([false, true], 1, 0, Rate.quotient 0 1) := by
  decide

/-- C18 (amended): after every probe sequence on a direct mapped cache
`misses` is 0 and `hits` counts the `true` results (modulo `2^32`); `MissRate()`
is not-a-number while `hits` is 0 and is `0 / hits` otherwise, and `HitRate()`
is then `hits / hits`. -/
theorem DirectMappedCache.misses_stay_zero (cs ls : Nat) (fifo : Bool) (addrs : List Nat)
    (bs : List Bool) (c : Cache)
    (h : DirectMappedCache.simulate cs ls fifo addrs = some (bs, c)) :
    c.misses = 0 ∧ c.hits = bs.count true % UINT32_MOD ∧
    c.MissRate = (if c.hits = 0 then Rate.nan else Rate.quotient 0 c.hits) ∧
    c.HitRate = (if c.hits = 0 then Rate.nan else Rate.quotient c.hits c.hits) := by
  simp only [DirectMappedCache.simulate, Option.bind_eq_bind, Option.bind_eq_some] at h
  obtain ⟨c0, hc0, hr⟩ := h
  have h00 : c0.hits = 0 ∧ c0.misses = 0 := by
    simp only [DirectMappedCache.new] at hc0
    split at hc0
    · cases hc0
    · cases hc0; exact ⟨rfl, rfl⟩
  obtain ⟨e1, e2, _⟩ := DirectMappedCache.dm_run_counters addrs c0 bs c
    (by rw [h00.1]; decide) hr
  rw [h00.1, Nat.zero_add] at e1
  rw [h00.2] at e2
  have hlt : c.hits < UINT32_MOD := by rw [e1]; exact Nat.mod_lt _ (by decide)
  refine ⟨e2, e1, ?_, ?_⟩
  · simp only [Cache.MissRate, divDouble, e2, Nat.add_zero, Nat.mod_eq_of_lt hlt]
    split <;> rfl
  · simp only [Cache.HitRate, divDouble, e2, Nat.add_zero, Nat.mod_eq_of_lt hlt]
    split
    · rename_i h0; simp [h0]
    · rename_i h0; simp [h0]

/-- Instance of C18 (amended): the probes `0x00, 0x08, 0x00` all miss on an
8-byte direct mapped cache with 4-byte lines. -/
theorem DirectMappedCache.misses_stay_zero_witness :
    DirectMappedCache.simulate 8 4 true [0, 8, 0] =
      some ([false, false, false], Cache.mk 8 4 2 true
        [Set.mk [Line.mk 0 0 true] [], Set.fresh 1] 0 0) ∧
    (Cache.mk 8 4 2 true [Set.mk [Line.mk 0 0 true] [], Set.fresh 1] 0 0).misses = 0 ∧
    (Cache.mk 8 4 2 true [Set.mk [Line.mk 0 0 true] [], Set.fresh 1] 0 0).hits =
      [false, false, false].count true % UINT32_MOD ∧
    (Cache.mk 8 4 2 true [Set.mk [Line.mk 0 0 true] [], Set.fresh 1] 0 0).MissRate =
      (if (Cache.mk 8 4 2 true [Set.mk [Line.mk 0 0 true] [], Set.fresh 1] 0 0).hits = 0
        then Rate.nan
        else Rate.quotient 0
          (Cache.mk 8 4 2 true [Set.mk [Line.mk 0 0 true] [], Set.fresh 1] 0 0).hits) ∧
    (Cache.mk 8 4 2 true [Set.mk [Line.mk 0 0 true] [], Set.fresh 1] 0 0).HitRate =
      (if (Cache.mk 8 4 2 true [Set.mk [Line.mk 0 0 true] [], Set.fresh 1] 0 0).hits = 0
        then Rate.nan
        else Rate.quotient
          (Cache.mk 8 4 2 true [Set.mk [Line.mk 0 0 true] [], Set.fresh 1] 0 0).hits
          (Cache.mk 8 4 2 true [Set.mk [Line.mk 0 0 true] [], Set.fresh 1] 0 0).hits) :=
  ⟨by decide,
   DirectMappedCache.misses_stay_zero 8 4 true [0, 8, 0] [false, false, false] _ (by decide)⟩

/-! ### Configuration checks -/

/-- A property of the one set and of the results so far (most recent first)
that every probe of the set preserves holds along every run. -/
theorem FullyAssociativeCache.fa_run_history (cs ls : Nat) (fifo : Bool)
    (P : List Bool → Set → Prop)
    (hstep : ∀ (hist : List Bool) (s : Set) (tag : Nat) (b : Bool) (s2 : Set),
      s.Inv fifo (cs / ls) → P hist s →
      probeSet fifo (cs / ls) (cs / ls) s tag = some (b, s2) → P (b :: hist) s2)
    (addrs : List Nat) :
    ∀ (c : Cache) (hist : List Bool) (bs : List Bool) (c2 : Cache) (s : Set),
      FullyAssociativeCache.Inv cs ls fifo c → c.sets = [s] → P hist s →
      FullyAssociativeCache.run c addrs = some (bs, c2) →
      ∃ s2, c2.sets = [s2] ∧ s2.Inv fifo (cs / ls) ∧ P (bs.reverse ++ hist) s2 := by
  induction addrs with
  | nil =>
    intro c hist bs c2 s hinv hs hP h
    simp only [FullyAssociativeCache.run, Option.some.injEq, Prod.mk.injEq] at h
    obtain ⟨rfl, rfl⟩ := h
    obtain ⟨_, _, _, s1, hs1, hsinv⟩ := hinv
    rw [hs] at hs1; cases hs1
    exact ⟨s, hs, hsinv, hP⟩
  | cons a as ih =>
    intro c hist bs c2 s hinv hs hP h
    simp only [FullyAssociativeCache.run, Option.bind_eq_bind, Option.bind_eq_some,
      Option.some.injEq, Prod.mk.injEq] at h
    obtain ⟨⟨b, c1⟩, h1, ⟨bs1, c3⟩, h2, rfl, rfl⟩ := h
    have hinv1 := FullyAssociativeCache.fa_AddrInCache_inv cs ls fifo c a b c1 hinv h1
    obtain ⟨_, e2, e3, s0, hs0, hsinv⟩ := hinv
    rw [hs] at hs0; cases hs0
    rcases FullyAssociativeCache.fa_AddrInCache_some c a b c1 h1 with ⟨s0, tag, s1, e0, _, ep, hc1⟩
    rw [hs] at e0
    simp only [List.getElem?_cons_zero, Option.some.injEq] at e0
    subst e0
    rw [e2, e3] at ep
    have hs1 : c1.sets = [s1] := by
      rw [hc1, (Cache.commit_fields c 0 (b, s1)).2.2.2.2, hs]; rfl
    rcases ih c1 (b :: hist) bs1 c3 s1 hinv1 hs1 (hstep hist s tag b s1 hsinv hP ep) h2 with
      ⟨s2, hs2, hinv2, hP2⟩
    refine ⟨s2, hs2, hinv2, ?_⟩
    simp only [List.reverse_cons, List.append_assoc, List.singleton_append]
    exact hP2

/-- The same from construction: the property holds of the set after the run,
for the results of the run in reverse order. -/
theorem FullyAssociativeCache.fa_simulate_history (cs ls : Nat) (fifo : Bool)
    (P : List Bool → Set → Prop)
    (hstep : ∀ (hist : List Bool) (s : Set) (tag : Nat) (b : Bool) (s2 : Set),
      s.Inv fifo (cs / ls) → P hist s →
      probeSet fifo (cs / ls) (cs / ls) s tag = some (b, s2) → P (b :: hist) s2)
    (h0 : P [] (Set.fresh (cs / ls)))
    (addrs : List Nat) (bs : List Bool) (c : Cache)
    (h : FullyAssociativeCache.simulate cs ls fifo addrs = some (bs, c)) :
    ∃ s, c.sets = [s] ∧ s.Inv fifo (cs / ls) ∧ P bs.reverse s ∧
      FullyAssociativeCache.Inv cs ls fifo c ∧ bs.length = addrs.length := by
  simp only [FullyAssociativeCache.simulate, Option.bind_eq_bind, Option.bind_eq_some] at h
  obtain ⟨c0, hc0, hr⟩ := h
  have hls : 0 < ls := by
    rcases Nat.eq_zero_or_pos ls with e | e
    · simp [FullyAssociativeCache.new, e] at hc0
    · exact e
  rcases FullyAssociativeCache.fa_new_some cs ls fifo hls with ⟨c0b, hc0b, hinv0, _, _⟩
  rw [hc0] at hc0b
  cases hc0b
  have hs0 : c0.sets = [Set.fresh (cs / ls)] := by
    simp only [FullyAssociativeCache.new] at hc0
    rw [if_neg (by omega)] at hc0
    cases hc0; rfl
  rcases FullyAssociativeCache.fa_run_history cs ls fifo P hstep addrs c0 [] bs c _ hinv0 hs0 h0 hr
    with ⟨s, hs, hsinv, hP⟩
  rw [List.append_nil] at hP
  have hlen : bs.length = addrs.length := by
    have hM : (0 : Nat) < UINT32_MOD := by decide
    have z1 : c0.hits < UINT32_MOD := by
      simp only [FullyAssociativeCache.new] at hc0
      rw [if_neg (by omega)] at hc0
      cases hc0; exact hM
    have z2 : c0.misses < UINT32_MOD := by
      simp only [FullyAssociativeCache.new] at hc0
      rw [if_neg (by omega)] at hc0
      cases hc0; exact hM
    exact (FullyAssociativeCache.fa_run_counters addrs c0 bs c z1 z2 hr).2.2
  exact ⟨s, hs, hsinv, hP,
    FullyAssociativeCache.fa_run_inv cs ls fifo addrs c0 bs c hinv0 hr, hlen⟩

/-! ### The counters of the counter policy -/

theorem CounterInv_fresh (n : Nat) : CounterInv 0 (Set.fresh n) := by
  intro j l h
  simp only [Set.fresh, List.getElem?_replicate] at h
  split at h
  · cases h; exact ⟨le_refl _, fun _ => rfl⟩
  · cases h

theorem probeSet_counterInv (n m t : Nat) (s : Set) (tag : Nat) (b : Bool) (s2 : Set)
    (hn : s.lines.length = n) (hc : CounterInv t s)
    (h : probeSet false n m s tag = some (b, s2)) : CounterInv (t + 1) s2 := by
  have hold : ∀ (j : Nat) (l : Line), s.lines[j]? = some l →
      l.counter ≤ t + 1 ∧ (l.inUse = false → l.counter = 0) :=
    fun j l hl => ⟨Nat.le_succ_of_le (hc j l hl).1, (hc j l hl).2⟩
  rcases probeSet_spec false n m s tag b s2 hn h with
    ⟨i, l, _, hl, hu, _, _, rfl⟩ | ⟨i, l, _, _, hl, _, _, rfl⟩ | ⟨v, l, _, hfull, hl, _, _, rfl⟩
  · intro j y hy
    simp only [Set.afterHit, Bool.false_eq_true, if_false] at hy
    rcases getElem?_set_cases _ _ _ _ _ hy with ⟨_, rfl, _⟩ | ⟨_, hy2⟩
    · refine ⟨?_, fun hf => ?_⟩
      · have := (hc i l hl).1
        have := Nat.mod_le (l.counter + 1) SIZE_MOD
        show (l.counter + 1) % SIZE_MOD ≤ t + 1
        omega
      · simp only at hf
        rw [hu] at hf; cases hf
    · exact hold j y hy2
  · intro j y hy
    simp only [Set.afterFill, Bool.false_eq_true, if_false] at hy
    rcases getElem?_set_cases _ _ _ _ _ hy with ⟨_, rfl, _⟩ | ⟨_, hy2⟩
    · exact ⟨Nat.zero_le _, fun _ => rfl⟩
    · exact hold j y hy2
  · intro j y hy
    simp only [Set.afterEvict] at hy
    rcases getElem?_set_cases _ _ _ _ _ hy with ⟨_, rfl, _⟩ | ⟨_, hy2⟩
    · exact hold v l hl
    · exact hold j y hy2

/-- C16 (amended): in a fully associative cache under the counter policy, in
every state reached from construction, every probe returns.  A hit changes
nothing but the counter of the line it hits, which becomes `counter + 1` modulo
`2^64` (the counter is a `std::size_t`); that is exactly `counter + 1` on every
trace of fewer than `2^64 - 1` probes.  A miss, filling or evicting, changes
nothing but the tag (and, on a fill, the `inUse` flag) of the one line it
writes: every counter, that of the written line included, is what it was. -/
theorem FullyAssociativeCache.counters_change_only_on_hits (cs ls : Nat) (addrs : List Nat)
    (a : Nat) (h0 : 0 < ls) (hle : ls ≤ cs) (h32 : ls < 2 ^ 32) :
    ∃ bs c s tag b c2 s2,
      FullyAssociativeCache.simulate cs ls false addrs = some (bs, c) ∧ c.sets = [s] ∧
      FullyAssociativeCache.tagOf ls a = some tag ∧
      FullyAssociativeCache.AddrInCache c a = some (b, c2) ∧ c2.sets = [s2] ∧
      s2.toReplace = s.toReplace ∧
      (b = true → ∃ i l, s.lines[i]? = some l ∧ l.inUse = true ∧ l.tag = tag ∧
        s2.lines = s.lines.set i { l with counter := (l.counter + 1) % SIZE_MOD } ∧
        (addrs.length < SIZE_MAX → (l.counter + 1) % SIZE_MOD = l.counter + 1)) ∧
      (b = false → ∃ v lv, s.lines[v]? = some lv ∧
        s2.lines = s.lines.set v { lv with tag := tag, inUse := true }) := by
  rcases FullyAssociativeCache.fa_simulate_total cs ls false addrs h0 hle h32 with
    ⟨bs, c, hsim, _, _⟩
  rcases FullyAssociativeCache.fa_simulate_history cs ls false
      (fun hist s => CounterInv hist.length s)
      (fun hist s tag b s2 hsinv hP hp =>
        probeSet_counterInv _ _ hist.length s tag b s2 hsinv.1 hP hp)
      (CounterInv_fresh _) addrs bs c hsim with ⟨s, hs, hsinv, hcnt, hinv, hlen⟩
  simp only [List.length_reverse, hlen] at hcnt
  rcases FullyAssociativeCache.fa_AddrInCache_total cs ls false c a hinv h0 hle h32 with
    ⟨b, c2, hp⟩
  obtain ⟨h1, h2, h3, _⟩ := hinv
  rcases FullyAssociativeCache.fa_AddrInCache_some c a b c2 hp with ⟨s0, tag, s2, e0, etag, ep, rfl⟩
  rw [hs] at e0
  simp only [List.getElem?_cons_zero, Option.some.injEq] at e0
  subst e0
  rw [h1] at etag
  rw [h2, h3] at ep
  have hc2 : (c.commit 0 (b, s2)).sets = [s2] := by
    rw [(Cache.commit_fields c 0 (b, s2)).2.2.2.2, hs]; rfl
  rcases probeSet_spec false _ _ s tag b s2 hsinv.1 ep with
    ⟨i, l, hb, hl, hu, ht, _, rfl⟩ | ⟨i, l, hb, _, hl, hu, _, rfl⟩ |
    ⟨v, l, hb, hfull, hl, _, _, rfl⟩
  · refine ⟨bs, c, s, tag, b, _, _, hsim, hs, etag, hp, hc2, rfl, ?_, ?_⟩
    · intro _
      refine ⟨i, l, hl, hu, ht, by simp [Set.afterHit], ?_⟩
      intro hbound
      have := (hcnt i l hl).1
      apply Nat.mod_eq_of_lt
      simp only [SIZE_MAX, SIZE_MOD] at hbound ⊢
      omega
    · intro hf; rw [hb] at hf; cases hf
  · refine ⟨bs, c, s, tag, b, _, _, hsim, hs, etag, hp, hc2, by simp [Set.afterFill], ?_, ?_⟩
    · intro hf; rw [hb] at hf; cases hf
    · intro _
      refine ⟨i, l, hl, ?_⟩
      have h0c := (hcnt i l hl).2 hu
      simp only [Set.afterFill, Bool.false_eq_true, if_false, h0c]
  · refine ⟨bs, c, s, tag, b, _, _, hsim, hs, etag, hp, hc2, by simp [Set.afterEvict], ?_, ?_⟩
    · intro hf; rw [hb] at hf; cases hf
    · intro _
      refine ⟨v, l, hl, ?_⟩
      have hu := (hfull v l hl).1
      simp only [Set.afterEvict, hu]

/-- Instance of C16 (amended) at an 8-byte cache with 4-byte lines, after probes
`0, 4, 4`, for address 8. -/
theorem FullyAssociativeCache.counters_change_only_on_hits_witness :
    (0 < 4 ∧ 4 ≤ 8 ∧ 4 < 2 ^ 32) ∧
    ∃ bs c s tag b c2 s2,
      FullyAssociativeCache.simulate 8 4 false [0, 4, 4] = some (bs, c) ∧ c.sets = [s] ∧
      FullyAssociativeCache.tagOf 4 8 = some tag ∧
      FullyAssociativeCache.AddrInCache c 8 = some (b, c2) ∧ c2.sets = [s2] ∧
      s2.toReplace = s.toReplace ∧
      (b = true → ∃ i l, s.lines[i]? = some l ∧ l.inUse = true ∧ l.tag = tag ∧
        s2.lines = s.lines.set i { l with counter := (l.counter + 1) % SIZE_MOD } ∧
        ([0, 4, 4].length < SIZE_MAX → (l.counter + 1) % SIZE_MOD = l.counter + 1)) ∧
      (b = false → ∃ v lv, s.lines[v]? = some lv ∧
        s2.lines = s.lines.set v { lv with tag := tag, inUse := true }) :=
  ⟨by decide,
   FullyAssociativeCache.counters_change_only_on_hits 8 4 [0, 4, 4] 8
      (by decide) (by decide) (by decide)⟩

/-! ### FIFO replacement is round-robin over the line indices -/

theorem FifoShape_fresh (n : Nat) (hn : 0 < n) : FifoShape n 0 (Set.fresh n) := by
  refine ⟨?_, ?_⟩
  · intro i l h
    simp only [Set.fresh, List.getElem?_replicate] at h
    split at h
    · cases h; simp
    · cases h
  · rw [if_pos hn]; rfl

theorem FifoShape_fill_index (n m : Nat) (s : Set) (i : Nat) (l : Line)
    (hlen : s.lines.length = n) (hsh : FifoShape n m s)
    (hl : s.lines[i]? = some l) (hu : l.inUse = false)
    (hbelow : ∀ (j : Nat) (l2 : Line), j < i → s.lines[j]? = some l2 → l2.inUse = true) :
    i = m ∧ m < n := by
  have hi : i < n := by rw [← hlen]; exact getElem?_lt _ _ _ hl
  have h1 : ¬ i < m := by
    intro h
    have := ((hsh.1 i l hl).2 h)
    rw [hu] at this; cases this
  have h2 : ¬ m < i := by
    intro h
    have hm : m < s.lines.length := by omega
    have hg : s.lines[m]? = some s.lines[m] := List.getElem?_eq_getElem hm
    have := (hsh.1 m _ hg).1 (hbelow m _ h hg)
    omega
  omega

theorem FifoShape_full (n m : Nat) (s : Set) (hlen : s.lines.length = n) (hn : 0 < n)
    (hsh : FifoShape n m s)
    (hfull : ∀ (j : Nat) (l : Line), s.lines[j]? = some l → l.inUse = true) : n ≤ m := by
  have hm : n - 1 < s.lines.length := by omega
  have hg : s.lines[n - 1]? = some s.lines[n - 1] := List.getElem?_eq_getElem hm
  have := (hsh.1 (n - 1) _ hg).1 (hfull _ _ hg)
  omega

theorem head?_rotate_range (n k : Nat) (hk : k < n) :
    ((List.range n).rotate k).head? = some k := by
  rw [List.head?_rotate (by rw [List.length_range]; exact hk), List.getElem?_range hk]

theorem tail_append_head_rotate (q : List Nat) (v : Nat) (h : q.head? = some v) :
    q.tail ++ [v] = q.rotate 1 := by
  cases q with
  | nil => cases h
  | cons x xs =>
    simp only [List.head?_cons, Option.some.injEq] at h
    subst h
    rw [List.rotate_cons_succ, List.rotate_zero]; rfl

theorem rotate_range_succ (n m : Nat) :
    ((List.range n).rotate (m % n)).rotate 1 = (List.range n).rotate ((m + 1) % n) := by
  rw [List.rotate_rotate]
  have e1 := List.rotate_mod (List.range n) (m % n + 1)
  have e2 := List.rotate_mod (List.range n) ((m + 1) % n)
  rw [List.length_range] at e1 e2
  rw [← e1, ← e2]
  congr 1
  simp [Nat.add_mod]

theorem probeSet_fifoShape (n m : Nat) (s : Set) (tag : Nat) (b : Bool) (s2 : Set)
    (hn : 0 < n) (hinv : s.Inv true n) (hsh : FifoShape n m s)
    (h : probeSet true n n s tag = some (b, s2)) :
    FifoShape n (m + if b = false then 1 else 0) s2 := by
  have hlen := hinv.1
  rcases probeSet_spec true n n s tag b s2 hlen h with
    ⟨i, l, hb, hl, hu, ht, _, rfl⟩ | ⟨i, l, hb, _, hl, hu, hbelow, rfl⟩ |
    ⟨v, l, hb, hfull, hl, hhead, _, rfl⟩
  · subst hb
    have : s.afterHit true i l = s := by simp [Set.afterHit]
    rw [this]
    simpa using hsh
  · subst hb
    obtain ⟨rfl, hmn⟩ := FifoShape_fill_index n m s i l hlen hsh hl hu hbelow
    simp only [if_true]
    refine ⟨?_, ?_⟩
    · intro j y hy
      simp only [Set.afterFill] at hy
      rcases getElem?_set_cases _ _ _ _ _ hy with ⟨hj, rfl, _⟩ | ⟨hj, hy2⟩
      · subst hj; simp
      · have := hsh.1 j y hy2
        constructor
        · intro hu2; have := this.1 hu2; omega
        · intro hlt
          exact this.2 (by omega)
    · simp only [Set.afterFill, if_true]
      rw [hsh.2, if_pos hmn]
      by_cases h1 : i + 1 < n
      · rw [if_pos h1, List.range_succ]
      · have : i + 1 = n := by omega
        rw [if_neg h1, ← this, Nat.mod_self, List.rotate_zero, List.range_succ]
  · subst hb
    have hnm := FifoShape_full n m s hlen hn hsh (fun j y hy => (hfull j y hy).1)
    have hq : s.toReplace = (List.range n).rotate (m % n) := by
      rw [hsh.2, if_neg (by omega)]
    simp only [if_true]
    refine ⟨?_, ?_⟩
    · intro j y hy
      simp only [Set.afterEvict] at hy
      have hj : j < n := by
        have := getElem?_lt _ _ _ hy
        rw [List.length_set] at this; omega
      rcases getElem?_set_cases _ _ _ _ _ hy with ⟨_, rfl, _⟩ | ⟨_, hy2⟩
      · have := (hfull v l hl).1
        simp only [this, true_iff]; omega
      · have := (hfull j y hy2).1
        simp only [this, true_iff]; omega
    · simp only [Set.afterEvict, if_true]
      rw [tail_append_head_rotate _ _ (hhead rfl), hq, rotate_range_succ, if_neg (by omega)]

/-- C19: in a fully associative cache under FIFO with `n = cacheSize / lineSize`
lines (`n ≥ 1`), every trace is processed to the end, and in the state it
leaves, after `j` misses (hits not counted), every probe returns and a probe
that misses changes the lines only by writing its tag into line `j mod n`,
which is in use afterwards. -/
theorem FullyAssociativeCache.fifo_is_round_robin (cs ls : Nat) (addrs : List Nat) (a : Nat)
    (h0 : 0 < ls) (hle : ls ≤ cs) (h32 : ls < 2 ^ 32) :
    ∃ bs c s tag b c2 s2,
      FullyAssociativeCache.simulate cs ls true addrs = some (bs, c) ∧ c.sets = [s] ∧
      FullyAssociativeCache.tagOf ls a = some tag ∧
      FullyAssociativeCache.AddrInCache c a = some (b, c2) ∧ c2.sets = [s2] ∧
      (b = false → ∃ l, s.lines[bs.count false % (cs / ls)]? = some l ∧
        s2.lines = s.lines.set (bs.count false % (cs / ls))
          { l with tag := tag, inUse := true }) := by
  have hn : 0 < cs / ls := Nat.div_pos hle h0
  rcases FullyAssociativeCache.fa_simulate_total cs ls true addrs h0 hle h32 with
    ⟨bs, c, hsim, _, _⟩
  rcases FullyAssociativeCache.fa_simulate_history cs ls true
      (fun hist s => FifoShape (cs / ls) (hist.count false) s)
      (fun hist s tag b s2 hsinv hP hp => by
        have := probeSet_fifoShape _ _ s tag b s2 hn hsinv hP hp
        cases b
        · simpa using this
        · simpa using this)
      (FifoShape_fresh _ hn) addrs bs c hsim with ⟨s, hs, hsinv, hsh, hinv, _⟩
  rw [List.count_reverse] at hsh
  rcases FullyAssociativeCache.fa_AddrInCache_total cs ls true c a hinv h0 hle h32 with
    ⟨b, c2, hp⟩
  obtain ⟨h1, h2, h3, _⟩ := hinv
  rcases FullyAssociativeCache.fa_AddrInCache_some c a b c2 hp with ⟨s0, tag, s2, e0, etag, ep, rfl⟩
  rw [hs] at e0
  simp only [List.getElem?_cons_zero, Option.some.injEq] at e0
  subst e0
  rw [h1] at etag
  rw [h2, h3] at ep
  have hc2 : (c.commit 0 (b, s2)).sets = [s2] := by
    rw [(Cache.commit_fields c 0 (b, s2)).2.2.2.2, hs]; rfl
  refine ⟨bs, c, s, tag, b, _, s2, hsim, hs, etag, hp, hc2, ?_⟩
  intro hbf
  rcases probeSet_spec true _ _ s tag b s2 hsinv.1 ep with
    ⟨i, l, hb, _, _, _, _, _⟩ | ⟨i, l, _, _, hl, hu, hbelow, rfl⟩ |
    ⟨v, l, _, hfull, hl, hhead, _, rfl⟩
  · rw [hb] at hbf; cases hbf
  · obtain ⟨rfl, hmn⟩ := FifoShape_fill_index _ _ s i l hsinv.1 hsh hl hu hbelow
    rw [Nat.mod_eq_of_lt hmn]
    exact ⟨l, hl, by simp [Set.afterFill]⟩
  · have hnm := FifoShape_full _ _ s hsinv.1 hn hsh (fun j y hy => (hfull j y hy).1)
    have hq : s.toReplace = (List.range (cs / ls)).rotate (bs.count false % (cs / ls)) := by
      rw [hsh.2, if_neg (by omega)]
    have hv := hhead rfl
    rw [hq, head?_rotate_range _ _ (Nat.mod_lt _ hn)] at hv
    cases hv
    refine ⟨l, hl, ?_⟩
    have hu := (hfull _ l hl).1
    simp only [Set.afterEvict, hu]

/-- Instance of C19 at a 8-byte cache with 4-byte lines after the probes
`0, 4, 0, 8`, for address 12. -/
theorem FullyAssociativeCache.fifo_is_round_robin_witness :
    (0 < 4 ∧ 4 ≤ 8 ∧ 4 < 2 ^ 32) ∧
    ∃ bs c s tag b c2 s2,
      FullyAssociativeCache.simulate 8 4 true [0, 4, 0, 8] = some (bs, c) ∧ c.sets = [s] ∧
      FullyAssociativeCache.tagOf 4 12 = some tag ∧
      FullyAssociativeCache.AddrInCache c 12 = some (b, c2) ∧ c2.sets = [s2] ∧
      (b = false → ∃ l, s.lines[bs.count false % (8 / 4)]? = some l ∧
        s2.lines = s.lines.set (bs.count false % (8 / 4))
          { l with tag := tag, inUse := true }) :=
  ⟨by decide,
   FullyAssociativeCache.fifo_is_round_robin 8 4 [0, 4, 0, 8] 12
      (by decide) (by decide) (by decide)⟩

/-! ### Consecutive misses under the counter policy -/

theorem minCounterLoop_congr (l1 l2 : List Line)
    (h : ∀ j : Nat, (l1[j]?).map Line.counter = (l2[j]?).map Line.counter) :
    ∀ k i mi mc, minCounterLoop l1 k i mi mc = minCounterLoop l2 k i mi mc := by
  intro k
  induction k with
  | zero => intro i mi mc; rfl
  | succ k ih =>
    intro i mi mc
    have hi := h i
    unfold minCounterLoop
    rcases e1 : l1[i]? with _ | x
    · rcases e2 : l2[i]? with _ | y
      · rfl
      · rw [e1, e2] at hi; cases hi
    · rcases e2 : l2[i]? with _ | y
      · rw [e1, e2] at hi; cases hi
      · rw [e1, e2] at hi
        simp only [Option.map_some', Option.some.injEq] at hi
        simp only [hi, ih]

theorem set_same_of_getElem? (lines : List Line) (v : Nat) (lv : Line)
    (hv : lines[v]? = some lv) : lines.set v { lv with tag := lv.tag } = lines := by
  apply List.ext_getElem?
  intro j
  rw [List.getElem?_set]
  by_cases hj : v = j
  · subst hj
    rw [if_pos rfl, if_pos (getElem?_lt _ _ _ hv), hv]
  · rw [if_neg hj]

theorem counters_after_retag (lines : List Line) (v : Nat) (lv : Line) (t : Nat)
    (hv : lines[v]? = some lv) (j : Nat) :
    ((lines.set v { lv with tag := t })[j]?).map Line.counter = (lines[j]?).map Line.counter := by
  rw [List.getElem?_set]
  by_cases hj : v = j
  · subst hj
    rw [if_pos rfl, if_pos (getElem?_lt _ _ _ hv), hv]; rfl
  · rw [if_neg hj]

/-- One miss in a run of misses: if the set differs from a full set `s0` at
most in the tag of the victim `v` of `s0`, a missing probe leaves it so, with
the tag of the probe in line `v`. -/
theorem probeSet_miss_step (n : Nat) (s0 s1 : Set) (v : Nat) (lv : Line) (t1 tag : Nat)
    (s2 : Set) (hlen : s0.lines.length = n)
    (hfull : ∀ l ∈ s0.lines, l.inUse = true)
    (hvict : minCounterLoop s0.lines n 0 0 SIZE_MAX = some v) (hv : s0.lines[v]? = some lv)
    (h1 : s1.lines = s0.lines.set v { lv with tag := t1 })
    (hp : probeSet false n n s1 tag = some (false, s2)) :
    s2.lines = s0.lines.set v { lv with tag := tag } ∧ s2.toReplace = s1.toReplace := by
  have hlen1 : s1.lines.length = n := by rw [h1, List.length_set, hlen]
  have hvl : v < s0.lines.length := getElem?_lt _ _ _ hv
  have huse1 : ∀ (j : Nat) (l : Line), s1.lines[j]? = some l → l.inUse = true := by
    intro j l hl
    rw [h1] at hl
    rcases getElem?_set_cases _ _ _ _ _ hl with ⟨_, rfl, _⟩ | ⟨_, hl2⟩
    · exact hfull lv (mem_of_getElem? _ _ _ hv)
    · exact hfull l (mem_of_getElem? _ _ _ hl2)
  have hvict1 : minCounterLoop s1.lines n 0 0 SIZE_MAX = some v := by
    rw [← hvict, h1]
    exact minCounterLoop_congr _ _ (counters_after_retag _ v lv t1 hv) n 0 0 SIZE_MAX
  rcases probeSet_spec false n n s1 tag false s2 hlen1 hp with
    ⟨i, l, hb, _⟩ | ⟨i, l, _, _, hl, hu, _, _⟩ | ⟨w, l, _, _, hl, _, hmin, rfl⟩
  · cases hb
  · rw [huse1 i l hl] at hu; cases hu
  · have hw := hmin rfl
    rw [hvict1] at hw
    cases hw
    have hl2 : l = { lv with tag := t1 } := by
      rw [h1, List.getElem?_set, if_pos rfl, if_pos hvl] at hl
      cases hl; rfl
    subst hl2
    refine ⟨?_, by simp [Set.afterEvict]⟩
    simp only [Set.afterEvict, h1, List.set_set]

theorem FullyAssociativeCache.fa_run_append (xs ys : List Nat) :
    ∀ (c : Cache) (bs : List Bool) (c3 : Cache),
      FullyAssociativeCache.run c (xs ++ ys) = some (bs, c3) →
      ∃ bs1 c1 bs2, FullyAssociativeCache.run c xs = some (bs1, c1) ∧
        FullyAssociativeCache.run c1 ys = some (bs2, c3) ∧ bs = bs1 ++ bs2 := by
  induction xs with
  | nil =>
    intro c bs c3 h
    exact ⟨[], c, bs, rfl, h, rfl⟩
  | cons a as ih =>
    intro c bs c3 h
    simp only [List.cons_append, FullyAssociativeCache.run, Option.bind_eq_bind,
      Option.bind_eq_some, Option.some.injEq, Prod.mk.injEq] at h
    obtain ⟨⟨b, c1⟩, h1, ⟨bs1, c2⟩, h2, rfl, rfl⟩ := h
    rcases ih c1 bs1 c2 h2 with ⟨bsa, ca, bsb, e1, e2, rfl⟩
    refine ⟨b :: bsa, ca, bsb, ?_, e2, rfl⟩
    simp [FullyAssociativeCache.run, h1, e1]

/-- C17: in a fully associative cache under the counter policy, every trace is
processed to the end, and if it leaves all lines in use there is one line
index `v` such that every run of consecutive missing probes that follows
overwrites line `v` and nothing else: after the run, the lines are those of the
start with the tag of the last probe in line `v`.  A line with counter 0 and
the lowest index among the lines with counter 0 is that line `v`. -/
theorem FullyAssociativeCache.consecutive_misses_evict_one_line (cs ls : Nat)
    (addrs : List Nat) (h0 : 0 < ls) (hle : ls ≤ cs) (h32 : ls < 2 ^ 32) :
    ∃ bs c s, FullyAssociativeCache.simulate cs ls false addrs = some (bs, c) ∧ c.sets = [s] ∧
      ((∀ l ∈ s.lines, l.inUse = true) →
        ∃ v lv, s.lines[v]? = some lv ∧
          (∀ (z : Nat) (lz : Line), s.lines[z]? = some lz → lz.counter = 0 →
            (∀ (j : Nat) (l : Line), j < z → s.lines[j]? = some l → l.counter ≠ 0) → z = v) ∧
          ∀ (more : List Nat) (a : Nat), ∃ bs2 c3,
            FullyAssociativeCache.run c (more ++ [a]) = some (bs2, c3) ∧
            ((∀ x ∈ bs2, x = false) →
              ∃ tag s3, FullyAssociativeCache.tagOf ls a = some tag ∧ c3.sets = [s3] ∧
                s3.toReplace = s.toReplace ∧
                s3.lines = s.lines.set v { lv with tag := tag })) := by
  have hn : 0 < cs / ls := Nat.div_pos hle h0
  rcases FullyAssociativeCache.fa_simulate_total cs ls false addrs h0 hle h32 with
    ⟨bs, c, hsim, _, hinv⟩
  obtain ⟨_, _, _, s, hs, hsinv⟩ := id hinv
  refine ⟨bs, c, s, hsim, hs, ?_⟩
  intro hfull
  rcases minCounterLoop_min s.lines (cs / ls) hsinv.1 hn hsinv.2.2.1 with
    ⟨v, lv, hvict, hv, hmin, hlow⟩
  refine ⟨v, lv, hv, ?_, ?_⟩
  · intro z lz hz hz0 hzlow
    have hlv0 : lv.counter = 0 := by
      have := hmin z lz hz
      omega
    rcases Nat.lt_trichotomy z v with h | h | h
    · have := hlow z lz h hz
      omega
    · exact h
    · exact absurd hlv0 (hzlow v lv h hv)
  · intro more a
    rcases FullyAssociativeCache.fa_run_total cs ls false (more ++ [a]) h0 hle h32 c hinv with
      ⟨bs2, c3, hrun, _⟩
    refine ⟨bs2, c3, hrun, ?_⟩
    intro hall
    rcases FullyAssociativeCache.fa_run_append more [a] c bs2 c3 hrun with
      ⟨bs1, c1, bsl, hr1, hr2, rfl⟩
    have hall1 : ∀ x ∈ bs1, x = false := fun x hx => hall x (List.mem_append_left _ hx)
    rcases FullyAssociativeCache.fa_run_history cs ls false
        (fun hist s1 => (∀ x ∈ hist, x = false) →
          ∃ t1, s1.lines = s.lines.set v { lv with tag := t1 } ∧ s1.toReplace = s.toReplace)
        (fun hist s1 tag b s2 hsinv1 hP hp => by
          intro hh
          have hb : b = false := hh b (List.mem_cons_self _ _)
          subst hb
          rcases hP (fun x hx => hh x (List.mem_cons_of_mem _ hx)) with ⟨t1, e1, e2⟩
          have := probeSet_miss_step _ s s1 v lv t1 tag s2 hsinv.1 hfull hvict hv e1 hp
          exact ⟨tag, this.1, this.2.trans e2⟩)
        more c [] bs1 c1 s hinv hs
        (fun _ => ⟨lv.tag, (set_same_of_getElem? _ v lv hv).symm, rfl⟩) hr1 with
      ⟨s1, hs1, hsinv1, hP1⟩
    rw [List.append_nil] at hP1
    rcases hP1 (fun x hx => hall1 x (List.mem_reverse.1 hx)) with ⟨t1, e1, e2⟩
    have hinv1 := FullyAssociativeCache.fa_run_inv cs ls false more c bs1 c1 hinv hr1
    simp only [FullyAssociativeCache.run, Option.bind_eq_bind, Option.bind_eq_some,
      Option.some.injEq, Prod.mk.injEq] at hr2
    obtain ⟨⟨b, c2⟩, hp, ⟨bsn, cn⟩, hnil, rfl, rfl⟩ := hr2
    obtain ⟨rfl, rfl⟩ := hnil
    have hb : b = false := hall b (by simp)
    subst hb
    obtain ⟨g1, g2, g3, _⟩ := hinv1
    rcases FullyAssociativeCache.fa_AddrInCache_some c1 a false c2 hp with
      ⟨sx, tag, s3, e0, etag, ep, rfl⟩
    rw [hs1] at e0
    simp only [List.getElem?_cons_zero, Option.some.injEq] at e0
    subst e0
    rw [g1] at etag
    rw [g2, g3] at ep
    have hc3 : (c1.commit 0 (false, s3)).sets = [s3] := by
      rw [(Cache.commit_fields c1 0 (false, s3)).2.2.2.2, hs1]; rfl
    have := probeSet_miss_step _ s s1 v lv t1 tag s3 hsinv.1 hfull hvict hv e1 ep
    exact ⟨tag, s3, etag, hc3, this.2.trans e2, this.1⟩

/-- Instance of C17 at an 8-byte cache with 4-byte lines after the probes
`0, 4, 4`. -/
theorem FullyAssociativeCache.consecutive_misses_evict_one_line_witness :
    (0 < 4 ∧ 4 ≤ 8 ∧ 4 < 2 ^ 32) ∧
    ∃ bs c s, FullyAssociativeCache.simulate 8 4 false [0, 4, 4] = some (bs, c) ∧ c.sets = [s] ∧
      ((∀ l ∈ s.lines, l.inUse = true) →
        ∃ v lv, s.lines[v]? = some lv ∧
          (∀ (z : Nat) (lz : Line), s.lines[z]? = some lz → lz.counter = 0 →
            (∀ (j : Nat) (l : Line), j < z → s.lines[j]? = some l → l.counter ≠ 0) → z = v) ∧
          ∀ (more : List Nat) (a : Nat), ∃ bs2 c3,
            FullyAssociativeCache.run c (more ++ [a]) = some (bs2, c3) ∧
            ((∀ x ∈ bs2, x = false) →
              ∃ tag s3, FullyAssociativeCache.tagOf 4 a = some tag ∧ c3.sets = [s3] ∧
                s3.toReplace = s.toReplace ∧
                s3.lines = s.lines.set v { lv with tag := tag })) :=
  ⟨by decide,
   FullyAssociativeCache.consecutive_misses_evict_one_line 8 4 [0, 4, 4]
      (by decide) (by decide) (by decide)⟩

/-! ### The queue of every set, with install times -/

theorem StampInv_mono (s : Set) (st : Nat → Nat) (t : Nat) (h : StampInv s st t) :
    StampInv s st (t + 1) :=
  ⟨fun i => Nat.le_succ_of_le (h.1 i), h.2⟩

theorem probeSet_fifo_bound (n m : Nat) (s : Set) (tag : Nat) :
    probeSet true n m s tag = probeSet true n n s tag := by
  simp only [probeSet, if_true]

theorem FullyAssociativeCache.fa_runStamped_some (addrs : List Nat) :
    ∀ (c : Cache) (st : Nat → Nat) (t : Nat) (bs : List Bool) (c2 : Cache),
      FullyAssociativeCache.run c addrs = some (bs, c2) →
      ∃ st2, FullyAssociativeCache.runStamped c st t addrs = some (c2, st2) := by
  induction addrs with
  | nil =>
    intro c st t bs c2 h
    simp only [FullyAssociativeCache.run, Option.some.injEq, Prod.mk.injEq] at h
    obtain ⟨_, rfl⟩ := h
    exact ⟨st, rfl⟩
  | cons a as ih =>
    intro c st t bs c2 h
    simp only [FullyAssociativeCache.run, Option.bind_eq_bind, Option.bind_eq_some,
      Option.some.injEq, Prod.mk.injEq] at h
    obtain ⟨⟨b, c1⟩, h1, ⟨bs1, c3⟩, h2, _, rfl⟩ := h
    rcases ih c1 (restamp (t + 1) (FullyAssociativeCache.lines c)
      (FullyAssociativeCache.lines c1) st) (t + 1) bs1 c3 h2 with ⟨st2, h3⟩
    refine ⟨st2, ?_⟩
    simp only [FullyAssociativeCache.runStamped, Option.bind_eq_bind, h1, Option.some_bind]
    exact h3

theorem SetAssociativeCache.sa_runStamped_spec (cs ls assoc : Nat) (fifo : Bool)
    (addrs : List Nat) :
    ∀ (c : SetAssociativeCache) (st : Nat → Nat → Nat) (t : Nat) (bs : List Bool)
      (c2 : SetAssociativeCache),
      SetAssociativeCache.Inv cs ls assoc fifo c →
      (fifo = true → ∀ (k : Nat) (s : Set), c.sets[k]? = some s → StampInv s (st k) t) →
      SetAssociativeCache.run c addrs = some (bs, c2) →
      ∃ st2, SetAssociativeCache.runStamped c st t addrs = some (c2, st2) ∧
        (fifo = true → ∀ (k : Nat) (s : Set), c2.sets[k]? = some s →
          StampInv s (st2 k) (t + addrs.length)) := by
  induction addrs with
  | nil =>
    intro c st t bs c2 _ hst h
    simp only [SetAssociativeCache.run, Option.some.injEq, Prod.mk.injEq] at h
    obtain ⟨_, rfl⟩ := h
    exact ⟨st, rfl, hst⟩
  | cons a as ih =>
    intro c st t bs c2 hinv hst h
    simp only [SetAssociativeCache.run, Option.bind_eq_bind, Option.bind_eq_some,
      Option.some.injEq, Prod.mk.injEq] at h
    obtain ⟨⟨b, c1⟩, h1, ⟨bs1, c3⟩, h2, _, rfl⟩ := h
    have hinv1 := SetAssociativeCache.sa_AddrInCache_inv cs ls assoc fifo c a b c1 hinv h1
    have hst1 : fifo = true → ∀ (k : Nat) (s : Set), c1.sets[k]? = some s →
        StampInv s (restampSets (t + 1) c.sets c1.sets st k) (t + 1) := by
      intro hf k sk hk
      subst hf
      obtain ⟨_, _, e3, e4, _, _, hsets⟩ := hinv
      rcases SetAssociativeCache.sa_AddrInCache_some c a b c1 h1 with
        ⟨idx, tag, s, s2, _, es, ep, rfl⟩
      have hsets1 : ({ c with toCache := c.toCache.commit idx (b, s2) } :
          SetAssociativeCache).sets = c.sets.set idx s2 :=
        (Cache.commit_fields c.toCache idx (b, s2)).2.2.2.2
      rw [hsets1] at hk
      unfold restampSets
      rw [hsets1]
      rw [List.getElem?_set] at hk ⊢
      by_cases hik : idx = k
      · subst hik
        have hlt := getElem?_lt _ _ _ es
        rw [if_pos rfl, if_pos hlt] at hk ⊢
        cases hk
        rw [es]
        simp only
        rw [e3, e4, probeSet_fifo_bound] at ep
        exact probeSet_stamp assoc s tag b sk (st idx) t
          (hsets s (mem_of_getElem? _ _ _ es)) (hst rfl idx s es) ep
      · rw [if_neg hik] at hk ⊢
        rw [hk]
        simp only
        rw [restamp_same]
        exact StampInv_mono _ _ _ (hst rfl k sk hk)
    rcases ih c1 (restampSets (t + 1) c.sets c1.sets st) (t + 1) bs1 c3 hinv1 hst1 h2 with
      ⟨st2, h3, h4⟩
    refine ⟨st2, ?_, ?_⟩
    · simp only [SetAssociativeCache.runStamped, Option.bind_eq_bind, h1, Option.some_bind]
      exact h3
    · intro hf k s hk
      have := h4 hf k s hk
      rw [List.length_cons]
      rw [show t + (as.length + 1) = t + 1 + as.length by omega]
      exact this

/-- C15: in every state that `AddrInCache` calls reach from construction, in a
fully associative and in a set associative cache, with the install times kept
by `runStamped` (the number of the probe that installed the current tag of a
line): under FIFO the queue of every set holds exactly the indices of the
in-use lines of the set, each once, in the order in which their current tags
were installed, earliest first; under the counter policy every queue is
empty. -/
theorem queue_holds_in_use_lines_in_install_order (cs ls assoc : Nat) (fifo : Bool)
    (addrs : List Nat) :
    (∀ (bs : List Bool) (c : Cache),
      FullyAssociativeCache.simulate cs ls fifo addrs = some (bs, c) →
      ∃ c0 st, FullyAssociativeCache.new cs ls fifo = some c0 ∧
        FullyAssociativeCache.runStamped c0 (fun _ => 0) 0 addrs = some (c, st) ∧
        ∀ s ∈ c.sets, QueueInOrder fifo s st) ∧
    (∀ (bs : List Bool) (c : SetAssociativeCache),
      SetAssociativeCache.simulate cs ls assoc fifo addrs = some (bs, c) →
      ∃ c0 st, SetAssociativeCache.new cs ls assoc fifo = some c0 ∧
        SetAssociativeCache.runStamped c0 (fun _ _ => 0) 0 addrs = some (c, st) ∧
        ∀ (k : Nat) (s : Set), c.sets[k]? = some s → QueueInOrder fifo s (st k)) := by
  refine ⟨?_, ?_⟩
  · intro bs c h
    simp only [FullyAssociativeCache.simulate, Option.bind_eq_bind, Option.bind_eq_some] at h
    obtain ⟨c0, hc0, hr⟩ := h
    have h0 : 0 < ls := by
      rcases Nat.eq_zero_or_pos ls with e | e
      · simp [FullyAssociativeCache.new, e] at hc0
      · exact e
    rcases FullyAssociativeCache.fa_new_some cs ls fifo h0 with ⟨c0b, hc0b, hinv0, _, _⟩
    rw [hc0] at hc0b
    cases hc0b
    have hs0 : c0.sets = [Set.fresh (cs / ls)] := by
      simp only [FullyAssociativeCache.new] at hc0
      rw [if_neg (by omega)] at hc0
      cases hc0; rfl
    rcases FullyAssociativeCache.fa_runStamped_some addrs c0 (fun _ => 0) 0 bs c hr with
      ⟨st, hrs⟩
    obtain ⟨_, _, _, s1, hs1, hsinv⟩ :=
      FullyAssociativeCache.fa_run_inv cs ls fifo addrs c0 bs c hinv0 hr
    refine ⟨c0, st, hc0, hrs, ?_⟩
    intro s hs
    rw [hs1] at hs
    simp only [List.mem_singleton] at hs
    subst hs
    refine ⟨?_, hsinv.2.2.2.2⟩
    intro hf
    subst hf
    have hst0 : StampInv (Set.fresh (cs / ls)) (fun _ => 0) 0 :=
      ⟨fun _ => le_refl _, by simp [Set.fresh]⟩
    rcases FullyAssociativeCache.fa_runStamped_spec cs ls addrs c0 (fun _ => 0) 0 bs c _
      hinv0 hs0 hst0 hr with ⟨st2, s2, hrs2, hs2, hst2⟩
    rw [hrs] at hrs2
    simp only [Option.some.injEq, Prod.mk.injEq, true_and] at hrs2
    subst hrs2
    rw [hs1] at hs2
    cases hs2
    exact ⟨(hsinv.2.2.2.1 rfl).1, (hsinv.2.2.2.1 rfl).2, hst2.2⟩
  · intro bs c h
    simp only [SetAssociativeCache.simulate, Option.bind_eq_bind, Option.bind_eq_some] at h
    obtain ⟨c0, hc0, hr⟩ := h
    have hinv0 := SetAssociativeCache.sa_new_inv cs ls assoc fifo c0 hc0
    have hinv := SetAssociativeCache.sa_run_inv cs ls assoc fifo addrs c0 bs c hinv0 hr
    have hst0 : fifo = true → ∀ (k : Nat) (s : Set), c0.sets[k]? = some s →
        StampInv s ((fun _ _ => 0 : Nat → Nat → Nat) k) 0 := by
      intro _ k s hk
      have hmem := mem_of_getElem? _ _ _ hk
      unfold SetAssociativeCache.new at hc0
      split at hc0
      · cases hc0
      · split at hc0
        · cases hc0
        · cases hc0
          have := List.eq_of_mem_replicate hmem
          subst this
          exact ⟨fun _ => le_refl _, by simp [Set.fresh]⟩
    rcases SetAssociativeCache.sa_runStamped_spec cs ls assoc fifo addrs c0 (fun _ _ => 0) 0 bs c
      hinv0 hst0 hr with ⟨st, hrs, hst⟩
    refine ⟨c0, st, hc0, hrs, ?_⟩
    intro k s hk
    have hsinv := hinv.2.2.2.2.2.2 s (mem_of_getElem? _ _ _ hk)
    refine ⟨?_, hsinv.2.2.2.2⟩
    intro hf
    exact ⟨(hsinv.2.2.2.1 hf).1, (hsinv.2.2.2.1 hf).2, (hst hf k s hk).2⟩

/-- Instance of C15 under FIFO: the probes `0, 8, 16` on a fully associative
8-byte cache with 4-byte lines, and the probes `0, 4, 8, 16` on a 2-way set
associative 16-byte cache with 4-byte lines (two sets). -/
theorem queue_holds_in_use_lines_in_install_order_witness :
    (FullyAssociativeCache.simulate 8 4 true [0, 8, 16] =
        some ([false, false, false],
          Cache.mk 8 4 2 true [Set.mk [Line.mk 4 0 true, Line.mk 2 0 true] [1, 0]] 0 3) ∧
      ∃ c0 st, FullyAssociativeCache.new 8 4 true = some c0 ∧
        FullyAssociativeCache.runStamped c0 (fun _ => 0) 0 [0, 8, 16] =
          some (Cache.mk 8 4 2 true [Set.mk [Line.mk 4 0 true, Line.mk 2 0 true] [1, 0]] 0 3,
            st) ∧
        ∀ s ∈ (Cache.mk 8 4 2 true
            [Set.mk [Line.mk 4 0 true, Line.mk 2 0 true] [1, 0]] 0 3).sets,
          QueueInOrder true s st) ∧
    (SetAssociativeCache.simulate 16 4 2 true [0, 4, 8, 16] =
        some ([false, false, false, false], SetAssociativeCache.mk
          (Cache.mk 16 4 4 true
            [Set.mk [Line.mk 2 0 true, Line.mk 1 0 true] [1, 0],
             Set.mk [Line.mk 0 0 true, Line.mk 0 0 false] [0]] 0 4) 2 2) ∧
      ∃ c0 st, SetAssociativeCache.new 16 4 2 true = some c0 ∧
        SetAssociativeCache.runStamped c0 (fun _ _ => 0) 0 [0, 4, 8, 16] =
          some (SetAssociativeCache.mk
            (Cache.mk 16 4 4 true
              [Set.mk [Line.mk 2 0 true, Line.mk 1 0 true] [1, 0],
               Set.mk [Line.mk 0 0 true, Line.mk 0 0 false] [0]] 0 4) 2 2, st) ∧
        ∀ (k : Nat) (s : Set),
          (SetAssociativeCache.mk
            (Cache.mk 16 4 4 true
              [Set.mk [Line.mk 2 0 true, Line.mk 1 0 true] [1, 0],
               Set.mk [Line.mk 0 0 true, Line.mk 0 0 false] [0]] 0 4) 2 2).sets[k]? = some s →
          QueueInOrder true s (st k)) :=
  ⟨⟨by decide,
      (queue_holds_in_use_lines_in_install_order 8 4 2 true [0, 8, 16]).1
        [false, false, false] _ (by decide)⟩,
   ⟨by decide,
      (queue_holds_in_use_lines_in_install_order 16 4 2 true [0, 4, 8, 16]).2
        [false, false, false, false] _ (by decide)⟩⟩

/-! ### The counter of a line is a `std::size_t` -/

/-- Probing address 0 again and again on a one-line cache that holds tag 0:
every probe hits and increments the counter of the line modulo `2^64`. -/
theorem FullyAssociativeCache.fa_repeated_hits (k : Nat) :
    ∀ (c : Cache) (s : Set) (cnt : Nat), FullyAssociativeCache.Inv 4 4 false c →
      c.sets = [s] → s.lines = [Line.mk 0 cnt true] →
      ∃ bs c2 s2, FullyAssociativeCache.run c (List.replicate k 0) = some (bs, c2) ∧
        FullyAssociativeCache.Inv 4 4 false c2 ∧ c2.sets = [s2] ∧
        s2.lines = [Line.mk 0 ((cnt + k) % SIZE_MOD) true] ∧ bs = List.replicate k true ∧
        ∀ (c3 : Cache), FullyAssociativeCache.AddrInCache c2 0 = some (false, c3) → False := by
  have htag : FullyAssociativeCache.tagOf 4 0 = some 0 := by decide
  have hstep : ∀ (c : Cache) (s : Set) (cnt : Nat), FullyAssociativeCache.Inv 4 4 false c →
      c.sets = [s] → s.lines = [Line.mk 0 cnt true] →
      ∀ (b : Bool) (c1 : Cache), FullyAssociativeCache.AddrInCache c 0 = some (b, c1) →
        b = true ∧ ∃ s1, c1.sets = [s1] ∧ s1.lines = [Line.mk 0 ((cnt + 1) % SIZE_MOD) true] := by
    intro c s cnt hinv hs hl b c1 h1
    obtain ⟨g1, g2, g3, sx, hsx, hsinv⟩ := hinv
    rw [hs] at hsx; cases hsx
    rcases FullyAssociativeCache.fa_AddrInCache_some c 0 b c1 h1 with ⟨s0, tag, s1, e0, etag, ep, rfl⟩
    rw [hs] at e0
    simp only [List.getElem?_cons_zero, Option.some.injEq] at e0
    subst e0
    rw [g1, htag] at etag
    cases etag
    rw [g2, g3] at ep
    have hc1 : (c.commit 0 (b, s1)).sets = [s1] := by
      rw [(Cache.commit_fields c 0 (b, s1)).2.2.2.2, hs]; rfl
    have h00 : s.lines[0]? = some (Line.mk 0 cnt true) := by rw [hl]; rfl
    rcases probeSet_spec false _ _ s 0 b s1 hsinv.1 ep with
      ⟨i, l, hb, hli, _, _, _, rfl⟩ | ⟨i, l, _, hno, _, _, _, _⟩ | ⟨v, l, _, hfull, _, _, _, _⟩
    · refine ⟨hb, _, hc1, ?_⟩
      have hi : i = 0 := by
        have := getElem?_lt _ _ _ hli
        rw [hl] at this
        simpa using this
      subst hi
      rw [h00] at hli
      cases hli
      simp [Set.afterHit, hl]
    · exact absurd ⟨rfl, rfl⟩ (hno 0 _ h00)
    · exact absurd rfl (hfull 0 _ h00).2
  induction k with
  | zero =>
    intro c s cnt hinv hs hl
    refine ⟨[], c, s, rfl, hinv, hs, ?_, rfl, ?_⟩
    · have hb : cnt ≤ SIZE_MAX := by
        obtain ⟨_, _, _, sx, hsx, hsinv⟩ := hinv
        rw [hs] at hsx; cases hsx
        exact hsinv.2.2.1 0 (Line.mk 0 cnt true) (by rw [hl]; rfl)
      rw [Nat.add_zero, Nat.mod_eq_of_lt]
      · exact hl
      · simp only [SIZE_MAX] at hb
        simp only [SIZE_MOD]
        omega
    · intro c3 h3
      have := (hstep c s cnt hinv hs hl false c3 h3).1
      cases this
  | succ k ih =>
    intro c s cnt hinv hs hl
    rcases FullyAssociativeCache.fa_AddrInCache_total 4 4 false c 0 hinv (by decide) (by decide)
      (by decide) with ⟨b, c1, h1⟩
    have hinv1 := FullyAssociativeCache.fa_AddrInCache_inv 4 4 false c 0 b c1 hinv h1
    rcases hstep c s cnt hinv hs hl b c1 h1 with ⟨hb, s1, hs1, hl1⟩
    rcases ih c1 s1 _ hinv1 hs1 hl1 with ⟨bs, c2, s2, hr, hinv2, hs2, hl2, hbs, hno⟩
    refine ⟨b :: bs, c2, s2, ?_, hinv2, hs2, ?_, ?_, hno⟩
    · rw [List.replicate_succ]
      simp [FullyAssociativeCache.run, h1, hr]
    · rw [hl2, Nat.mod_add_mod]
      congr 3
      omega
    · rw [hb, hbs, List.replicate_succ]

/-- The trace of `k + 1` probes of address 0 on a 4-byte cache with 4-byte
lines under the counter policy: one miss, then `k` hits; the line has counter
`k mod 2^64`, `hits` is `k mod 2^32`, `misses` is 1, and one more probe of
address 0 hits and increments the counter modulo `2^64`. -/
theorem FullyAssociativeCache.fa_simulate_hits (k : Nat) :
    ∃ c s c3 s3,
      FullyAssociativeCache.simulate 4 4 false (List.replicate (k + 1) 0) =
        some (false :: List.replicate k true, c) ∧
      c.sets = [s] ∧ s.lines = [Line.mk 0 (k % SIZE_MOD) true] ∧
      c.hits = k % UINT32_MOD ∧ c.misses = 1 ∧
      FullyAssociativeCache.AddrInCache c 0 = some (true, c3) ∧ c3.sets = [s3] ∧
      s3.lines = [Line.mk 0 ((k % SIZE_MOD + 1) % SIZE_MOD) true] := by
  have h1 : FullyAssociativeCache.simulate 4 4 false [0] =
      some ([false], Cache.mk 4 4 1 false [Set.mk [Line.mk 0 0 true] []] 0 1) := by decide
  have hinv1 : FullyAssociativeCache.Inv 4 4 false
      (Cache.mk 4 4 1 false [Set.mk [Line.mk 0 0 true] []] 0 1) := by
    rcases FullyAssociativeCache.fa_simulate_total 4 4 false [0] (by decide) (by decide)
      (by decide) with ⟨bs, c, hsim, _, hinv⟩
    rw [h1] at hsim
    cases hsim
    exact hinv
  rcases FullyAssociativeCache.fa_repeated_hits k _ _ 0 hinv1 rfl rfl with
    ⟨bs, c2, s2, hr, hinv2, hs2, hl2, hbs, hno⟩
  subst hbs
  rw [Nat.zero_add] at hl2
  rcases FullyAssociativeCache.fa_AddrInCache_total 4 4 false c2 0 hinv2 (by decide) (by decide)
    (by decide) with ⟨b, c3, h3⟩
  have hb : b = true := by
    cases b
    · exact absurd h3 (fun h => hno c3 h)
    · rfl
  subst hb
  rcases FullyAssociativeCache.fa_repeated_hits 1 c2 s2 _ hinv2 hs2 hl2 with
    ⟨bs3, c4, s4, hr4, _, hs4, hl4, _, _⟩
  have hc4 : c4 = c3 := by
    simp only [List.replicate, FullyAssociativeCache.run, Option.bind_eq_bind, h3,
      Option.some_bind, Option.some.injEq, Prod.mk.injEq] at hr4
    exact hr4.2.symm
  subst hc4
  have hcnt := FullyAssociativeCache.fa_run_counters (List.replicate k 0) _ _ c2
    (by decide) (by decide) hr
  have hsim : FullyAssociativeCache.simulate 4 4 false (List.replicate (k + 1) 0)
      = some (false :: List.replicate k true, c2) := by
    rw [List.replicate_succ]
    simp only [FullyAssociativeCache.simulate, FullyAssociativeCache.run, Option.bind_eq_bind,
      Option.bind_eq_some] at h1 ⊢
    obtain ⟨c0, hc0, ⟨b1, c1⟩, ha, r0, hr0, hrest⟩ := h1
    simp only [Option.some.injEq] at hr0
    subst hr0
    simp only [Option.some.injEq, Prod.mk.injEq, List.cons.injEq, and_true] at hrest
    obtain ⟨hb1, hc1⟩ := hrest
    subst hb1 hc1
    exact ⟨c0, hc0, (false, _), ha, (List.replicate k true, c2), hr, rfl⟩
  refine ⟨c2, s2, c4, s4, hsim, hs2, hl2, ?_, ?_, h3, hs4, hl4⟩
  · rw [hcnt.1]
    simp
  · have h0 : List.count false (List.replicate k true) = 0 :=
      List.count_eq_zero_of_not_mem (by simp [List.mem_replicate])
    rw [hcnt.2.1, h0]
    decide

/-- C16 (as stated, refuted): on a 4-byte cache with 4-byte lines under
the counter policy, after `2^64` probes of address 0 (one miss, then
`2^64 - 1` hits) the counter of the line is `2^64 - 1`; the next probe of
address 0 hits that line and leaves its counter at 0, not at `2^64`. -/
theorem FullyAssociativeCache.counter_wraps_on_hit :
    (FullyAssociativeCache.simulate 4 4 false (List.replicate (2 ^ 64) 0)).bind (fun r =>
      (FullyAssociativeCache.AddrInCache r.2 0).map (fun r2 =>
        (r.2.sets.map (fun s => s.lines.map Line.counter), r2.1,
          r2.2.sets.map (fun s => s.lines.map Line.counter))))
      = some ([[2 ^ 64 - 1]], true, [[0]]) := by
  rcases FullyAssociativeCache.fa_simulate_hits (2 ^ 64 - 1) with
    ⟨c, s, c3, s3, hsim, hs, hl, _, _, h3, hs3, hl3⟩
  have e1 : (2 ^ 64 - 1 + 1 : Nat) = 2 ^ 64 := by norm_num
  have e2 : (2 ^ 64 - 1) % SIZE_MOD = 2 ^ 64 - 1 := by
    simp only [SIZE_MOD]; norm_num
  have e3 : (2 ^ 64 - 1 + 1) % SIZE_MOD = 0 := by
    simp only [SIZE_MOD]; norm_num
  rw [e1] at hsim
  rw [e2] at hl hl3
  rw [e3] at hl3
  rw [hsim]
  simp only [Option.some_bind, h3, Option.map_some', hs, hs3, hl, hl3, List.map_cons,
    List.map_nil]

/-- C11 (as stated, refuted): after `2^32` probes of address 0 on a
4-byte fully associative cache with 4-byte lines (one miss, then `2^32 - 1`
hits), `hits` is `2^32 - 1` and `misses` is 1, the `uint32_t` sum
`hits + misses` is 0, and `HitRate()` and `MissRate()` are both `+inf`, not
`hits / (hits + misses)` and `misses / (hits + misses)`. -/
theorem FullyAssociativeCache.rates_after_wrapped_sum :
    (FullyAssociativeCache.simulate 4 4 false (List.replicate (2 ^ 32) 0)).map
        (fun r => (r.2.hits, r.2.misses, r.2.HitRate, r.2.MissRate))
      = some (2 ^ 32 - 1, 1, Rate.inf, Rate.inf) := by
  rcases FullyAssociativeCache.fa_simulate_hits (2 ^ 32 - 1) with
    ⟨c, s, c3, s3, hsim, _, _, hh, hm, _, _, _⟩
  have e1 : (2 ^ 32 - 1 + 1 : Nat) = 2 ^ 32 := by norm_num
  have e2 : (2 ^ 32 - 1) % UINT32_MOD = 2 ^ 32 - 1 := by
    simp only [UINT32_MOD]; norm_num
  rw [e1] at hsim
  rw [e2] at hh
  rw [hsim]
  simp only [Option.map_some', Cache.HitRate, Cache.MissRate, divDouble, hh, hm]
  decide

end CacheSim
